import Mathlib

/-!
# pinentry-dmenu: secure input buffer, keyboard dispatcher and session controller

A shallow embedding of `src/pinentry-dmenu.c`.  The C globals become the fields of
`State`; every C function that touches them becomes a function from `State` to
`Except Fault State` (or to a pair with its return value).  Undefined behaviour of
the C program (a NULL or freed pointer dereferenced, an access outside the
allocated block, a signed overflow, a division by zero) is an explicit `Fault`.
The layout arithmetic of `drawmenu` is a function of the widths that `setup` and
the drawing library have measured (`Geometry`).
-/

namespace PinentryDmenu

/-! ## Faults -/

/-- Ways in which a C function of the program fails to return normally. -/
inductive Fault where
  /-- a NULL (or freed) pointer is dereferenced -/
  | badPointer
  /-- a read or write outside the allocated block -/
  | outOfBounds
  /-- signed `int` arithmetic leaves the range of `int` -/
  | intOverflow
  /-- a loop that never ends -/
  | diverges
  /-- `XNextEvent` waits for an event that never comes -/
  | blocked
  /-- the process ends through `exit(1)` -/
  | exited
  /-- an integer division whose divisor is zero -/
  | divByZero
  deriving DecidableEq, Repr

/-! ## Machine integers -/

/-- Largest value of a C `int` (32 bits). -/
def INT_MAX : Int := 2147483647

/-- Number of values of a `size_t` (64 bits). -/
def SIZE_MOD : Int := 18446744073709551616

/-- Conversion of a signed value to `size_t`: reduction modulo `2^64`. -/
def toSizeT (i : Int) : Nat := (i % SIZE_MOD).toNat

/-- Conversion of a `size_t` value to `ssize_t`: values from `2^63` on are negative. -/
def toSSizeT (n : Nat) : Int :=
  if n % 18446744073709551616 < 9223372036854775808 then ((n % 18446744073709551616 : Nat) : Int)
  else ((n % 18446744073709551616 : Nat) : Int) - 18446744073709551616

/-- Conversion of a `size_t` value to `int` (`old = cursor`): reduction to 32 bits,
two's complement. -/
def toInt (n : Nat) : Int :=
  if n % 4294967296 < 2147483648 then ((n % 4294967296 : Nat) : Int)
  else ((n % 4294967296 : Nat) : Int) - 4294967296

/-- The result of signed `int` arithmetic: a value outside the range of `int` is
undefined behaviour. -/
def checkInt (i : Int) : Except Fault Int :=
  if -INT_MAX - 1 ≤ i ∧ i ≤ INT_MAX then .ok i else .error .intOverflow

/-! ## Memory blocks -/

/-- An allocated region: its bytes, in order; the length of the list is the
allocated size. -/
abbrev Block := List Nat

/-- The libc `strlen` on a block: offset of the first NUL byte.  A block
without NUL byte makes `strlen` read past the allocation. -/
def strlen (b : Block) : Except Fault Nat :=
  if 0 ∈ b then .ok (b.takeWhile (fun c => c ≠ 0)).length else .error .outOfBounds

/-- The C string held by a block: the bytes before the first NUL. -/
def cstr (b : Block) : List Nat := b.takeWhile (fun c => c ≠ 0)

/-- Read of `p[i]` for a signed index `i`. -/
def readByte (b : Block) (i : Int) : Except Fault Nat :=
  if 0 ≤ i ∧ i < b.length then .ok (b.getD i.toNat 0) else .error .outOfBounds

/-- Write of `p[i] = v` for an unsigned index `i`. -/
def writeByte (b : Block) (i : Nat) (v : Nat) : Except Fault Block :=
  if i < b.length then .ok (b.set i v) else .error .outOfBounds

/-- The libc `memmove(&p[dst], &p[src], cnt)` inside one block. -/
def memmove (b : Block) (dst src cnt : Nat) : Except Fault Block :=
  if dst + cnt ≤ b.length ∧ src + cnt ≤ b.length then
    .ok (b.take dst ++ (b.drop src).take cnt ++ b.drop (dst + cnt))
  else .error .outOfBounds

/-- The libc `memcpy(&p[dst], str, cnt)` from a source run `str` that lies outside the
block. -/
def memcpy (b : Block) (dst : Nat) (str : List Nat) (cnt : Nat) : Except Fault Block :=
  if dst + cnt ≤ b.length ∧ cnt ≤ str.length then
    .ok (b.take dst ++ str.take cnt ++ b.drop (dst + cnt))
  else .error .outOfBounds

/-! ## The secure allocator (external collaborator) -/

/-- The secure-memory provider behind `secmem_malloc` and `secmem_realloc`: whether a
request of a given size is granted, and the byte found at each offset of storage that
has not been written yet. -/
structure Secmem where
  grants : Nat → Bool
  fresh : Nat → Nat

/-- Allocator call `secmem_malloc(n)`: `none` is the NULL pointer. -/
def secmem_malloc (m : Secmem) (n : Int) : Option Block :=
  if 0 ≤ n ∧ m.grants n.toNat = true then some ((List.range n.toNat).map m.fresh) else none

/-- Allocator call `secmem_realloc(p, n)`: on success the content is kept up to the
smaller of the two sizes; `none` is the NULL pointer. -/
def secmem_realloc (m : Secmem) (p : Option Block) (n : Int) : Option Block :=
  if 0 ≤ n ∧ m.grants n.toNat = true then
    match p with
    | none => some ((List.range n.toNat).map m.fresh)
    | some old =>
      some (old.take n.toNat ++ (List.range' old.length (n.toNat - old.length)).map m.fresh)
  else none

/-! ## Program state -/

/-- The fields of `struct pinentry` that the program reads or writes. -/
structure Pinentry where
  /-- the caller's secret buffer; `none` is NULL (no secret requested) -/
  pin : Option Block
  pin_len : Int
  canceled : Int
  /-- whether `repeat_passphrase` is non-NULL -/
  repeat_passphrase : Bool
  repeat_okay : Int
  result : Int
  deriving DecidableEq, Repr

/-- The block the global pointer `pin` refers to: it is NULL or it aliases
`pinentry_info->pin` or `pin_repeat`. -/
inductive PinRef where
  | null
  | info
  | rep
  deriving DecidableEq, Repr

/-- Enumeration `{ Nothing, Yes, No }`. -/
def Nothing : Nat := 0

/-- Enumeration constant `Yes`. -/
def Yes : Nat := 1

/-- Enumeration constant `No`. -/
def No : Nat := 2

/-- Enumeration `{ WinPin, WinConfirm }`. -/
def WinPin : Nat := 0

/-- Enumeration constant `WinConfirm`. -/
def WinConfirm : Nat := 1

/-- The file-scope variables of `pinentry-dmenu.c` that the input buffer, the
dispatcher and the session controller use. -/
structure State where
  sel : Nat
  cursor : Nat
  pin : PinRef
  pin_len : Int
  /-- the repeat buffer; `none` is NULL or a freed block -/
  pin_repeat : Option Block
  pin_repeat_len : Int
  /-- the variable `repeat` -/
  repeatPass : Int
  winmode : Nat
  pinentry_info : Pinentry
  deriving DecidableEq, Repr

/-- The block behind the pointer `pin`, if it is valid. -/
def State.block (s : State) : Option Block :=
  match s.pin with
  | .null => none
  | .info => s.pinentry_info.pin
  | .rep => s.pin_repeat

/-- Dereference of `pin`. -/
def State.deref (s : State) : Except Fault Block :=
  match s.block with
  | none => .error .badPointer
  | some b => .ok b

/-- Store through the pointer `pin`: the block it aliases is replaced by `b`. -/
def State.store (s : State) (b : Block) : State :=
  match s.pin with
  | .null => s
  | .info => { s with pinentry_info := { s.pinentry_info with pin := some b } }
  | .rep => { s with pin_repeat := some b }

/-! ## `nextrune` -/

/-- The loop of `nextrune`: while `n + inc >= 0` and `pin[n]` is a continuation byte,
`n += inc`.  `fuel` bounds the number of iterations. -/
def nextruneLoop (b : Block) (inc : Int) : Nat → Int → Except Fault Int
  | 0, _ => .error .diverges
  | fuel + 1, n =>
    if 0 ≤ n + inc then
      match readByte b n with
      | .error f => .error f
      | .ok c => if c &&& 0xc0 = 0x80 then nextruneLoop b inc fuel (n + inc) else .ok n
    else .ok n

/-- Source function `nextrune(inc)`: location of the next rune in the given direction.
Every iteration moves `n` by `inc` and reads `pin[n]` inside the block, so
`length + 1` iterations suffice unless `inc = 0`. -/
def nextrune (s : State) (inc : Int) : Except Fault Nat := do
  let b ← s.deref
  let n ← nextruneLoop b inc (b.length + 1) (toSSizeT (toSizeT (s.cursor + inc)))
  pure (toSizeT n)

/-! ## `setup_pin` and `insert` -/

/-- Source function `setup_pin(pin_ptr, len, reset)`.  The prompt width is not part of
the state. -/
def setup_pin (s : State) (pin_ptr : PinRef) (len : Int) (reset : Bool) :
    Except Fault State :=
  let s1 := { s with pin := pin_ptr, pin_len := len }
  if reset then
    let s2 := { s1 with cursor := 0 }
    match s2.block with
    | none => .ok s2
    | some b => do
      let b1 ← writeByte b 0 0
      pure (s2.store b1)
  else .ok s1

/-- Modelled from the spec: `pinentry_setbufferlen` (pinentry/pinentry.c is not among
the sources).  The buffer of the caller grows to the requested size through the
secure allocator, its content preserved; the result tells whether the returned
pointer is non-NULL.  A refused request leaves the structure as it was. -/
def pinentry_setbufferlen (m : Secmem) (pe : Pinentry) (len : Int) : Pinentry × Bool :=
  match secmem_realloc m pe.pin len with
  | none => (pe, false)
  | some b => ({ pe with pin := some b, pin_len := len }, true)

/-- The growth branch of `insert` (taken when `len + n > pin_len - 1`), up to the test
`pin_len == 0`. -/
def insertGrow (m : Secmem) (s : State) : Except Fault State :=
  if s.repeatPass ≠ 0 then
    if INT_MAX < 2 * s.pin_repeat_len ∨ 2 * s.pin_repeat_len < -INT_MAX - 1 then
      .error .intOverflow
    else do
      let s1 := { s with pin_repeat_len := 2 * s.pin_repeat_len }
      let s2 := { s1 with pin_repeat := secmem_realloc m s1.pin_repeat s1.pin_repeat_len }
      let s3 ← setup_pin s2 .rep s2.pin_repeat_len false
      if s3.pin_repeat.isNone then pure { s3 with pin_len := 0 } else pure s3
  else
    if INT_MAX < 2 * s.pinentry_info.pin_len ∨ 2 * s.pinentry_info.pin_len < -INT_MAX - 1 then
      .error .intOverflow
    else
      match pinentry_setbufferlen m s.pinentry_info (2 * s.pinentry_info.pin_len) with
      | (pe, false) => .ok { s with pinentry_info := pe, pin_len := 0 }
      | (pe, true) => setup_pin { s with pinentry_info := pe } .info pe.pin_len false

/-- The splice of `insert` after the capacity test: `memmove`, `memcpy`, the cursor
update and the new terminator. -/
def insertSplice (s : State) (len : Nat) (str : List Nat) (n : Int) : Except Fault State := do
  let b ← s.deref
  let b1 ← memmove b (toSizeT (s.cursor + n)) s.cursor (toSizeT (s.pin_len - s.cursor - max n 0))
  let b2 ← if 0 < n then memcpy b1 s.cursor str n.toNat else pure b1
  let b3 ← writeByte b2 (toSizeT (len + n)) 0
  pure { s.store b3 with cursor := toSizeT (s.cursor + n) }

/-- Source function `insert(str, n)`. -/
def insert (m : Secmem) (s : State) (str : List Nat) (n : Int) : Except Fault State := do
  let b ← s.deref
  let len ← strlen b
  if toSizeT (s.pin_len - 1) < toSizeT (len + n) then
    let s1 ← insertGrow m s
    if s1.pin_len = 0 then pure s1 else insertSplice s1 len str n
  else insertSplice s len str n

/-! ## Key symbols and events -/

/-- Modifier bit `ShiftMask` of `X11/X.h`. -/
def ShiftMask : Nat := 1

/-- Modifier bit `ControlMask` of `X11/X.h`. -/
def ControlMask : Nat := 4

/-- Status value `XBufferOverflow` of `X11/Xlib.h`. -/
def XBufferOverflow : Int := -1

/-- Key symbol of `X11/keysymdef.h`. -/
def XK_BackSpace : Nat := 0xff08
/-- Key symbol of `X11/keysymdef.h`. -/
def XK_Return : Nat := 0xff0d
/-- Key symbol of `X11/keysymdef.h`. -/
def XK_Escape : Nat := 0xff1b
/-- Key symbol of `X11/keysymdef.h`. -/
def XK_Delete : Nat := 0xffff
/-- Key symbol of `X11/keysymdef.h`. -/
def XK_Home : Nat := 0xff50
/-- Key symbol of `X11/keysymdef.h`. -/
def XK_Left : Nat := 0xff51
/-- Key symbol of `X11/keysymdef.h`. -/
def XK_Up : Nat := 0xff52
/-- Key symbol of `X11/keysymdef.h`. -/
def XK_Right : Nat := 0xff53
/-- Key symbol of `X11/keysymdef.h`. -/
def XK_Down : Nat := 0xff54
/-- Key symbol of `X11/keysymdef.h`. -/
def XK_Prior : Nat := 0xff55
/-- Key symbol of `X11/keysymdef.h`. -/
def XK_Next : Nat := 0xff56
/-- Key symbol of `X11/keysymdef.h`. -/
def XK_End : Nat := 0xff57
/-- Key symbol of `X11/keysymdef.h`. -/
def XK_KP_Enter : Nat := 0xff8d
/-- Key symbol of `X11/keysymdef.h`. -/
def XK_KP_Home : Nat := 0xff95
/-- Key symbol of `X11/keysymdef.h`. -/
def XK_KP_Left : Nat := 0xff96
/-- Key symbol of `X11/keysymdef.h`. -/
def XK_KP_Up : Nat := 0xff97
/-- Key symbol of `X11/keysymdef.h`. -/
def XK_KP_Right : Nat := 0xff98
/-- Key symbol of `X11/keysymdef.h`. -/
def XK_KP_Down : Nat := 0xff99
/-- Key symbol of `X11/keysymdef.h`. -/
def XK_KP_Prior : Nat := 0xff9a
/-- Key symbol of `X11/keysymdef.h`. -/
def XK_KP_End : Nat := 0xff9c
/-- Key symbol of `X11/keysymdef.h`. -/
def XK_KP_Delete : Nat := 0xff9f
/-- Key symbol of `X11/keysymdef.h`. -/
def XK_bracketleft : Nat := 0x5b
/-- Key symbol of `X11/keysymdef.h`. -/
def XK_G : Nat := 0x47
/-- Key symbol of `X11/keysymdef.h`. -/
def XK_N : Nat := 0x4e
/-- Key symbol of `X11/keysymdef.h`. -/
def XK_Y : Nat := 0x59
/-- Key symbol of `X11/keysymdef.h`. -/
def XK_a : Nat := 0x61
/-- Key symbol of `X11/keysymdef.h`. -/
def XK_b : Nat := 0x62
/-- Key symbol of `X11/keysymdef.h`. -/
def XK_c : Nat := 0x63
/-- Key symbol of `X11/keysymdef.h`. -/
def XK_d : Nat := 0x64
/-- Key symbol of `X11/keysymdef.h`. -/
def XK_e : Nat := 0x65
/-- Key symbol of `X11/keysymdef.h`. -/
def XK_f : Nat := 0x66
/-- Key symbol of `X11/keysymdef.h`. -/
def XK_g : Nat := 0x67
/-- Key symbol of `X11/keysymdef.h`. -/
def XK_h : Nat := 0x68
/-- Key symbol of `X11/keysymdef.h`. -/
def XK_j : Nat := 0x6a
/-- Key symbol of `X11/keysymdef.h`. -/
def XK_k : Nat := 0x6b
/-- Key symbol of `X11/keysymdef.h`. -/
def XK_l : Nat := 0x6c
/-- Key symbol of `X11/keysymdef.h`. -/
def XK_n : Nat := 0x6e
/-- Key symbol of `X11/keysymdef.h`. -/
def XK_u : Nat := 0x75
/-- Key symbol of `X11/keysymdef.h`. -/
def XK_v : Nat := 0x76
/-- Key symbol of `X11/keysymdef.h`. -/
def XK_y : Nat := 0x79

/-- A key press as `keypress` sees it: the modifier state of the `XKeyEvent` and what
`XmbLookupString` delivers for it (key symbol, the content of the lookup buffer, the
returned byte count and the status). -/
structure XKeyEvent where
  state : Nat
  ksym : Nat
  buf : List Nat
  len : Int
  status : Int
  deriving DecidableEq, Repr

/-- The events that `run` distinguishes. -/
inductive XEvent where
  /-- an event that `XFilterEvent` takes away, or of a type `run` has no case for -/
  | ignored
  /-- `DestroyNotify`; the flag tells whether it is for the menu window -/
  | destroyNotify (forWin : Bool)
  /-- `Expose` -/
  | expose
  /-- `KeyPress` -/
  | keyPress (ev : XKeyEvent)
  /-- `SelectionNotify`: whether its property is `utf8`, and the bytes that
  `XGetWindowProperty` then delivers (`none`: no success or no data) -/
  | selectionNotify (isUtf8 : Bool) (prop : Option (List Nat))
  /-- `VisibilityNotify` -/
  | visibilityNotify
  deriving DecidableEq, Repr

/-- The libc `iscntrl` on an `unsigned char` (C and UTF-8 locales). -/
def iscntrl (c : Nat) : Bool := c < 32 || c = 127

/-- Assignment `pinentry_info->canceled = 1`. -/
def State.cancel (s : State) : State :=
  { s with pinentry_info := { s.pinentry_info with canceled := 1 } }

/-! ## The keyboard dispatcher -/

/-- Source function `keypress_confirm(ev, ksym)`: the new state and the returned value. -/
def keypress_confirm (s : State) (ev : XKeyEvent) (ksym : Nat) : State × Int :=
  if ev.state &&& ControlMask ≠ 0 then
    if ksym = XK_c then ({ s.cancel with sel := No }, 1)
    else (s, 1)
  else if ksym = XK_KP_Enter ∨ ksym = XK_Return then
    if s.sel ≠ Nothing then (s, 1) else (s, 0)
  else if ksym = XK_y ∨ ksym = XK_Y then ({ s with sel := Yes }, 1)
  else if ksym = XK_n ∨ ksym = XK_N then ({ s with sel := No }, 1)
  else if ksym = XK_g ∨ ksym = XK_G ∨ ksym = XK_Escape then ({ s.cancel with sel := No }, 1)
  else if ksym = XK_h ∨ ksym = XK_j ∨ ksym = XK_Home ∨ ksym = XK_KP_Home ∨ ksym = XK_Left
      ∨ ksym = XK_KP_Left ∨ ksym = XK_Prior ∨ ksym = XK_KP_Prior ∨ ksym = XK_Up
      ∨ ksym = XK_KP_Up then ({ s with sel := No }, 0)
  else if ksym = XK_k ∨ ksym = XK_l ∨ ksym = XK_Down ∨ ksym = XK_KP_Down ∨ ksym = XK_End
      ∨ ksym = XK_Next ∨ ksym = XK_Right ∨ ksym = XK_KP_Right then ({ s with sel := Yes }, 0)
  else (s, 0)

/-- The case `XK_BackSpace` of `keypress_pin`, which `XK_Delete` falls through to. -/
def keypress_pin_backspace (m : Secmem) (s : State) : Except Fault (State × Int) :=
  if s.cursor = 0 then pure (s, 0)
  else do
    let r ← nextrune s (-1)
    let s1 ← insert m s [] (toSSizeT (toSizeT ((r : Int) - s.cursor)))
    pure (s1, 0)

/-- The second `switch` of `keypress_pin`, on the key symbol after the control
remapping. -/
def keypress_pin_switch (m : Secmem) (s : State) (ksym : Nat) (buf : List Nat) (len : Int) :
    Except Fault (State × Int) :=
  if ksym = XK_Delete ∨ ksym = XK_KP_Delete then do
    let b ← s.deref
    let c ← readByte b s.cursor
    if c = 0 then pure (s, 0)
    else do
      let r ← nextrune s 1
      keypress_pin_backspace m { s with cursor := r }
  else if ksym = XK_BackSpace then keypress_pin_backspace m s
  else if ksym = XK_Escape then pure (s.cancel, 1)
  else if ksym = XK_Left ∨ ksym = XK_KP_Left then
    if 0 < s.cursor then do
      let r ← nextrune s (-1)
      pure ({ s with cursor := r }, 0)
    else pure (s, 0)
  else if ksym = XK_Right ∨ ksym = XK_KP_Right then do
    let b ← s.deref
    let c ← readByte b s.cursor
    if c ≠ 0 then do
      let r ← nextrune s 1
      pure ({ s with cursor := r }, 0)
    else pure (s, 0)
  else if ksym = XK_Home ∨ ksym = XK_KP_Home then pure ({ s with cursor := 0 }, 0)
  else if ksym = XK_End ∨ ksym = XK_KP_End then do
    let b ← s.deref
    let l ← strlen b
    pure ({ s with cursor := l }, 0)
  else if ksym = XK_Return ∨ ksym = XK_KP_Enter then pure (s, 1)
  else if iscntrl (buf.headD 0) = false then do
    let s1 ← insert m s buf len
    pure (s1, 0)
  else pure (s, 0)

/-- Source function `keypress_pin(ev, ksym, buf, len)`: the new state and the returned
value.  The request `XConvertSelection` of Ctrl-V changes nothing in the state. -/
def keypress_pin (m : Secmem) (s : State) (ev : XKeyEvent) (ksym : Nat) (buf : List Nat)
    (len : Int) : Except Fault (State × Int) :=
  if ev.state &&& ControlMask ≠ 0 then
    if ksym = XK_a then keypress_pin_switch m s XK_Home buf len
    else if ksym = XK_b then keypress_pin_switch m s XK_Left buf len
    else if ksym = XK_c then keypress_pin_switch m s XK_Escape buf len
    else if ksym = XK_d then keypress_pin_switch m s XK_Delete buf len
    else if ksym = XK_e then keypress_pin_switch m s XK_End buf len
    else if ksym = XK_f then keypress_pin_switch m s XK_Right buf len
    else if ksym = XK_g then keypress_pin_switch m s XK_Escape buf len
    else if ksym = XK_h then keypress_pin_switch m s XK_BackSpace buf len
    else if ksym = XK_k then do
      let old := toInt s.cursor
      let b ← s.deref
      let l ← strlen b
      let s1 := { s with cursor := l }
      let s2 ← insert m s1 [] (toSSizeT (toSizeT (old - (s1.cursor : Int))))
      keypress_pin_switch m s2 ksym buf len
    else if ksym = XK_u then do
      let s1 ← insert m s [] (toSSizeT (toSizeT (-(s.cursor : Int))))
      keypress_pin_switch m s1 ksym buf len
    else if ksym = XK_v then pure (s, 0)
    else if ksym = XK_Return ∨ ksym = XK_KP_Enter then keypress_pin_switch m s ksym buf len
    else if ksym = XK_bracketleft then pure (s.cancel, 1)
    else pure (s, 1)
  else keypress_pin_switch m s ksym buf len

/-- Modelled from the spec: the mask glyph `asterisk` of `config.h` (not among the
sources), at its default "*". -/
def asterisk : Block := [0x2a, 0]

/-- Modelled from the spec: the call `ecalloc(1, size)` of `util.c` (not among the sources)
that provides the display string: zeroed storage of `size` bytes from the libc `calloc`.
A request that `calloc` cannot serve (taken to be one beyond `PTRDIFF_MAX`) makes `ecalloc`
end the process. -/
def ecalloc (size : Nat) : Except Fault Block :=
  if size < 9223372036854775808 then .ok (List.replicate size 0) else .error .exited

/-- The loop of `drawmenu` that fills the display string: while
`i < asterlen * strlen(pin)` (a comparison in `size_t`), `memcpy(&censort[i], asterisk,
asterlen)` and `i += asterlen`, for the `int` variable `i`.  It returns the string and
`i`. -/
def censorLoop (asterlen len : Nat) : Nat → Block → Int → Except Fault (Block × Int)
  | 0, _, _ => .error .diverges
  | fuel + 1, censort, i =>
    if toSizeT i < (asterlen * len) % 18446744073709551616 then
      if i < 0 then .error .outOfBounds
      else
        match memcpy censort i.toNat asterisk asterlen with
        | .error f => .error f
        | .ok c1 => censorLoop asterlen len fuel c1 (toInt (toSizeT i + asterlen))
    else .ok (censort, i)

/-- Source function `drawmenu()`, the branch of the input field: in pin mode it
allocates the display string `censort` of `asterlen * pin_len` bytes, fills it with one
glyph for every byte of `pin`, writes `censort[i+1] = '\n'`, and hands the string and its
part from the cursor on to the drawing library, which reads them up to their terminator.
The file-scope variables are left as they are.  The layout arithmetic of the same function
is `drawmenuLayout`; the widths it works on are not among these variables. -/
def drawmenu (s : State) : Except Fault State :=
  if s.winmode = WinPin then do
    let asterlen ← strlen asterisk
    let censort ← ecalloc (toSizeT (asterlen * s.pin_len))
    let b ← s.deref
    let len ← strlen b
    let r ← censorLoop asterlen len (len + 1) censort 0
    let i1 ← checkInt (r.2 + 1)
    let c1 ← (if i1 < 0 then .error .outOfBounds else writeByte r.1 i1.toNat 10)
    let _ ← strlen c1
    let _ ← strlen (c1.drop s.cursor)
    pure s
  else pure s

/-- Source function `keypress(ev)`: the new state and the returned value. -/
def keypress (m : Secmem) (s : State) (ev : XKeyEvent) : Except Fault (State × Int) :=
  if ev.status ≠ XBufferOverflow then do
    let r ← if s.winmode = WinConfirm then pure (keypress_confirm s ev ev.ksym)
            else keypress_pin m s ev ev.ksym ev.buf ev.len
    if r.2 = 0 then do
      let s1 ← drawmenu r.1
      pure (s1, r.2)
    else pure r
  else pure (s, 1)

/-- The run length that `paste` hands to `insert`: up to the first line feed of the
NUL-terminated property data if there is one, else its `strlen`. -/
def pasteLen (p : List Nat) : Nat :=
  if 10 ∈ cstr (p ++ [0]) then ((cstr (p ++ [0])).takeWhile (fun c => c ≠ 10)).length
  else (cstr (p ++ [0])).length

/-- Source function `paste()`, given what `XGetWindowProperty` delivers. -/
def paste (m : Secmem) (s : State) (prop : Option (List Nat)) : Except Fault State :=
  match prop with
  | some p => do
    let s1 ← insert m s (p ++ [0]) (pasteLen p)
    drawmenu s1
  | none => drawmenu s

/-! ## The run loop and the session controller -/

/-- One pass through the body of the loop of `run`: the new state, and whether `run`
returns. -/
def dispatch (m : Secmem) (s : State) (e : XEvent) : Except Fault (State × Bool) :=
  match e with
  | .ignored => pure (s, false)
  | .destroyNotify forWin => if forWin then .error .exited else pure (s, false)
  | .expose => pure (s, false)
  | .keyPress ev => do
    let r ← keypress m s ev
    pure (r.1, decide (r.2 ≠ 0))
  | .selectionNotify isUtf8 prop =>
    if isUtf8 then do
      let s1 ← paste m s prop
      pure (s1, false)
    else pure (s, false)
  | .visibilityNotify => pure (s, false)

/-- The loop of `run` over the events still to come: the state when `run` returns and
the events not yet taken. -/
def runLoop (m : Secmem) : State → List XEvent → Except Fault (State × List XEvent)
  | _, [] => .error .blocked
  | s, e :: rest =>
    match dispatch m s e with
    | .error f => .error f
    | .ok (s1, true) => .ok (s1, rest)
    | .ok (s1, false) => runLoop m s1 rest

/-- Source function `run()`. -/
def run (m : Secmem) (s : State) (evs : List XEvent) : Except Fault (State × List XEvent) :=
  match drawmenu s with
  | .error f => .error f
  | .ok s0 => runLoop m s0 evs

/-- The libc `strcmp(a, b) == 0` on two blocks. -/
def strcmpEq : Block → Block → Except Fault Bool
  | [], _ => .error .outOfBounds
  | _ :: _, [] => .error .outOfBounds
  | a :: as, b :: bs =>
    if a ≠ b then .ok false else if a = 0 then .ok true else strcmpEq as bs

/-- The start of `password()`, up to the first call of `run`. -/
def passwordBegin (s : State) : Except Fault State :=
  setup_pin { s with winmode := WinPin, repeatPass := 0 } .info s.pinentry_info.pin_len true

/-- The end of `password()`, from the test of `canceled` on. -/
def passwordEnd (s : State) : Except Fault State :=
  if s.pinentry_info.canceled ≠ 0 then
    pure { s with pinentry_info := { s.pinentry_info with result := -1 } }
  else
    match s.pinentry_info.pin with
    | none => .error .badPointer
    | some b => do
      let l ← strlen b
      pure { s with pinentry_info := { s.pinentry_info with result := toInt l } }

/-- Whether `password()` runs the repeat pass after the primary one. -/
def wantsRepeat (s : State) : Bool :=
  decide (s.pinentry_info.canceled = 0) && s.pinentry_info.repeat_passphrase

/-- The part of `password()` between the two calls of `run`, inside the `if`. -/
def passwordRepeatBegin (m : Secmem) (s : State) : Except Fault State :=
  let s1 := { s with repeatPass := 1 }
  let s2 := { s1 with pin_repeat_len := s1.pinentry_info.pin_len }
  let s3 := { s2 with pin_repeat := secmem_malloc m s2.pinentry_info.pin_len }
  setup_pin s3 .rep s3.pin_repeat_len true

/-- The part of `password()` after the second call of `run`: the comparison, the
release of the repeat buffer, and the rest of the function. -/
def passwordRepeatEnd (s : State) : Except Fault State :=
  match s.pinentry_info.pin, s.pin_repeat with
  | some a, some b => do
    let eq ← strcmpEq a b
    let s1 := { s with pinentry_info :=
      { s.pinentry_info with repeat_okay := if eq then 1 else 0 } }
    let s2 := { s1 with pin_repeat := none }
    if s2.pinentry_info.repeat_okay = 0 then
      pure { s2 with pinentry_info := { s2.pinentry_info with result := -1 } }
    else passwordEnd s2
  | _, _ => .error .badPointer

/-- Source function `password()`. -/
def password (m : Secmem) (s : State) (evs : List XEvent) :
    Except Fault (State × List XEvent) := do
  let s0 ← passwordBegin s
  let r1 ← run m s0 evs
  if wantsRepeat r1.1 then do
    let s2 ← passwordRepeatBegin m r1.1
    let r2 ← run m s2 r1.2
    let s3 ← passwordRepeatEnd r2.1
    pure (s3, r2.2)
  else do
    let s3 ← passwordEnd r1.1
    pure (s3, r1.2)

/-- Source function `confirm()`. -/
def confirm (m : Secmem) (s : State) (evs : List XEvent) :
    Except Fault (State × List XEvent) := do
  let r ← run m { s with winmode := WinConfirm, sel := Nothing } evs
  pure ({ r.1 with pinentry_info :=
    { r.1.pinentry_info with result := if r.1.sel ≠ No then 1 else 0 } }, r.2)

/-- Whether the `do ... while` loop of `cmdhandler` calls `password()` again. -/
def retries (s : State) : Bool :=
  decide (s.pinentry_info.canceled = 0) && s.pinentry_info.repeat_passphrase
    && decide (s.pinentry_info.repeat_okay = 0)

/-- The `do ... while` loop of `cmdhandler`.  Every call of `password()` that returns
takes at least one event, so `fuel` above the number of events never runs out. -/
def passwordLoop (m : Secmem) : Nat → State → List XEvent → Except Fault (State × List XEvent)
  | 0, _, _ => .error .diverges
  | fuel + 1, s, evs =>
    match password m s evs with
    | .error f => .error f
    | .ok (s1, rest) => if retries s1 then passwordLoop m fuel s1 rest else .ok (s1, rest)

/-- Source function `cmdhandler(received_pinentry)`, from the test of
`pinentry_info->pin` on: the returned value, the final state and the events not
taken.  Display set-up and clean-up are not part of the state. -/
def cmdhandler (m : Secmem) (s : State) (received_pinentry : Pinentry) (evs : List XEvent) :
    Except Fault (Int × State × List XEvent) := do
  let s0 := { s with pinentry_info := received_pinentry }
  let r ← if s0.pinentry_info.pin.isSome then passwordLoop m (evs.length + 1) s0 evs
          else confirm m s0 evs
  pure (r.1.pinentry_info.result, r.1, r.2)

/-! ## UTF-8 and the buffer invariants -/

/-- One well-formed UTF-8 byte sequence (Unicode standard, table 3-7), the code point
U+0000 left out: a C string cannot hold its encoding. -/
def isRune : List Nat → Bool
  | [a] => decide (1 ≤ a ∧ a ≤ 0x7f)
  | [a, b] => decide (0xc2 ≤ a ∧ a ≤ 0xdf ∧ 0x80 ≤ b ∧ b ≤ 0xbf)
  | [a, b, c] =>
    decide (((a = 0xe0 ∧ 0xa0 ≤ b ∧ b ≤ 0xbf) ∨ (0xe1 ≤ a ∧ a ≤ 0xec ∧ 0x80 ≤ b ∧ b ≤ 0xbf)
      ∨ (a = 0xed ∧ 0x80 ≤ b ∧ b ≤ 0x9f) ∨ (0xee ≤ a ∧ a ≤ 0xef ∧ 0x80 ≤ b ∧ b ≤ 0xbf))
      ∧ 0x80 ≤ c ∧ c ≤ 0xbf)
  | [a, b, c, d] =>
    decide (((a = 0xf0 ∧ 0x90 ≤ b ∧ b ≤ 0xbf) ∨ (0xf1 ≤ a ∧ a ≤ 0xf3 ∧ 0x80 ≤ b ∧ b ≤ 0xbf)
      ∨ (a = 0xf4 ∧ 0x80 ≤ b ∧ b ≤ 0x8f))
      ∧ 0x80 ≤ c ∧ c ≤ 0xbf ∧ 0x80 ≤ d ∧ d ≤ 0xbf)
  | _ => false

/-- Valid UTF-8: the bytes are the encodings of a sequence of code points, one after
the other. -/
def ValidUtf8 (l : List Nat) : Prop :=
  ∃ rs : List (List Nat), (∀ r ∈ rs, isRune r = true) ∧ rs.flatten = l

/-- The buffer of `s` holds valid UTF-8 and its cursor is on a code point boundary:
`pin` points to a block of `pin_len` bytes (an `int`) that holds a NUL-terminated string
of valid UTF-8, the cursor is inside the string or on its terminator, and the byte at
the cursor is not a continuation byte. -/
def RuneAligned (s : State) : Prop :=
  ∃ b, s.block = some b ∧ s.pin_len = (b.length : Int) ∧ s.pin_len ≤ INT_MAX ∧ 0 ∈ b
    ∧ ValidUtf8 (cstr b) ∧ s.cursor ≤ (cstr b).length ∧ b.getD s.cursor 0 &&& 0xc0 ≠ 0x80

/-- The four editing keys of the rune-alignment property, with their keypad twins. -/
def isRuneKey (ksym : Nat) : Bool :=
  ksym = XK_Left || ksym = XK_KP_Left || ksym = XK_Right || ksym = XK_KP_Right
    || ksym = XK_Delete || ksym = XK_KP_Delete || ksym = XK_BackSpace

/-- A sequence of key events handled by `keypress_pin`, one after the other, whatever
each call returns. -/
def pressKeys (m : Secmem) : State → List XKeyEvent → Except Fault State
  | s, [] => .ok s
  | s, e :: es =>
    match keypress_pin m s e e.ksym e.buf e.len with
    | .error f => .error f
    | .ok r => pressKeys m r.1 es

/-- The buffer of `s` cut into code points around the cursor: `pin` points to a block of
`pin_len` bytes that holds the encodings `pre` before the cursor, the encodings `post`
from the cursor on, the terminator, and `J` behind it. -/
def RunesAt (s : State) (pre post : List (List Nat)) (J : List Nat) : Prop :=
  (∀ r ∈ pre, isRune r = true) ∧ (∀ r ∈ post, isRune r = true)
    ∧ s.block = some (pre.flatten ++ post.flatten ++ 0 :: J)
    ∧ s.cursor = pre.flatten.length
    ∧ s.pin_len = ((pre.flatten ++ post.flatten ++ 0 :: J).length : Int)
    ∧ s.pin_len ≤ INT_MAX

/-- The pointer `pin` and the capacity `pin_len` belong to the pass that is running: in
the repeat pass (`repeat` non-zero) `pin` is `pin_repeat` and `pin_len` is
`pin_repeat_len`; in the primary pass `pin` is `pinentry_info->pin` and `pin_len` is
`pinentry_info->pin_len`. -/
def PassConsistent (s : State) : Prop :=
  (s.repeatPass ≠ 0 → s.pin = .rep ∧ s.pin_repeat_len = s.pin_len)
    ∧ (s.repeatPass = 0 → s.pin = .info ∧ s.pinentry_info.pin_len = s.pin_len)

/-- The buffer of `s` is in order: `pin` points to a block of `pin_len` bytes (an `int`)
that holds a NUL-terminated string, and the cursor is inside the string or on its
terminator. -/
def BufferOk (s : State) (b : Block) : Prop :=
  s.block = some b ∧ s.pin_len = (b.length : Int) ∧ s.pin_len ≤ INT_MAX ∧ 0 ∈ b
    ∧ s.cursor ≤ (cstr b).length

/-! ## Sample inputs -/

deriving instance DecidableEq for Except

/-- A secure allocator that grants every request and hands out zeroed storage. -/
def grantAll : Secmem := { grants := fun _ => true, fresh := fun _ => 0 }

/-- A secure allocator that refuses every request. -/
def grantNone : Secmem := { grants := fun _ => false, fresh := fun _ => 0 }

/-- A request of the caller with a secret buffer of `cap` bytes. -/
def pinRequest (cap : Nat) (rep : Bool) : Pinentry :=
  { pin := some (List.replicate cap 0), pin_len := cap, canceled := 0,
    repeat_passphrase := rep, repeat_okay := 0, result := 0 }

/-- A request of the caller without secret buffer: a confirmation. -/
def confirmRequest : Pinentry :=
  { pin := none, pin_len := 0, canceled := 0, repeat_passphrase := false, repeat_okay := 0,
    result := 0 }

/-- The file-scope variables as the program starts: `pin` is NULL. -/
def startState : State :=
  { sel := Nothing, cursor := 0, pin := .null, pin_len := 0, pin_repeat := none,
    pin_repeat_len := 0, repeatPass := 0, winmode := WinPin, pinentry_info := confirmRequest }

/-- The primary pass on a buffer of `pin_len = block.length` bytes. -/
def primaryState (block : Block) (cursor : Nat) : State :=
  { sel := Nothing, cursor := cursor, pin := .info, pin_len := block.length, pin_repeat := none,
    pin_repeat_len := 0, repeatPass := 0, winmode := WinPin,
    pinentry_info :=
      { pin := some block, pin_len := block.length, canceled := 0,
        repeat_passphrase := false, repeat_okay := 0, result := 0 } }

/-- The repeat pass on a repeat buffer of `pin_len = block.length` bytes, the primary
secret being `primary`. -/
def repeatState (primary block : Block) (cursor : Nat) : State :=
  { sel := Nothing, cursor := cursor, pin := .rep, pin_len := block.length,
    pin_repeat := some block, pin_repeat_len := block.length, repeatPass := 1,
    winmode := WinPin,
    pinentry_info :=
      { pin := some primary, pin_len := primary.length, canceled := 0,
        repeat_passphrase := true, repeat_okay := 0, result := 0 } }

/-- A key press without modifier that decodes to the bytes `text`. -/
def typed (ksym : Nat) (text : List Nat) : XKeyEvent :=
  { state := 0, ksym := ksym, buf := text, len := text.length, status := 2 }

/-- A key press with the control modifier held; it decodes to the control character
`text`. -/
def withControl (ksym : Nat) (text : Nat) : XKeyEvent :=
  { state := ControlMask, ksym := ksym, buf := [text], len := 1, status := 4 }

/-- A key press of a function key: no decoded text. -/
def functionKey (ksym : Nat) : XKeyEvent :=
  { state := 0, ksym := ksym, buf := [], len := 0, status := 3 }

/-- The bytes of "héllo" in an 8-byte block. -/
def helloBlock : Block := [0x68, 0xc3, 0xa9, 0x6c, 0x6c, 0x6f, 0, 0]

/-- The bytes "abcdefg" and their terminator: a full block of 8 bytes. -/
def fullBlock : Block := [0x61, 0x62, 0x63, 0x64, 0x65, 0x66, 0x67, 0]

/-- The bytes "abc" in a block of 8 bytes. -/
def abcBlock : Block := [0x61, 0x62, 0x63, 0, 0, 0, 0, 0]

/-- The same state with a repeat confirmation requested by the caller. -/
def withRepeat (s : State) : State :=
  { s with pinentry_info := { s.pinentry_info with repeat_passphrase := true } }

/-- The bytes "ab" in a block of 8 bytes. -/
def abBlock : Block := [0x61, 0x62, 0, 0, 0, 0, 0, 0]

/-- The bytes "ac" in a block of 8 bytes. -/
def acBlock : Block := [0x61, 0x63, 0, 0, 0, 0, 0, 0]

/-- An empty string in a block of 8 bytes. -/
def emptyBlock : Block := [0, 0, 0, 0, 0, 0, 0, 0]

/-- The key presses that type "ab" and end the pass with Return. -/
def typeAb : List XEvent :=
  [.keyPress (typed XK_a [0x61]), .keyPress (typed XK_b [0x62]), .keyPress (functionKey XK_Return)]

/-- The key presses that type "ac" and end the pass with Return. -/
def typeAc : List XEvent :=
  [.keyPress (typed XK_a [0x61]), .keyPress (typed XK_c [0x63]), .keyPress (functionKey XK_Return)]

/-- The key presses that type "a" and cancel the pass with Escape. -/
def typeAEscape : List XEvent :=
  [.keyPress (typed XK_a [0x61]), .keyPress (functionKey XK_Escape)]

/-- The state in which `password()` returns after "ab" and "ac" were typed in the two
passes: the repeat buffer is released, `repeat_okay = 0` and `result = -1`. -/
def mismatchState : State :=
  { repeatState abBlock acBlock 2 with
    pin_repeat := none
    pinentry_info :=
      { pin := some abBlock, pin_len := 8, canceled := 0, repeat_passphrase := true,
        repeat_okay := 0, result := -1 } }

/-! ## The session as a step relation -/

/-- Where the control of `cmdhandler` stands between two steps. -/
inductive Phase where
  /-- the loop of `cmdhandler` is about to call `password()` -/
  | entry
  /-- inside `run()` of the primary pass, at `XNextEvent` -/
  | primaryRun
  /-- `run()` of the primary pass has returned to `password()` -/
  | primaryDone
  /-- inside `run()` of the repeat pass, at `XNextEvent` -/
  | repeatRun
  /-- `run()` of the repeat pass has returned to `password()` -/
  | repeatDone
  /-- `password()` has returned; the `while` condition is next -/
  | loopTest
  /-- `cmdhandler` is about to call `confirm()` -/
  | confirmEntry
  /-- inside `run()` of `confirm()`, at `XNextEvent` -/
  | confirmRun
  /-- `run()` has returned to `confirm()` -/
  | confirmDone
  /-- `cmdhandler` has its result -/
  | finished
  deriving DecidableEq, Repr

/-- A configuration of the session: the control point, the file-scope variables and the
events still to come. -/
structure Config where
  phase : Phase
  st : State
  evs : List XEvent
  deriving DecidableEq, Repr

/-- The control points at which the next step takes an event and dispatches it. -/
def Phase.awaitsEvent : Phase → Bool
  | .primaryRun => true
  | .repeatRun => true
  | .confirmRun => true
  | _ => false

/-- The control points behind a run loop: from them no run loop is entered again unless
the `while` condition of `cmdhandler` or the repeat test of `password()` allows it. -/
def Phase.afterRun : Phase → Bool
  | .primaryDone => true
  | .repeatDone => true
  | .loopTest => true
  | .confirmDone => true
  | .finished => true
  | _ => false

/-- One pass through the loop body of `run` in the phase `here`; `done` is the phase in
which `run` has returned. -/
def stepRun (m : Secmem) (here done : Phase) (c : Config) : Option Config :=
  match c.evs with
  | [] => none
  | e :: rest =>
    match dispatch m c.st e with
    | .error _ => none
    | .ok (s1, fin) => some { phase := if fin then done else here, st := s1, evs := rest }

/-- Entry into `run()`: its first `drawmenu()`. -/
def enterRun (run : Phase) (s : Except Fault State) (evs : List XEvent) : Option Config :=
  match s with
  | .error _ => none
  | .ok s0 =>
    match drawmenu s0 with
    | .error _ => none
    | .ok s1 => some { phase := run, st := s1, evs := evs }

/-- The step relation of `run`, `password`, `confirm` and the loop of `cmdhandler`; `none`
when there is no next configuration (the session is finished, waits for an event that
does not come, or has failed). -/
def step (m : Secmem) (c : Config) : Option Config :=
  match c.phase with
  | .entry => enterRun .primaryRun (passwordBegin c.st) c.evs
  | .primaryRun => stepRun m .primaryRun .primaryDone c
  | .primaryDone =>
    if wantsRepeat c.st then enterRun .repeatRun (passwordRepeatBegin m c.st) c.evs
    else
      match passwordEnd c.st with
      | .error _ => none
      | .ok s1 => some { phase := .loopTest, st := s1, evs := c.evs }
  | .repeatRun => stepRun m .repeatRun .repeatDone c
  | .repeatDone =>
    match passwordRepeatEnd c.st with
    | .error _ => none
    | .ok s1 => some { phase := .loopTest, st := s1, evs := c.evs }
  | .loopTest =>
    some { phase := if retries c.st then .entry else .finished, st := c.st, evs := c.evs }
  | .confirmEntry =>
    enterRun .confirmRun (.ok { c.st with winmode := WinConfirm, sel := Nothing }) c.evs
  | .confirmRun => stepRun m .confirmRun .confirmDone c
  | .confirmDone =>
    some { phase := .finished,
           st := { c.st with pinentry_info :=
             { c.st.pinentry_info with result := if c.st.sel ≠ No then 1 else 0 } },
           evs := c.evs }
  | .finished => none

/-- The configuration after `n` steps, if there are that many. -/
def stepN (m : Secmem) : Nat → Config → Option Config
  | 0, c => some c
  | n + 1, c =>
    match step m c with
    | none => none
    | some c1 => stepN m n c1

/-- The configuration in which `cmdhandler` enters its branch on `pinentry_info->pin`. -/
def startConfig (s : State) (received_pinentry : Pinentry) (evs : List XEvent) : Config :=
  { phase := if received_pinentry.pin.isSome then .entry else .confirmEntry,
    st := { s with pinentry_info := received_pinentry }, evs := evs }

/-- The configuration reached when "a" has been typed and Escape pressed in the primary
pass of a session with repeat confirmation: `run` has returned with `canceled` set and
three events are still to come. -/
def canceledConfig : Config :=
  { phase := .primaryDone,
    st := (withRepeat (primaryState [0x61, 0, 0, 0, 0, 0, 0, 0] 1)).cancel,
    evs := typeAb }

/-! ## The reads of `nextrune` -/

/-- The indices `n` of the reads `pin[n]` that the loop of `nextrune` makes, in their
order: the same loop as `nextruneLoop`, keeping the indices instead of the result. -/
def nextruneReads (b : Block) (inc : Int) : Nat → Int → List Int
  | 0, _ => []
  | fuel + 1, n =>
    if 0 ≤ n + inc then
      match readByte b n with
      | .error _ => [n]
      | .ok c => if c &&& 0xc0 = 0x80 then n :: nextruneReads b inc fuel (n + inc) else [n]
    else []

/-- The indices that `nextrune(inc)` reads in the state `s`. -/
def nextruneTrace (s : State) (inc : Int) : List Int :=
  match s.block with
  | none => []
  | some b => nextruneReads b inc (b.length + 1) (toSSizeT (toSizeT (s.cursor + inc)))

/-! ## The layout arithmetic of `drawmenu` -/

/-- Policy constant `MINDESCLEN`. -/
def MINDESCLEN : Int := 8

/-- Conversion of a signed value to `unsigned int`: reduction modulo `2^32`. -/
def toUInt (i : Int) : Nat := (i % 4294967296).toNat

/-- What the layout arithmetic of `drawmenu` reads besides `winmode`: the widths that
`setup` and the drawing library have measured, and the description of the caller. -/
structure Geometry where
  /-- width `mw` of the menu window -/
  mw : Int
  /-- the local `x` once the prompts are drawn: the width they take -/
  x : Int
  /-- width `pdescw` of the whole description, `TEXTW(description)` -/
  pdescw : Int
  /-- the local `censortl` (an `unsigned int`): the room kept for the masked secret -/
  censortl : Nat
  /-- the local `confirml` (an `unsigned int`): the room kept for the two buttons -/
  confirml : Nat
  /-- the string `pinentry_info->description`; `none` is NULL -/
  description : Option Block
  deriving DecidableEq, Repr

/-- What the layout arithmetic of `drawmenu` decides. -/
structure Widths where
  /-- the local `pbw`: the width given to the description, 0 when it is not drawn -/
  pbw : Int
  /-- when the description is drawn: its position `pb` and its bytes, line feeds
  replaced by blanks -/
  drawn : Option (Int × Block)
  /-- the local `leftinput`, the width of the input field (pin mode only) -/
  leftinput : Option Int
  deriving DecidableEq, Repr

/-- The branch `if (pinentry_info->description)` of `drawmenu` for a description `d`:
the width `pbw` and what is drawn.  `MIN` and `MAX` are the macros of `util.h`. -/
def drawmenuDescription (winmode : Nat) (g : Geometry) (d : Block) :
    Except Fault (Int × Option (Int × Block)) := do
  let pb ← checkInt (g.mw - g.x)
  let pdesclen ← strlen d
  if 0 < pb then
    let pb1 := toInt (toUInt (pb - (if winmode = WinPin then g.censortl else g.confirml : Nat)))
    let prod ← checkInt (MINDESCLEN * g.pdescw)
    if pdesclen = 0 then .error .divByZero
    else
      let pbw := toInt (toSizeT prod / pdesclen)
      let pbw1 := min pbw g.pdescw
      if pbw1 ≤ pb1 then do
        let pbw2 := max pbw1 g.pdescw
        let pbw3 := min pbw2 pb1
        let pb2 ← checkInt (g.mw - pbw3)
        if INT_MAX < (pdesclen : Int) then .error .intOverflow
        else
          pure (pbw3, some (pb2, (d.take pdesclen).map (fun c => if c = 10 then 32 else c)
            ++ d.drop pdesclen))
      else pure (0, none)
  else pure (0, none)

/-- The layout arithmetic of `drawmenu`: the description branch, and the width of the
input field in pin mode. -/
def drawmenuLayout (winmode : Nat) (g : Geometry) : Except Fault Widths := do
  let r ← match g.description with
    | none => pure (0, none)
    | some d => drawmenuDescription winmode g d
  if winmode = WinPin then do
    let t ← checkInt (g.mw - g.x)
    let l ← checkInt (t - r.1)
    pure { pbw := r.1, drawn := r.2, leftinput := some l }
  else pure { pbw := r.1, drawn := r.2, leftinput := none }

/-! ## More sample inputs -/

/-- The key press that types the printable ASCII character `c`: its key symbol is its
code. -/
def typeKey (c : Nat) : XKeyEvent := typed c [c]

/-- A description of 100 letters "a". -/
def longDescription : Block := List.replicate 100 0x61 ++ [0]

/-- A window 200 wide without prompts, 50 kept for the input field, and a description of
100 characters that is 1000 wide. -/
def wideDescription : Geometry :=
  { mw := 200, x := 0, pdescw := 1000, censortl := 50, confirml := 50,
    description := some longDescription }

/-- A window 200 wide whose prompts take 50, nothing kept for the input field, and a
description of 100 characters that is 1000 wide. -/
def wideDescriptionPrompt : Geometry :=
  { mw := 200, x := 50, pdescw := 1000, censortl := 0, confirml := 0,
    description := some longDescription }

/-- A window 200 wide and an empty description, 10 wide by its padding. -/
def emptyDescription : Geometry :=
  { mw := 200, x := 0, pdescw := 10, censortl := 50, confirml := 50,
    description := some [0] }

/-- The bytes "hello" in a block of 8 bytes. -/
def asciiBlock : Block := [0x68, 0x65, 0x6c, 0x6c, 0x6f, 0, 0, 0]

/-! ## Splice: `memmove`, `memcpy` and `insert` on a block cut into pieces -/

theorem toSizeT_natCast (n : Nat) (h : (n : Int) < SIZE_MOD) : toSizeT (n : Int) = n := by
  unfold toSizeT SIZE_MOD at *; omega

theorem deref_of_block {s : State} {b : Block} (h : s.block = some b) : s.deref = .ok b := by
  simp [State.deref, h]

theorem block_store {s : State} {b : Block} (h : s.block = some b) (b1 : Block) :
    (s.store b1).block = some b1 := by
  unfold State.block State.store at *
  cases hp : s.pin <;> simp_all

theorem memmove_pieces_pos (A R Z : List Nat) (n : Nat) (hZ : Z.length = n) :
    memmove (A ++ R ++ Z) (A.length + n) A.length R.length
      = .ok ((A ++ R ++ Z).take (A.length + n) ++ R) := by
  unfold memmove
  have h1 : A.length + n + R.length ≤ (A ++ R ++ Z).length := by simp only [List.length_append]; omega
  have h2 : A.length + R.length ≤ (A ++ R ++ Z).length := by simp only [List.length_append]; omega
  rw [if_pos ⟨h1, h2⟩]
  have h3 : (A ++ R ++ Z).drop (A.length + n + R.length) = [] := by
    apply List.drop_eq_nil_of_le; simp; omega
  have h4 : ((A ++ R ++ Z).drop A.length).take R.length = R := by
    rw [List.append_assoc, List.drop_left, List.take_left]
  rw [h3, h4]; simp

theorem memcpy_pieces_pos (A R X S : List Nat) (n : Nat) (hX : (A ++ X).length = A.length + n)
    (hS : n ≤ S.length) :
    memcpy (A ++ X ++ R) A.length S n = .ok (A ++ S.take n ++ R) := by
  unfold memcpy
  have hXn : X.length = n := by simp at hX; omega
  have h1 : A.length + n ≤ (A ++ X ++ R).length := by simp only [List.length_append]; omega
  rw [if_pos ⟨h1, hS⟩]
  have h2 : (A ++ X ++ R).take A.length = A := by
    rw [List.append_assoc, List.take_left]
  have h3 : (A ++ X ++ R).drop (A.length + n) = R := by
    rw [← hXn, ← List.length_append, List.drop_left]
  rw [h2, h3]

theorem memmove_pieces_neg (A K T : List Nat) :
    memmove (A ++ K ++ T) A.length (A.length + K.length) T.length
      = .ok (A ++ T ++ (K ++ T).drop T.length) := by
  unfold memmove
  have h1 : A.length + T.length ≤ (A ++ K ++ T).length := by simp only [List.length_append]; omega
  have h2 : A.length + K.length + T.length ≤ (A ++ K ++ T).length := by simp only [List.length_append]; omega
  rw [if_pos ⟨h1, h2⟩]
  have h3 : (A ++ K ++ T).take A.length = A := by
    rw [List.append_assoc, List.take_left]
  have h4 : ((A ++ K ++ T).drop (A.length + K.length)).take T.length = T := by
    rw [← List.length_append, List.drop_left, List.take_length]
  have h5 : (A ++ K ++ T).drop (A.length + T.length) = (K ++ T).drop T.length := by
    rw [List.append_assoc, List.drop_append]
  rw [h3, h4, h5]



theorem insertSplice_pos_eq (s : State) (A R Z S : List Nat) (len n : Nat)
    (hb : s.block = some (A ++ R ++ Z)) (hc : s.cursor = A.length)
    (hP : s.pin_len = ((A ++ R ++ Z).length : Int)) (hmax : s.pin_len ≤ INT_MAX)
    (hZ : Z.length = n) (hn : 0 < n) (hS : n ≤ S.length)
    (hlen : len + n < (A ++ R ++ Z).length) :
    insertSplice s len S (n : Int)
      = .ok { s.store ((A ++ S.take n ++ R).set (len + n) 0) with cursor := A.length + n } := by
  have hlenP : (A ++ R ++ Z).length = A.length + R.length + n := by
    simp only [List.length_append]; omega
  rw [hlenP] at hP hlen
  have e1 : toSizeT ((s.cursor : Int) + (n : Int)) = A.length + n := by
    unfold toSizeT SIZE_MOD; unfold INT_MAX at hmax; omega
  have e2 : toSizeT (s.pin_len - (s.cursor : Int) - max (n : Int) 0) = R.length := by
    unfold toSizeT SIZE_MOD; unfold INT_MAX at hmax; omega
  have e3 : toSizeT ((len : Int) + (n : Int)) = len + n := by
    unfold toSizeT SIZE_MOD; unfold INT_MAX at hmax; omega
  have hX : (A ++ R ++ Z).take (A.length + n) = A ++ (R ++ Z).take n := by
    rw [List.append_assoc, List.take_append]
  have hXl : (A ++ (R ++ Z).take n).length = A.length + n := by
    simp only [List.length_append, List.length_take]; omega
  have hn' : (0 : Int) < (n : Int) := by omega
  have hw : len + n < (A ++ S.take n ++ R).length := by
    simp only [List.length_append, List.length_take]; omega
  unfold insertSplice
  rw [hc] at e1 e2
  simp only [deref_of_block hb, e1, e2, e3, hc, Bind.bind, Except.bind, pure, Except.pure,
    memmove_pieces_pos A R Z n hZ, hX, hn', if_true, Int.toNat_ofNat,
    memcpy_pieces_pos A R _ S n hXl hS, writeByte, hw]

theorem insertSplice_neg_eq (s : State) (A K T S : List Nat) (len : Nat)
    (hb : s.block = some (A ++ K ++ T)) (hc : s.cursor = A.length + K.length)
    (hP : s.pin_len = ((A ++ K ++ T).length : Int)) (hmax : s.pin_len ≤ INT_MAX)
    (hk : K.length ≤ len) (hlen : len < (A ++ K ++ T).length) :
    insertSplice s len S (-(K.length : Int))
      = .ok { s.store ((A ++ T ++ (K ++ T).drop T.length).set (len - K.length) 0)
              with cursor := A.length } := by
  have hlenP : (A ++ K ++ T).length = A.length + K.length + T.length := by
    simp only [List.length_append]
  rw [hlenP] at hP hlen
  have e1 : toSizeT ((s.cursor : Int) + -(K.length : Int)) = A.length := by
    unfold toSizeT SIZE_MOD; unfold INT_MAX at hmax; omega
  have e2 : toSizeT (s.pin_len - (s.cursor : Int) - max (-(K.length : Int)) 0) = T.length := by
    unfold toSizeT SIZE_MOD; unfold INT_MAX at hmax; omega
  have e3 : toSizeT ((len : Int) + -(K.length : Int)) = len - K.length := by
    unfold toSizeT SIZE_MOD; unfold INT_MAX at hmax; omega
  have hn' : ¬ (0 : Int) < -(K.length : Int) := by omega
  have hw : len - K.length < (A ++ T ++ (K ++ T).drop T.length).length := by
    simp only [List.length_append, List.length_drop]; omega
  unfold insertSplice
  rw [hc] at e1 e2
  simp only [deref_of_block hb, e1, e2, e3, hc, Bind.bind, Except.bind, pure, Except.pure,
    memmove_pieces_neg A K T, hn', if_false, writeByte, hw, if_true]

theorem cstr_append_zero (L J : List Nat) (h : 0 ∉ L) : cstr (L ++ 0 :: J) = L := by
  unfold cstr
  rw [List.takeWhile_append_of_pos]
  · simp
  · intro a ha
    have : a ≠ 0 := fun e => h (e ▸ ha)
    simpa using this

theorem strlen_append_zero (L J : List Nat) (h : 0 ∉ L) :
    strlen (L ++ 0 :: J) = .ok L.length := by
  have h0 : (0 : Nat) ∈ L ++ 0 :: J := by simp
  have := cstr_append_zero L J h
  unfold cstr at this
  unfold strlen
  rw [if_pos h0, this]

theorem zero_not_mem_cstr (b : Block) : 0 ∉ cstr b := by
  intro h
  have := List.mem_takeWhile_imp h
  simp at this

theorem block_eq_cstr_append (b : Block) (h : 0 ∈ b) :
    ∃ J, b = cstr b ++ 0 :: J := by
  induction b with
  | nil => simp at h
  | cons a t ih =>
    by_cases ha : a = 0
    · subst ha
      exact ⟨t, by simp [cstr]⟩
    · have ht : 0 ∈ t := by
        rcases List.mem_cons.mp h with h1 | h1
        · exact absurd h1.symm ha
        · exact h1
      obtain ⟨J, hJ⟩ := ih ht
      refine ⟨J, ?_⟩
      have : cstr (a :: t) = a :: cstr t := by simp [cstr, List.takeWhile_cons, ha]
      rw [this, List.cons_append, ← hJ]

theorem readByte_append (P Q : List Nat) (c : Nat) :
    readByte (P ++ c :: Q) (P.length : Int) = .ok c := by
  unfold readByte
  have h : (0 : Int) ≤ (P.length : Int) ∧ (P.length : Int) < ((P ++ c :: Q).length : Nat) := by
    constructor
    · omega
    · simp only [List.length_append, List.length_cons]; omega
  rw [if_pos h]
  simp only [Int.toNat_ofNat, List.getD_eq_getElem?_getD]
  rw [List.getElem?_append_right (le_refl _)]
  simp

theorem insert_fits (m : Secmem) (s : State) (A B J Z S : List Nat) (n : Nat)
    (hb : s.block = some (A ++ B ++ 0 :: J ++ Z)) (h0 : 0 ∉ A ++ B)
    (hc : s.cursor = A.length)
    (hP : s.pin_len = ((A ++ B ++ 0 :: J ++ Z).length : Int)) (hmax : s.pin_len ≤ INT_MAX)
    (hZ : Z.length = n) (hn : 0 < n) (hS : n ≤ S.length) :
    insert m s S (n : Int)
      = .ok { s.store (A ++ S.take n ++ B ++ 0 :: J) with cursor := A.length + n } := by
  have hlen : strlen (A ++ B ++ 0 :: J ++ Z) = .ok (A ++ B).length := by
    have := strlen_append_zero (A ++ B) (J ++ Z) h0
    simpa using this
  have hl : (A ++ B ++ 0 :: J ++ Z).length = A.length + B.length + 1 + J.length + n := by
    simp only [List.length_append, List.length_cons]; omega
  have hng : ¬ toSizeT (s.pin_len - 1) < toSizeT (((A ++ B).length : Nat) + (n : Int)) := by
    rw [hP, hl]; unfold toSizeT SIZE_MOD; rw [hP, hl] at hmax; unfold INT_MAX at hmax
    simp only [List.length_append]; omega
  have hb' : s.block = some (A ++ (B ++ 0 :: J) ++ Z) := by simpa using hb
  have hP' : s.pin_len = ((A ++ (B ++ 0 :: J) ++ Z).length : Int) := by simpa using hP
  have key := insertSplice_pos_eq s A (B ++ 0 :: J) Z S (A ++ B).length n hb' hc hP' hmax hZ hn hS
    (by simp only [List.length_append, List.length_cons]; omega)
  unfold insert
  simp only [deref_of_block hb, hlen, Bind.bind, Except.bind, hng, if_false, key]
  have hset : (A ++ S.take n ++ (B ++ 0 :: J)).set ((A ++ B).length + n) 0
      = A ++ S.take n ++ B ++ 0 :: J := by
    have e : (A ++ B).length + n = (A ++ S.take n ++ B).length := by
      simp only [List.length_append, List.length_take]; omega
    rw [e, ← List.append_assoc, List.set_append_right _ _ (le_refl _)]
    simp
  rw [hset]

theorem insert_delete (m : Secmem) (s : State) (A K B J S : List Nat)
    (hb : s.block = some (A ++ K ++ B ++ 0 :: J)) (h0 : 0 ∉ A ++ K ++ B)
    (hc : s.cursor = A.length + K.length)
    (hP : s.pin_len = ((A ++ K ++ B ++ 0 :: J).length : Int)) (hmax : s.pin_len ≤ INT_MAX) :
    insert m s S (-(K.length : Int))
      = .ok { s.store (A ++ B ++ 0 :: (J ++ (K ++ (B ++ 0 :: J)).drop (B ++ 0 :: J).length))
              with cursor := A.length } := by
  have hlen : strlen (A ++ K ++ B ++ 0 :: J) = .ok (A ++ K ++ B).length :=
    strlen_append_zero (A ++ K ++ B) J h0
  have hl : (A ++ K ++ B ++ 0 :: J).length = A.length + K.length + B.length + 1 + J.length := by
    simp only [List.length_append, List.length_cons]; omega
  have hng : ¬ toSizeT (s.pin_len - 1)
      < toSizeT (((A ++ K ++ B).length : Nat) + -(K.length : Int)) := by
    rw [hP, hl]; unfold toSizeT SIZE_MOD; rw [hP, hl] at hmax; unfold INT_MAX at hmax
    simp only [List.length_append]; omega
  have hb' : s.block = some (A ++ K ++ (B ++ 0 :: J)) := by simpa using hb
  have hP' : s.pin_len = ((A ++ K ++ (B ++ 0 :: J)).length : Int) := by simpa using hP
  have key := insertSplice_neg_eq s A K (B ++ 0 :: J) S (A ++ K ++ B).length hb' hc hP' hmax
    (by simp only [List.length_append]; omega)
    (by simp only [List.length_append, List.length_cons]; omega)
  unfold insert
  simp only [deref_of_block hb, hlen, Bind.bind, Except.bind, hng, if_false, key]
  have hset : (A ++ (B ++ 0 :: J) ++ (K ++ (B ++ 0 :: J)).drop (B ++ 0 :: J).length).set
        ((A ++ K ++ B).length - K.length) 0
      = A ++ B ++ 0 :: (J ++ (K ++ (B ++ 0 :: J)).drop (B ++ 0 :: J).length) := by
    have e : (A ++ K ++ B).length - K.length = (A ++ B).length := by
      simp only [List.length_append]; omega
    rw [e]
    have e2 : A ++ (B ++ 0 :: J) ++ (K ++ (B ++ 0 :: J)).drop (B ++ 0 :: J).length
        = (A ++ B) ++ (0 :: (J ++ (K ++ (B ++ 0 :: J)).drop (B ++ 0 :: J).length)) := by
      simp
    rw [e2, List.set_append_right _ _ (le_refl _)]
    simp
  rw [hset]

/-! ## `nextrune` on a rune and its neighbours -/

theorem nextruneLoop_back (A : List Nat) (lead : Nat) (hlead : lead &&& 0xc0 ≠ 0x80) :
    ∀ (conts : List Nat) (T : List Nat) (fuel : Nat), (∀ c ∈ conts, c &&& 0xc0 = 0x80) →
      conts.length < fuel →
      nextruneLoop (A ++ lead :: conts ++ T) (-1) fuel ((A.length + conts.length : Nat) : Int)
        = .ok (A.length : Int) := by
  intro conts
  induction conts using List.reverseRecOn with
  | nil =>
    intro T fuel _ hf
    obtain ⟨f, rfl⟩ : ∃ f, fuel = f + 1 := ⟨fuel - 1, by simp at hf; omega⟩
    unfold nextruneLoop
    by_cases h0 : (0 : Int) ≤ ((A.length + ([] : List Nat).length : Nat) : Int) + -1
    · rw [if_pos h0]
      have hr : readByte (A ++ lead :: [] ++ T) ((A.length + ([] : List Nat).length : Nat) : Int)
          = .ok lead := by
        have := readByte_append A T lead
        simpa using this
      rw [hr]
      simp [hlead]
    · rw [if_neg h0]; simp
  | append_singleton cs c ih =>
    intro T fuel hc hf
    obtain ⟨f, rfl⟩ : ∃ f, fuel = f + 1 := ⟨fuel - 1, by simp at hf; omega⟩
    unfold nextruneLoop
    have h0 : (0 : Int) ≤ ((A.length + (cs ++ [c]).length : Nat) : Int) + -1 := by
      simp only [List.length_append, List.length_singleton]; omega
    rw [if_pos h0]
    have hr : readByte (A ++ lead :: (cs ++ [c]) ++ T)
        ((A.length + (cs ++ [c]).length : Nat) : Int) = .ok c := by
      have := readByte_append (A ++ lead :: cs) T c
      simp only [List.length_append, List.length_cons, List.length_singleton] at this ⊢
      have e : A ++ lead :: (cs ++ [c]) ++ T = (A ++ lead :: cs) ++ c :: T := by simp
      rw [e]
      have e2 : ((A.length + (cs.length + 1) : Nat) : Int) = ((A.length + (cs.length + 1) : Nat) : Int) := rfl
      convert this using 2
    rw [hr]
    have hcc : c &&& 0xc0 = 0x80 := hc c (by simp)
    simp only [hcc, if_true]
    have e : A ++ lead :: (cs ++ [c]) ++ T = A ++ lead :: cs ++ (c :: T) := by simp
    have e3 : ((A.length + (cs ++ [c]).length : Nat) : Int) + -1 = ((A.length + cs.length : Nat) : Int) := by
      simp only [List.length_append, List.length_singleton]; omega
    rw [e, e3]
    apply ih
    · intro x hx; exact hc x (by simp [hx])
    · simp only [List.length_append, List.length_singleton] at hf; omega

theorem nextruneLoop_fwd (x : Nat) (T : List Nat) (hx : x &&& 0xc0 ≠ 0x80) :
    ∀ (conts : List Nat) (P : List Nat) (fuel : Nat), (∀ c ∈ conts, c &&& 0xc0 = 0x80) →
      conts.length < fuel →
      nextruneLoop (P ++ conts ++ x :: T) 1 fuel (P.length : Int)
        = .ok ((P.length + conts.length : Nat) : Int) := by
  intro conts
  induction conts with
  | nil =>
    intro P fuel _ hf
    obtain ⟨f, rfl⟩ : ∃ f, fuel = f + 1 := ⟨fuel - 1, by simp at hf; omega⟩
    unfold nextruneLoop
    have h0 : (0 : Int) ≤ (P.length : Int) + 1 := by omega
    rw [if_pos h0]
    have hr : readByte (P ++ [] ++ x :: T) (P.length : Int) = .ok x := by
      have := readByte_append P T x
      simpa using this
    rw [hr]
    simp [hx]
  | cons c cs ih =>
    intro P fuel hc hf
    obtain ⟨f, rfl⟩ : ∃ f, fuel = f + 1 := ⟨fuel - 1, by simp at hf; omega⟩
    unfold nextruneLoop
    have h0 : (0 : Int) ≤ (P.length : Int) + 1 := by omega
    rw [if_pos h0]
    have hr : readByte (P ++ c :: cs ++ x :: T) (P.length : Int) = .ok c := by
      have := readByte_append P (cs ++ x :: T) c
      simpa using this
    rw [hr]
    have hcc : c &&& 0xc0 = 0x80 := hc c (by simp)
    simp only [hcc, if_true]
    have e : P ++ c :: cs ++ x :: T = (P ++ [c]) ++ cs ++ x :: T := by simp
    have e3 : (P.length : Int) + 1 = ((P ++ [c]).length : Int) := by simp
    rw [e, e3, ih (P ++ [c]) f (fun y hy => hc y (by simp [hy]))
      (by simp only [List.length_cons] at hf; omega)]
    have e4 : (P ++ [c]).length + cs.length = P.length + (c :: cs).length := by
      simp only [List.length_append, List.length_singleton, List.length_cons, List.length_nil]; omega
    rw [e4]

theorem bind_ok {α β : Type} (a : α) (f : α → Except Fault β) :
    (Except.ok a : Except Fault α) >>= f = f a := rfl

theorem bind_error {α β : Type} (e : Fault) (f : α → Except Fault β) :
    (Except.error e : Except Fault α) >>= f = Except.error e := rfl

theorem nextrune_eq (s : State) (b : Block) (inc k : Int) (hb : s.block = some b)
    (h : nextruneLoop b inc (b.length + 1) (toSSizeT (toSizeT (s.cursor + inc))) = .ok k) :
    nextrune s inc = .ok (toSizeT k) := by
  unfold nextrune
  rw [deref_of_block hb, bind_ok, h, bind_ok]
  rfl

theorem toSSizeT_toSizeT (i : Int) (h1 : -2147483648 ≤ i) (h2 : i ≤ 2147483648) :
    toSSizeT (toSizeT i) = i := by
  unfold toSSizeT toSizeT SIZE_MOD
  split <;> omega

theorem toSizeT_nat (n : Nat) (h : (n : Int) ≤ 2147483648) : toSizeT (n : Int) = n := by
  unfold toSizeT SIZE_MOD
  omega

theorem nextrune_back (s : State) (A conts T : List Nat) (lead : Nat)
    (hb : s.block = some (A ++ lead :: conts ++ T))
    (hc : s.cursor = A.length + 1 + conts.length)
    (hmax : ((A ++ lead :: conts ++ T).length : Int) ≤ INT_MAX)
    (hlead : lead &&& 0xc0 ≠ 0x80) (hconts : ∀ c ∈ conts, c &&& 0xc0 = 0x80) :
    nextrune s (-1) = .ok A.length := by
  have hl : (A ++ lead :: conts ++ T).length = A.length + 1 + conts.length + T.length := by
    simp only [List.length_append, List.length_cons]; omega
  rw [hl] at hmax
  unfold INT_MAX at hmax
  have e0 : (s.cursor : Int) + -1 = ((A.length + conts.length : Nat) : Int) := by
    rw [hc]; omega
  have e1 : toSSizeT (toSizeT ((s.cursor : Int) + -1)) = ((A.length + conts.length : Nat) : Int) := by
    rw [e0]; exact toSSizeT_toSizeT _ (by omega) (by omega)
  have e2 : toSizeT (A.length : Int) = A.length := toSizeT_nat _ (by omega)
  have e3 := nextruneLoop_back A lead hlead conts T ((A ++ lead :: conts ++ T).length + 1) hconts
      (by rw [hl]; omega)
  rw [← e1] at e3
  rw [nextrune_eq s _ (-1) _ hb e3, e2]

theorem nextrune_fwd (s : State) (A conts T : List Nat) (lead x : Nat)
    (hb : s.block = some (A ++ lead :: conts ++ x :: T))
    (hc : s.cursor = A.length)
    (hmax : ((A ++ lead :: conts ++ x :: T).length : Int) ≤ INT_MAX)
    (hx : x &&& 0xc0 ≠ 0x80) (hconts : ∀ c ∈ conts, c &&& 0xc0 = 0x80) :
    nextrune s 1 = .ok (A.length + 1 + conts.length) := by
  have hl : (A ++ lead :: conts ++ x :: T).length
      = A.length + 1 + conts.length + 1 + T.length := by
    simp only [List.length_append, List.length_cons]; omega
  rw [hl] at hmax
  unfold INT_MAX at hmax
  have e0 : (s.cursor : Int) + 1 = ((A ++ [lead]).length : Int) := by
    rw [hc]; simp only [List.length_append, List.length_singleton]; omega
  have e1 : toSSizeT (toSizeT ((s.cursor : Int) + 1)) = ((A ++ [lead]).length : Int) := by
    rw [e0]; refine toSSizeT_toSizeT _ (by omega) ?_
    simp only [List.length_append, List.length_singleton]; omega
  have e2 : toSizeT (((A ++ [lead]).length + conts.length : Nat) : Int)
      = A.length + 1 + conts.length := by
    rw [toSizeT_nat]
    · simp only [List.length_append, List.length_singleton]
    · simp only [List.length_append, List.length_singleton]; omega
  have hb2 : A ++ lead :: conts ++ x :: T = (A ++ [lead]) ++ conts ++ x :: T := by simp
  have e3 := nextruneLoop_fwd x T hx conts (A ++ [lead])
    ((A ++ lead :: conts ++ x :: T).length + 1) hconts (by rw [hl]; omega)
  rw [← hb2, ← e1] at e3
  rw [nextrune_eq s _ 1 _ hb e3, e2]

/-! ## Valid UTF-8 cut at the cursor -/

set_option maxRecDepth 100000 in
theorem isCont_iff : ∀ c < 256, (c &&& 0xc0 = 0x80 ↔ 0x80 ≤ c ∧ c ≤ 0xbf) := by
  decide

theorem isRune_shape (r : List Nat) (h : isRune r = true) :
    ∃ lead conts, r = lead :: conts ∧ lead &&& 0xc0 ≠ 0x80
      ∧ (∀ c ∈ conts, c &&& 0xc0 = 0x80) ∧ 0 ∉ r := by
  have hc : ∀ c, 0x80 ≤ c → c ≤ 0xbf → c &&& 0xc0 = 0x80 ∧ c ≠ 0 := fun c h1 h2 =>
    ⟨(isCont_iff c (by omega)).2 ⟨h1, h2⟩, by omega⟩
  have hl : ∀ a, 1 ≤ a → (a ≤ 0x7f ∨ (0xc2 ≤ a ∧ a ≤ 0xf4)) → a &&& 0xc0 ≠ 0x80 ∧ a ≠ 0 :=
    fun a h1 h2 => ⟨fun e => by have := (isCont_iff a (by omega)).1 e; omega, by omega⟩
  match r, h with
  | [a], h =>
    simp only [isRune, decide_eq_true_eq] at h
    have := hl a h.1 (Or.inl h.2)
    exact ⟨a, [], rfl, this.1, by simp, by simp; exact fun e => this.2 e.symm⟩
  | [a, b], h =>
    simp only [isRune, decide_eq_true_eq] at h
    have h1 := hl a (by omega) (Or.inr (by omega))
    have h2 := hc b h.2.2.1 h.2.2.2
    refine ⟨a, [b], rfl, h1.1, by simp [h2.1], ?_⟩
    simp only [List.mem_cons, List.mem_singleton, List.not_mem_nil, or_false, not_or]
    exact ⟨fun e => h1.2 e.symm, fun e => h2.2 e.symm⟩
  | [a, b, c], h =>
    simp only [isRune, decide_eq_true_eq] at h
    have h1 := hl a (by omega) (Or.inr (by omega))
    have h2 := hc b (by omega) (by omega)
    have h3 := hc c h.2.1 h.2.2
    refine ⟨a, [b, c], rfl, h1.1, by simp [h2.1, h3.1], ?_⟩
    simp only [List.mem_cons, List.mem_singleton, List.not_mem_nil, or_false, not_or]
    exact ⟨fun e => h1.2 e.symm, fun e => h2.2 e.symm, fun e => h3.2 e.symm⟩
  | [a, b, c, d], h =>
    simp only [isRune, decide_eq_true_eq] at h
    have h1 := hl a (by omega) (Or.inr (by omega))
    have h2 := hc b (by omega) (by omega)
    have h3 := hc c h.2.1 h.2.2.1
    have h4 := hc d h.2.2.2.1 h.2.2.2.2
    refine ⟨a, [b, c, d], rfl, h1.1, by simp [h2.1, h3.1, h4.1], ?_⟩
    simp only [List.mem_cons, List.mem_singleton, List.not_mem_nil, or_false, not_or]
    exact ⟨fun e => h1.2 e.symm, fun e => h2.2 e.symm, fun e => h3.2 e.symm,
      fun e => h4.2 e.symm⟩
  | [], h => simp [isRune] at h
  | _ :: _ :: _ :: _ :: _ :: _, h => simp [isRune] at h

theorem zero_not_mem_flatten (rs : List (List Nat)) (h : ∀ r ∈ rs, isRune r = true) :
    0 ∉ rs.flatten := by
  intro h0
  obtain ⟨r, hr, h0r⟩ := List.mem_flatten.mp h0
  obtain ⟨_, _, _, _, _, hz⟩ := isRune_shape r (h r hr)
  exact hz h0r

theorem head_not_cont (post : List (List Nat)) (h : ∀ r ∈ post, isRune r = true)
    (J : List Nat) :
    ∃ x T, post.flatten ++ 0 :: J = x :: T ∧ x &&& 0xc0 ≠ 0x80 := by
  cases post with
  | nil => exact ⟨0, J, by simp, by decide⟩
  | cons r rest =>
    obtain ⟨lead, conts, rfl, hl, _, _⟩ := isRune_shape r (h r (by simp))
    exact ⟨lead, conts ++ rest.flatten ++ 0 :: J, by simp, hl⟩

theorem store_pin_len (s : State) (b : Block) : (s.store b).pin_len = s.pin_len := by
  unfold State.store; cases s.pin <;> rfl

theorem store_cursor (s : State) (b : Block) : (s.store b).cursor = s.cursor := by
  unfold State.store; cases s.pin <;> rfl

theorem runesAt_aligned (s : State) (pre post : List (List Nat)) (J : List Nat)
    (h : RunesAt s pre post J) : RuneAligned s := by
  obtain ⟨hpre, hpost, hb, hc, hP, hmax⟩ := h
  have h0 : 0 ∉ pre.flatten ++ post.flatten := by
    intro h0
    rcases List.mem_append.mp h0 with h1 | h1
    · exact zero_not_mem_flatten pre hpre h1
    · exact zero_not_mem_flatten post hpost h1
  have hcs : cstr (pre.flatten ++ post.flatten ++ 0 :: J) = pre.flatten ++ post.flatten :=
    cstr_append_zero _ J h0
  refine ⟨_, hb, hP, hmax, by simp, ?_, ?_, ?_⟩
  · rw [hcs]
    refine ⟨pre ++ post, ?_, by simp⟩
    intro r hr
    rcases List.mem_append.mp hr with h1 | h1
    · exact hpre r h1
    · exact hpost r h1
  · rw [hcs, hc]; simp
  · obtain ⟨x, T, hx, hnc⟩ := head_not_cont post hpost J
    rw [hc, List.append_assoc, hx, List.getD_eq_getElem?_getD,
      List.getElem?_append_right (le_refl _)]
    simpa using hnc

theorem split_at_boundary :
    ∀ (rs : List (List Nat)) (c : Nat) (J : List Nat), (∀ r ∈ rs, isRune r = true) →
      c ≤ rs.flatten.length → (rs.flatten ++ 0 :: J).getD c 0 &&& 0xc0 ≠ 0x80 →
      ∃ pre post, rs = pre ++ post ∧ pre.flatten.length = c := by
  intro rs
  induction rs with
  | nil =>
    intro c J _ hc _
    exact ⟨[], [], rfl, by simp at hc; simp [hc]⟩
  | cons r rest ih =>
    intro c J hr hc hnc
    obtain ⟨lead, conts, rfl, _, hconts, _⟩ := isRune_shape r (hr r (by simp))
    by_cases h0 : c = 0
    · exact ⟨[], (lead :: conts) :: rest, rfl, by simp [h0]⟩
    by_cases h1 : c < (lead :: conts).length
    · exfalso
      apply hnc
      have hlen : c - 1 < conts.length := by simp only [List.length_cons] at h1; omega
      have e : ((lead :: conts) :: rest).flatten ++ 0 :: J
          = [lead] ++ (conts ++ (rest.flatten ++ 0 :: J)) := by simp
      rw [e, List.getD_eq_getElem?_getD,
        List.getElem?_append_right (by simp only [List.length_singleton]; omega),
        List.getElem?_append_left (by simpa using hlen)]
      have : conts[c - [lead].length]? = some (conts[c - 1]) := by
        simp only [List.length_singleton]
        exact List.getElem?_eq_getElem hlen
      rw [this]
      exact hconts _ (List.getElem_mem _)
    · have hc' : c - (lead :: conts).length ≤ rest.flatten.length := by
        simp only [List.flatten_cons, List.length_append] at hc; omega
      have hnc' : (rest.flatten ++ 0 :: J).getD (c - (lead :: conts).length) 0 &&& 0xc0 ≠ 0x80 := by
        have e : ((lead :: conts) :: rest).flatten ++ 0 :: J
            = (lead :: conts) ++ (rest.flatten ++ 0 :: J) := by simp
        rw [e, List.getD_eq_getElem?_getD,
          List.getElem?_append_right (by omega)] at hnc
        rw [List.getD_eq_getElem?_getD]
        exact hnc
      obtain ⟨pre, post, hsplit, hlen⟩ := ih (c - (lead :: conts).length) J
        (fun x hx => hr x (by simp [hx])) hc' hnc'
      refine ⟨(lead :: conts) :: pre, post, by simp [hsplit], ?_⟩
      simp only [List.flatten_cons, List.length_append, hlen]
      omega

theorem aligned_runesAt (s : State) (h : RuneAligned s) :
    ∃ pre post J, RunesAt s pre post J := by
  obtain ⟨b, hb, hP, hmax, h0, ⟨rs, hrs, hflat⟩, hc, hnc⟩ := h
  obtain ⟨J, hJ⟩ := block_eq_cstr_append b h0
  rw [← hflat] at hJ hc
  rw [hJ] at hnc
  obtain ⟨pre, post, hsplit, hlen⟩ := split_at_boundary rs s.cursor J hrs hc hnc
  refine ⟨pre, post, J, ?_, ?_, ?_, hlen.symm, ?_, hmax⟩
  · intro r hr; exact hrs r (by rw [hsplit]; simp [hr])
  · intro r hr; exact hrs r (by rw [hsplit]; simp [hr])
  · rw [hb, hJ, hsplit]; simp
  · rw [hP, hJ, hsplit]; simp

/-! ## C3: the four editing keys keep the cursor on a rune boundary -/

theorem block_with_cursor (s : State) (c : Nat) : ({ s with cursor := c } : State).block = s.block :=
  rfl

theorem runesAt_nil_cursor (s : State) (post : List (List Nat)) (J : List Nat)
    (h : RunesAt s [] post J) : s.cursor = 0 := by
  obtain ⟨_, _, _, hc, _, _⟩ := h
  simpa using hc

theorem keypress_pin_backspace_rune (m : Secmem) (s : State) (init post : List (List Nat))
    (r J : List Nat) (h : RunesAt s (init ++ [r]) post J) :
    ∃ J1, keypress_pin_backspace m s
        = .ok ({ s.store (init.flatten ++ post.flatten ++ 0 :: J1)
                 with cursor := init.flatten.length }, 0)
      ∧ RunesAt { s.store (init.flatten ++ post.flatten ++ 0 :: J1)
                  with cursor := init.flatten.length } init post J1 := by
  obtain ⟨hpre, hpost, hb, hc, hP, hmax⟩ := h
  have hr : isRune r = true := hpre r (by simp)
  obtain ⟨lead, conts, rfl, hlead, hconts, _⟩ := isRune_shape r hr
  have hinit : ∀ x ∈ init, isRune x = true := fun x hx => hpre x (by simp [hx])
  have e : (init ++ [lead :: conts]).flatten ++ post.flatten ++ 0 :: J
      = init.flatten ++ lead :: conts ++ (post.flatten ++ 0 :: J) := by simp
  have ec : (init ++ [lead :: conts]).flatten.length = init.flatten.length + 1 + conts.length := by
    simp only [List.flatten_append, List.flatten_cons, List.flatten_nil, List.append_nil,
      List.length_append, List.length_cons]; omega
  rw [e] at hb hP
  rw [ec] at hc
  have hmax2 : ((init.flatten ++ lead :: conts ++ (post.flatten ++ 0 :: J)).length : Int)
      ≤ INT_MAX := by rw [← hP]; exact hmax
  have hnext := nextrune_back s init.flatten conts (post.flatten ++ 0 :: J) lead hb hc hmax2
    hlead hconts
  have hl : (init.flatten ++ lead :: conts ++ (post.flatten ++ 0 :: J)).length
      = init.flatten.length + 1 + conts.length + post.flatten.length + 1 + J.length := by
    simp only [List.length_append, List.length_cons]; omega
  have hn : toSSizeT (toSizeT (((init.flatten.length : Nat) : Int) - (s.cursor : Int)))
      = -(((lead :: conts).length : Nat) : Int) := by
    rw [hl] at hmax2; unfold INT_MAX at hmax2
    have : ((init.flatten.length : Nat) : Int) - (s.cursor : Int)
        = -(((lead :: conts).length : Nat) : Int) := by
      rw [hc]; simp only [List.length_cons]; omega
    rw [this]
    apply toSSizeT_toSizeT
    · simp only [List.length_cons]; omega
    · simp only [List.length_cons]; omega
  have hb2 : s.block = some (init.flatten ++ (lead :: conts) ++ post.flatten ++ 0 :: J) := by
    rw [hb]; simp
  have h0 : 0 ∉ init.flatten ++ (lead :: conts) ++ post.flatten := by
    have := zero_not_mem_flatten ((init ++ [lead :: conts]) ++ post) (by
      intro x hx
      rcases List.mem_append.mp hx with h1 | h1
      · exact hpre x h1
      · exact hpost x h1)
    simpa using this
  have hc2 : s.cursor = init.flatten.length + (lead :: conts).length := by
    rw [hc]; simp only [List.length_cons]; omega
  have hP2 : s.pin_len
      = ((init.flatten ++ (lead :: conts) ++ post.flatten ++ 0 :: J).length : Int) := by
    rw [hP]; simp
  have hins := insert_delete m s init.flatten (lead :: conts) post.flatten J [] hb2 h0 hc2 hP2
    hmax
  obtain ⟨W, hW, hWl⟩ : ∃ W : List Nat,
      W = ((lead :: conts) ++ (post.flatten ++ 0 :: J)).drop (post.flatten ++ 0 :: J).length
        ∧ W.length = (lead :: conts).length :=
    ⟨_, rfl, by simp only [List.length_drop, List.length_append]; omega⟩
  rw [← hW] at hins
  refine ⟨J ++ W, ?_, hinit, hpost, ?_, rfl, ?_, ?_⟩
  · unfold keypress_pin_backspace
    have hne : ¬ s.cursor = 0 := by omega
    rw [if_neg hne, hnext, bind_ok, hn, hins, bind_ok]
    rfl
  · rw [block_with_cursor, block_store hb]
  · show (s.store _).pin_len = _
    rw [store_pin_len, hP2]
    simp only [List.length_append, List.length_cons, hWl]
    omega
  · show (s.store _).pin_len ≤ _
    rw [store_pin_len]; exact hmax

theorem keypress_pin_backspace_step (m : Secmem) (s : State) (pre post : List (List Nat))
    (J : List Nat) (h : RunesAt s pre post J) :
    ∃ s1 pre1 J1, keypress_pin_backspace m s = .ok (s1, 0) ∧ RunesAt s1 pre1 post J1 := by
  rcases List.eq_nil_or_concat pre with rfl | ⟨init, r, rfl⟩
  · refine ⟨s, [], J, ?_, h⟩
    unfold keypress_pin_backspace
    rw [if_pos (runesAt_nil_cursor s post J h)]
    rfl
  · rw [List.concat_eq_append] at h
    obtain ⟨J1, h1, h2⟩ := keypress_pin_backspace_rune m s init post r J h
    exact ⟨_, init, J1, h1, h2⟩

theorem runesAt_forward (s : State) (pre post : List (List Nat)) (r : List Nat) (J : List Nat)
    (h : RunesAt s pre (r :: post) J) :
    ∃ b lead c1, s.deref = .ok b ∧ readByte b s.cursor = .ok lead ∧ lead ≠ 0
      ∧ nextrune s 1 = .ok c1 ∧ RunesAt { s with cursor := c1 } (pre ++ [r]) post J := by
  obtain ⟨hpre, hpost, hb, hc, hP, hmax⟩ := h
  have hr : isRune r = true := hpost r (by simp)
  obtain ⟨lead, conts, rfl, _, hconts, hz⟩ := isRune_shape r hr
  have hrest : ∀ x ∈ post, isRune x = true := fun x hx => hpost x (by simp [hx])
  obtain ⟨x, T, hxT, hx⟩ := head_not_cont post hrest J
  have e : pre.flatten ++ ((lead :: conts) :: post).flatten ++ 0 :: J
      = pre.flatten ++ lead :: conts ++ x :: T := by
    rw [← hxT]; simp
  have hb0 := hb
  have hP0 := hP
  rw [e] at hb hP
  have hmax2 : ((pre.flatten ++ lead :: conts ++ x :: T).length : Int) ≤ INT_MAX := by
    rw [← hP]; exact hmax
  have hnext := nextrune_fwd s pre.flatten conts T lead x hb hc hmax2 hx hconts
  have hread : readByte (pre.flatten ++ lead :: conts ++ x :: T) (s.cursor : Int) = .ok lead := by
    rw [hc]
    have := readByte_append pre.flatten (conts ++ x :: T) lead
    simpa using this
  have hl0 : lead ≠ 0 := fun e0 => hz (by simp [e0])
  refine ⟨_, lead, _, deref_of_block hb, hread, hl0, hnext, ?_, hrest, ?_, ?_, ?_, hmax⟩
  · intro y hy
    rcases List.mem_append.mp hy with h1 | h1
    · exact hpre y h1
    · rw [List.mem_singleton.mp h1]; exact hr
  · rw [block_with_cursor, hb0]; simp
  · show pre.flatten.length + 1 + conts.length = _
    simp only [List.flatten_append, List.flatten_cons, List.flatten_nil, List.append_nil,
      List.length_append, List.length_cons]; omega
  · show s.pin_len = _
    rw [hP0]; simp

theorem runesAt_at_end (s : State) (pre : List (List Nat)) (J : List Nat)
    (h : RunesAt s pre [] J) :
    ∃ b, s.deref = .ok b ∧ readByte b s.cursor = .ok 0 := by
  obtain ⟨_, _, hb, hc, _, _⟩ := h
  refine ⟨_, deref_of_block hb, ?_⟩
  rw [hc]
  have := readByte_append pre.flatten J 0
  simpa using this

theorem keypress_pin_switch_step (m : Secmem) (s : State) (ksym : Nat) (buf : List Nat)
    (len : Int) (hk : isRuneKey ksym = true) (pre post : List (List Nat)) (J : List Nat)
    (h : RunesAt s pre post J) :
    ∃ s1 pre1 post1 J1, keypress_pin_switch m s ksym buf len = .ok (s1, 0)
      ∧ RunesAt s1 pre1 post1 J1 := by
  simp only [isRuneKey, Bool.or_eq_true, decide_eq_true_eq] at hk
  by_cases hdel : ksym = XK_Delete ∨ ksym = XK_KP_Delete
  · unfold keypress_pin_switch
    rw [if_pos hdel]
    cases post with
    | nil =>
      obtain ⟨b, hd, hread⟩ := runesAt_at_end s pre J h
      refine ⟨s, pre, [], J, ?_, h⟩
      rw [hd, bind_ok, hread, bind_ok, if_pos rfl]
      rfl
    | cons r rest =>
      obtain ⟨b, lead, c1, hd, hread, hl0, hnext, h1⟩ := runesAt_forward s pre rest r J h
      obtain ⟨s2, pre2, J2, hbs, h2⟩ :=
        keypress_pin_backspace_step m { s with cursor := c1 } (pre ++ [r]) rest J h1
      refine ⟨s2, pre2, rest, J2, ?_, h2⟩
      rw [hd, bind_ok, hread, bind_ok, if_neg hl0, hnext, bind_ok, hbs]
  by_cases hbs : ksym = XK_BackSpace
  · unfold keypress_pin_switch
    rw [if_neg hdel, if_pos hbs]
    obtain ⟨s1, pre1, J1, h1, h2⟩ := keypress_pin_backspace_step m s pre post J h
    exact ⟨s1, pre1, post, J1, h1, h2⟩
  have hesc : ¬ ksym = XK_Escape := by
    intro e; rw [e] at hk; revert hk; decide
  by_cases hleft : ksym = XK_Left ∨ ksym = XK_KP_Left
  · unfold keypress_pin_switch
    rw [if_neg hdel, if_neg hbs, if_neg hesc, if_pos hleft]
    rcases List.eq_nil_or_concat pre with rfl | ⟨init, r, rfl⟩
    · refine ⟨s, [], post, J, ?_, h⟩
      have hc0 := runesAt_nil_cursor s post J h
      rw [if_neg (by omega)]
      rfl
    · rw [List.concat_eq_append] at h
      obtain ⟨hpre, hpost, hb, hc, hP, hmax⟩ := h
      have hr : isRune r = true := hpre r (by simp)
      obtain ⟨lead, conts, rfl, hlead, hconts, _⟩ := isRune_shape r hr
      have e : (init ++ [lead :: conts]).flatten ++ post.flatten ++ 0 :: J
          = init.flatten ++ lead :: conts ++ (post.flatten ++ 0 :: J) := by simp
      have ec : (init ++ [lead :: conts]).flatten.length
          = init.flatten.length + 1 + conts.length := by
        simp only [List.flatten_append, List.flatten_cons, List.flatten_nil, List.append_nil,
          List.length_append, List.length_cons]; omega
      have hb0 := hb
      have hP0 := hP
      rw [e] at hb hP
      rw [ec] at hc
      have hmax2 : ((init.flatten ++ lead :: conts ++ (post.flatten ++ 0 :: J)).length : Int)
          ≤ INT_MAX := by rw [← hP]; exact hmax
      have hnext := nextrune_back s init.flatten conts (post.flatten ++ 0 :: J) lead hb hc
        hmax2 hlead hconts
      refine ⟨{ s with cursor := init.flatten.length }, init, (lead :: conts) :: post, J, ?_,
        fun x hx => hpre x (by simp [hx]), ?_, ?_, rfl, ?_, hmax⟩
      · rw [if_pos (by omega), hnext, bind_ok]
        rfl
      · intro x hx
        rcases List.mem_cons.mp hx with h1 | h1
        · rw [h1]; exact hr
        · exact hpost x h1
      · rw [block_with_cursor, hb0]; simp
      · show s.pin_len = _
        rw [hP0]; simp
  · have hright : ksym = XK_Right ∨ ksym = XK_KP_Right := by
      rcases hk with ((((((h1 | h1) | h1) | h1) | h1) | h1) | h1)
      · exact absurd (Or.inl h1) hleft
      · exact absurd (Or.inr h1) hleft
      · exact Or.inl h1
      · exact Or.inr h1
      · exact absurd (Or.inl h1) hdel
      · exact absurd (Or.inr h1) hdel
      · exact absurd h1 hbs
    unfold keypress_pin_switch
    rw [if_neg hdel, if_neg hbs, if_neg hesc, if_neg hleft, if_pos hright]
    cases post with
    | nil =>
      obtain ⟨b, hd, hread⟩ := runesAt_at_end s pre J h
      refine ⟨s, pre, [], J, ?_, h⟩
      rw [hd, bind_ok, hread, bind_ok, if_neg (by simp)]
      rfl
    | cons r rest =>
      obtain ⟨b, lead, c1, hd, hread, hl0, hnext, h1⟩ := runesAt_forward s pre rest r J h
      refine ⟨{ s with cursor := c1 }, pre ++ [r], rest, J, ?_, h1⟩
      rw [hd, bind_ok, hread, bind_ok, if_pos hl0, hnext, bind_ok]
      rfl

theorem keypress_pin_rune_key (m : Secmem) (s : State) (ev : XKeyEvent) (ksym : Nat)
    (buf : List Nat) (len : Int) (hk : isRuneKey ksym = true) (h : RuneAligned s) :
    ∃ s1 r, keypress_pin m s ev ksym buf len = .ok (s1, r) ∧ RuneAligned s1 := by
  by_cases hctl : ev.state &&& ControlMask ≠ 0
  · refine ⟨s, 1, ?_, h⟩
    simp only [isRuneKey, Bool.or_eq_true, decide_eq_true_eq] at hk
    have hne : ∀ k, (k = XK_a ∨ k = XK_b ∨ k = XK_c ∨ k = XK_d ∨ k = XK_e ∨ k = XK_f
        ∨ k = XK_g ∨ k = XK_h ∨ k = XK_k ∨ k = XK_u ∨ k = XK_v ∨ k = XK_Return
        ∨ k = XK_KP_Enter ∨ k = XK_bracketleft) → ksym ≠ k := by
      intro k hk2 e
      rw [e] at hk
      rcases hk2 with h1 | h1 | h1 | h1 | h1 | h1 | h1 | h1 | h1 | h1 | h1 | h1 | h1 | h1 <;>
        (rw [h1] at hk; revert hk; decide)
    unfold keypress_pin
    rw [if_pos hctl, if_neg (hne _ (by simp)), if_neg (hne _ (by simp)),
      if_neg (hne _ (by simp)), if_neg (hne _ (by simp)), if_neg (hne _ (by simp)),
      if_neg (hne _ (by simp)), if_neg (hne _ (by simp)), if_neg (hne _ (by simp)),
      if_neg (hne _ (by simp)), if_neg (hne _ (by simp)), if_neg (hne _ (by simp)),
      if_neg (by
        intro h1
        rcases h1 with h1 | h1
        · exact hne _ (by simp) h1
        · exact hne _ (by simp) h1),
      if_neg (hne _ (by simp))]
    rfl
  · obtain ⟨pre, post, J, hr⟩ := aligned_runesAt s h
    obtain ⟨s1, pre1, post1, J1, h1, h2⟩ := keypress_pin_switch_step m s ksym buf len hk pre post J hr
    refine ⟨s1, 0, ?_, runesAt_aligned s1 pre1 post1 J1 h2⟩
    unfold keypress_pin
    rw [if_neg hctl, h1]

theorem pressKeys_aligned (m : Secmem) :
    ∀ (evs : List XKeyEvent) (s : State), RuneAligned s →
      (∀ e ∈ evs, isRuneKey e.ksym = true) →
      ∃ s1, pressKeys m s evs = .ok s1 ∧ RuneAligned s1 := by
  intro evs
  induction evs with
  | nil => intro s hs _; exact ⟨s, rfl, hs⟩
  | cons e es ih =>
    intro s hs hk
    obtain ⟨s1, r, h1, h2⟩ := keypress_pin_rune_key m s e e.ksym e.buf e.len (hk e (by simp)) hs
    obtain ⟨s2, h3, h4⟩ := ih s1 h2 (fun x hx => hk x (by simp [hx]))
    refine ⟨s2, ?_, h4⟩
    unfold pressKeys
    rw [h1]
    exact h3

/-- C3 (rune alignment): from a buffer that holds valid UTF-8 with the cursor on a code
point boundary, every sequence of Left, Right, Delete and BackSpace key events is handled
by `keypress_pin` without fault, and after each event (after every initial part of the
sequence) the buffer still holds valid UTF-8 and the byte at the cursor is not a
continuation byte. -/
theorem rune_alignment (m : Secmem) (s : State) (evs : List XKeyEvent) (hs : RuneAligned s)
    (hk : ∀ e ∈ evs, isRuneKey e.ksym = true) (k : Nat) :
    ∃ s1, pressKeys m s (evs.take k) = .ok s1 ∧ RuneAligned s1 :=
  pressKeys_aligned m (evs.take k) s hs (fun e he => hk e (List.mem_of_mem_take he))

/-! ## C1 and C2: control-modified keys that the dispatcher does not know; a sample run for C3 -/

theorem dispatch_keyPress (m : Secmem) (s : State) (ev : XKeyEvent) :
    dispatch m s (.keyPress ev) = keypress m s ev >>= fun r => pure (r.1, decide (r.2 ≠ 0)) :=
  rfl

/-- C1 (failing input): in a confirmation, Control-a ends the run loop with the selection
still `Nothing`, and `confirm` reports 1 (true) to the caller. -/
theorem confirm_true_without_selection :
    ∃ s1, cmdhandler grantAll startState confirmRequest [.keyPress (withControl XK_a 1)]
        = .ok (1, s1, []) ∧ s1.sel = Nothing :=
  ⟨_, rfl, rfl⟩

/-- C2 (counterexample): in pin mode Control-x, which is none of the recognised
combinations, makes `keypress_pin` return 1, and the run loop returns on it: the input
pass is ended, the following key press is never taken. -/
theorem control_x_ends_pass :
    keypress_pin grantAll (primaryState helloBlock 3) (withControl 0x78 0x18) 0x78 [0x18] 1
        = .ok (primaryState helloBlock 3, 1)
      ∧ run grantAll (primaryState helloBlock 3)
          [.keyPress (withControl 0x78 0x18), .keyPress (typed 0x61 [0x61])]
        = .ok (primaryState helloBlock 3, [.keyPress (typed 0x61 [0x61])]) :=
  ⟨by decide, by decide⟩

/-- C2 (amended): a control-modified key that is none of the recognised combinations
leaves the whole state as it is (buffer, cursor and `canceled` included), `keypress_pin`
returns 1, and in pin mode the run loop returns on that event: the input pass is ended,
as by Return. -/
theorem unrecognised_control_key (m : Secmem) (s : State) (ev : XKeyEvent)
    (hctl : ev.state &&& ControlMask ≠ 0)
    (hk : ev.ksym ∉ [XK_a, XK_b, XK_c, XK_d, XK_e, XK_f, XK_g, XK_h, XK_k, XK_u, XK_v,
      XK_Return, XK_KP_Enter, XK_bracketleft])
    (hmode : s.winmode ≠ WinConfirm) (hst : ev.status ≠ XBufferOverflow) :
    keypress_pin m s ev ev.ksym ev.buf ev.len = .ok (s, 1)
      ∧ ∀ rest, runLoop m s (.keyPress ev :: rest) = .ok (s, rest) := by
  simp only [List.mem_cons, List.mem_singleton, List.not_mem_nil, or_false, not_or] at hk
  obtain ⟨h1, h2, h3, h4, h5, h6, h7, h8, h9, h10, h11, h12, h13, h14⟩ := hk
  have hkp : keypress_pin m s ev ev.ksym ev.buf ev.len = .ok (s, 1) := by
    unfold keypress_pin
    rw [if_pos hctl, if_neg h1, if_neg h2, if_neg h3, if_neg h4, if_neg h5, if_neg h6,
      if_neg h7, if_neg h8, if_neg h9, if_neg h10, if_neg h11,
      if_neg (fun h => h.elim h12 h13), if_neg h14]
    rfl
  refine ⟨hkp, fun rest => ?_⟩
  have hkey : keypress m s ev = .ok (s, 1) := by
    unfold keypress
    rw [if_pos hst, if_neg hmode, hkp, bind_ok]
    rfl
  have hd : dispatch m s (.keyPress ev) = .ok (s, true) := by
    rw [dispatch_keyPress, hkey, bind_ok]
    rfl
  unfold runLoop
  rw [hd]

/-- C2 (witness): Control-x on the buffer "héllo". -/
theorem unrecognised_control_key_witness :
    (withControl 0x78 0x18).state &&& ControlMask ≠ 0
      ∧ (withControl 0x78 0x18).ksym ∉ [XK_a, XK_b, XK_c, XK_d, XK_e, XK_f, XK_g, XK_h, XK_k,
          XK_u, XK_v, XK_Return, XK_KP_Enter, XK_bracketleft]
      ∧ (primaryState helloBlock 3).winmode ≠ WinConfirm
      ∧ (withControl 0x78 0x18).status ≠ XBufferOverflow
      ∧ (keypress_pin grantAll (primaryState helloBlock 3) (withControl 0x78 0x18)
            (withControl 0x78 0x18).ksym (withControl 0x78 0x18).buf (withControl 0x78 0x18).len
          = .ok (primaryState helloBlock 3, 1)
        ∧ ∀ rest, runLoop grantAll (primaryState helloBlock 3)
            (.keyPress (withControl 0x78 0x18) :: rest) = .ok (primaryState helloBlock 3, rest)) :=
  ⟨by decide, by decide, by decide, by decide,
    unrecognised_control_key grantAll (primaryState helloBlock 3) (withControl 0x78 0x18)
      (by decide) (by decide) (by decide) (by decide)⟩

theorem helloAligned : RuneAligned (primaryState helloBlock 3) :=
  ⟨helloBlock, rfl, rfl, by decide, by decide,
    ⟨[[0x68], [0xc3, 0xa9], [0x6c], [0x6c], [0x6f]], by decide, rfl⟩, by decide, by decide⟩

/-- C3 (witness): Left, Delete, Right, BackSpace on "héllo" with the cursor behind the
two-byte "é". -/
theorem rune_alignment_witness :
    RuneAligned (primaryState helloBlock 3)
      ∧ (∀ e ∈ [functionKey XK_Left, functionKey XK_Delete, functionKey XK_Right,
          functionKey XK_BackSpace], isRuneKey e.ksym = true)
      ∧ ∃ s1, pressKeys grantAll (primaryState helloBlock 3)
          ([functionKey XK_Left, functionKey XK_Delete, functionKey XK_Right,
            functionKey XK_BackSpace].take 2) = .ok s1 ∧ RuneAligned s1 :=
  ⟨helloAligned, by decide,
    rune_alignment grantAll (primaryState helloBlock 3) _ helloAligned (by decide) 2⟩

/-! ## C4, C5, C6: growth of the buffer and the splice round trip -/

theorem insert_of_fit (m : Secmem) (s : State) (b : Block) (len : Nat) (str : List Nat) (n : Int)
    (hb : s.block = some b) (hlen : strlen b = .ok len)
    (hfit : ¬ toSizeT (s.pin_len - 1) < toSizeT ((len : Int) + n)) :
    insert m s str n = insertSplice s len str n := by
  unfold insert
  rw [deref_of_block hb, bind_ok, hlen, bind_ok, if_neg hfit]

theorem insert_of_grow (m : Secmem) (s s1 : State) (b : Block) (len : Nat) (str : List Nat)
    (n : Int) (hb : s.block = some b) (hlen : strlen b = .ok len)
    (hgrow : toSizeT (s.pin_len - 1) < toSizeT ((len : Int) + n))
    (hg : insertGrow m s = .ok s1) (hne : s1.pin_len ≠ 0) :
    insert m s str n = insertSplice s1 len str n := by
  unfold insert
  rw [deref_of_block hb, bind_ok, hlen, bind_ok, if_pos hgrow, hg, bind_ok, if_neg hne]

theorem secmem_realloc_grant (m : Secmem) (b : Block) (n : Nat) (hg : m.grants n = true)
    (hn : b.length ≤ n) :
    secmem_realloc m (some b) (n : Int)
      = some (b ++ (List.range' b.length (n - b.length)).map m.fresh) := by
  unfold secmem_realloc
  have h : (0 : Int) ≤ (n : Int) ∧ m.grants (n : Int).toNat = true := ⟨by omega, by simpa using hg⟩
  rw [if_pos h]
  simp only [Int.toNat_ofNat]
  rw [List.take_of_length_le hn]

theorem insertGrow_grant (m : Secmem) (s : State) (b : Block) (hb : s.block = some b)
    (hP : s.pin_len = (b.length : Int)) (hcons : PassConsistent s)
    (hg : m.grants (2 * b.length) = true) (hmax : 2 * (b.length : Int) ≤ INT_MAX) :
    ∃ s1 F, insertGrow m s = .ok s1 ∧ s1.block = some (b ++ F) ∧ F.length = b.length
      ∧ s1.pin_len = 2 * (b.length : Int) ∧ s1.cursor = s.cursor ∧ PassConsistent s1 := by
  have hre := secmem_realloc_grant m b (2 * b.length) hg (by omega)
  have hcast : ((2 * b.length : Nat) : Int) = 2 * (b.length : Int) := by push_cast; ring
  rw [hcast] at hre
  have hFl : ((List.range' b.length (2 * b.length - b.length)).map m.fresh).length = b.length := by
    simp only [List.length_map, List.length_range']; omega
  by_cases hr : s.repeatPass ≠ 0
  · obtain ⟨hpin, hlen⟩ := hcons.1 hr
    have hblk : s.pin_repeat = some b := by
      unfold State.block at hb; rw [hpin] at hb; exact hb
    have hov : ¬ (INT_MAX < 2 * s.pin_repeat_len ∨ 2 * s.pin_repeat_len < -INT_MAX - 1) := by
      rw [hlen, hP]; unfold INT_MAX at *; omega
    refine ⟨{ s with
        pin_repeat_len := 2 * (b.length : Int)
        pin_repeat := some (b ++ (List.range' b.length (2 * b.length - b.length)).map m.fresh)
        pin := .rep
        pin_len := 2 * (b.length : Int) }, _, ?_, rfl, hFl, rfl, rfl, ?_⟩
    · unfold insertGrow
      rw [if_pos hr, if_neg hov]
      simp only [hblk, hlen, hP, hre, setup_pin, bind_ok, Option.isNone_some]
      rfl
    · exact ⟨fun _ => ⟨rfl, rfl⟩, fun h0 => absurd h0 hr⟩
  · have hr0 : s.repeatPass = 0 := by
      by_contra h; exact hr h
    obtain ⟨hpin, hlen⟩ := hcons.2 hr0
    have hblk : s.pinentry_info.pin = some b := by
      unfold State.block at hb; rw [hpin] at hb; exact hb
    have hov : ¬ (INT_MAX < 2 * s.pinentry_info.pin_len
        ∨ 2 * s.pinentry_info.pin_len < -INT_MAX - 1) := by
      rw [hlen, hP]; unfold INT_MAX at *; omega
    refine ⟨{ s with
        pinentry_info :=
          { s.pinentry_info with
            pin := some (b ++ (List.range' b.length (2 * b.length - b.length)).map m.fresh)
            pin_len := 2 * (b.length : Int) }
        pin := .info
        pin_len := 2 * (b.length : Int) }, _, ?_, rfl, hFl, rfl, rfl, ?_⟩
    · unfold insertGrow
      rw [if_neg hr, if_neg hov]
      simp only [pinentry_setbufferlen, hblk, hlen, hP, hre, setup_pin, Bool.false_eq_true,
        if_false]
    · exact ⟨fun h => absurd hr0 h, fun _ => ⟨rfl, rfl⟩⟩

theorem insert_delete_roundtrip (m : Secmem) (t : State) (A B J Z str : List Nat) (n : Nat)
    (hb : t.block = some (A ++ B ++ 0 :: J ++ Z)) (h0 : 0 ∉ A ++ B)
    (hc : t.cursor = A.length)
    (hP : t.pin_len = ((A ++ B ++ 0 :: J ++ Z).length : Int)) (hmax : t.pin_len ≤ INT_MAX)
    (hZ : Z.length = n) (hn : 0 < n) (hS : n ≤ str.length)
    (hnz : ∀ x ∈ str.take n, x ≠ 0) :
    ∃ s1 s2 J2, insert m t str (n : Int) = .ok s1 ∧ insert m s1 [] (-(n : Int)) = .ok s2
      ∧ s2.block = some (A ++ B ++ 0 :: J2) ∧ s2.cursor = A.length := by
  have h1 := insert_fits m t A B J Z str n hb h0 hc hP hmax hZ hn hS
  have hKl : (str.take n).length = n := by simp only [List.length_take]; omega
  have hb1 : ({ t.store (A ++ str.take n ++ B ++ 0 :: J) with cursor := A.length + n } : State).block
      = some (A ++ str.take n ++ B ++ 0 :: J) := by
    rw [block_with_cursor, block_store hb]
  have h01 : 0 ∉ A ++ str.take n ++ B := by
    intro h
    rcases List.mem_append.mp h with h2 | h2
    · rcases List.mem_append.mp h2 with h3 | h3
      · exact h0 (List.mem_append.mpr (Or.inl h3))
      · exact hnz 0 h3 rfl
    · exact h0 (List.mem_append.mpr (Or.inr h2))
  have hP1 : ({ t.store (A ++ str.take n ++ B ++ 0 :: J) with cursor := A.length + n } : State).pin_len
      = ((A ++ str.take n ++ B ++ 0 :: J).length : Int) := by
    show (t.store _).pin_len = _
    rw [store_pin_len, hP]
    simp only [List.length_append, List.length_cons, hKl, hZ]
    omega
  have hmax1 : ({ t.store (A ++ str.take n ++ B ++ 0 :: J) with cursor := A.length + n } : State).pin_len
      ≤ INT_MAX := by
    show (t.store _).pin_len ≤ _
    rw [store_pin_len]; exact hmax
  have h2 := insert_delete m _ A (str.take n) B J [] hb1 h01 (by rw [hKl]) hP1 hmax1
  rw [hKl] at h2
  exact ⟨_, _, _, h1, h2, by rw [block_with_cursor, block_store hb1], rfl⟩

/-- C5 (amended): on a buffer in order, if a run of `n > 0` bytes without NUL fits into
it (the string, the run and the terminator have room in the block, or they have room
after one doubling that the allocator grants), then `insert(str, n)` followed by
`insert(NULL, -n)` returns and restores the buffer content up to and including the
terminator, and the cursor. -/
theorem splice_inverse (m : Secmem) (s : State) (b : Block) (str : List Nat) (n : Nat)
    (hs : BufferOk s b) (hn : 0 < n) (hstr : n ≤ str.length)
    (hnz : ∀ x ∈ str.take n, x ≠ 0)
    (hfit : (cstr b).length + n + 1 ≤ b.length
      ∨ (PassConsistent s ∧ m.grants (2 * b.length) = true ∧ 2 * (b.length : Int) ≤ INT_MAX
          ∧ (cstr b).length + n + 1 ≤ 2 * b.length)) :
    ∃ s1 s2 b2, insert m s str (n : Int) = .ok s1 ∧ insert m s1 [] (-(n : Int)) = .ok s2
      ∧ s2.block = some b2
      ∧ b2.take ((cstr b).length + 1) = b.take ((cstr b).length + 1)
      ∧ s2.cursor = s.cursor := by
  obtain ⟨hb, hP, hmax, h0, hc⟩ := hs
  obtain ⟨Jb, hJb⟩ := block_eq_cstr_append b h0
  have hz : 0 ∉ cstr b := zero_not_mem_cstr b
  generalize hL : cstr b = L at hJb hz hc hfit ⊢
  subst hJb
  have hsplit : L.take s.cursor ++ L.drop s.cursor = L := List.take_append_drop _ _
  have hAl : (L.take s.cursor).length = s.cursor := by
    simp only [List.length_take]; omega
  have h0AB : 0 ∉ L.take s.cursor ++ L.drop s.cursor := by rw [hsplit]; exact hz
  have hlen : (L ++ 0 :: Jb).length = L.length + 1 + Jb.length := by
    simp only [List.length_append, List.length_cons]; omega
  have hfinish : ∀ (s1 s2 : State) (J2 : List Nat),
      s2.block = some (L.take s.cursor ++ L.drop s.cursor ++ 0 :: J2) →
      (L.take s.cursor ++ L.drop s.cursor ++ 0 :: J2).take (L.length + 1)
        = (L ++ 0 :: Jb).take (L.length + 1) := by
    intro _ _ J2 _
    rw [hsplit]
    have e1 : ∀ X : List Nat, (L ++ 0 :: X).take (L.length + 1) = L ++ [0] := by
      intro X
      rw [List.take_append]
      simp
    rw [e1, e1]
  by_cases hf : L.length + n + 1 ≤ (L ++ 0 :: Jb).length
  · -- the run fits into the block as it is
    rw [hlen] at hf
    have hJsplit : Jb.take (Jb.length - n) ++ Jb.drop (Jb.length - n) = Jb :=
      List.take_append_drop _ _
    have hb2 : s.block = some (L.take s.cursor ++ L.drop s.cursor
        ++ 0 :: Jb.take (Jb.length - n) ++ Jb.drop (Jb.length - n)) := by
      rw [hb]
      simp only [hsplit, List.append_assoc, List.cons_append, hJsplit]
    have hP2 : s.pin_len = ((L.take s.cursor ++ L.drop s.cursor
        ++ 0 :: Jb.take (Jb.length - n) ++ Jb.drop (Jb.length - n)).length : Int) := by
      rw [hP]
      simp only [hsplit, List.append_assoc, List.cons_append, hJsplit]
    obtain ⟨s1, s2, J2, h1, h2, h3, h4⟩ := insert_delete_roundtrip m s (L.take s.cursor)
      (L.drop s.cursor) (Jb.take (Jb.length - n)) (Jb.drop (Jb.length - n)) str n hb2 h0AB
      hAl.symm hP2 hmax (by simp only [List.length_drop]; omega) hn hstr hnz
    exact ⟨s1, s2, _, h1, h2, h3, hfinish s1 s2 J2 h3, by rw [h4, hAl]⟩
  · -- the block has to grow first
    rcases hfit with hfit | ⟨hcons, hg, hmax2, hfit2⟩
    · exact absurd hfit hf
    obtain ⟨sg, F, hgrow, hbg, hFl, hPg, hcg, _⟩ := insertGrow_grant m s _ hb hP hcons hg hmax2
    rw [hlen] at hf hfit2 hFl hPg hmax2
    have hstrlen : strlen (L ++ 0 :: Jb) = .ok L.length := strlen_append_zero L Jb hz
    have hstrlen2 : strlen (L ++ 0 :: Jb ++ F) = .ok L.length := by
      have := strlen_append_zero L (Jb ++ F) hz
      simpa using this
    have hPs : s.pin_len = ((L.length + 1 + Jb.length : Nat) : Int) := by rw [hP, hlen]
    have hcond : toSizeT (s.pin_len - 1) < toSizeT ((L.length : Int) + (n : Int)) := by
      rw [hPs]; unfold toSizeT SIZE_MOD; unfold INT_MAX at hmax2; omega
    have hne : sg.pin_len ≠ 0 := by rw [hPg]; omega
    have hins1 := insert_of_grow m s sg _ L.length str n hb hstrlen hcond hgrow hne
    have hcond2 : ¬ toSizeT (sg.pin_len - 1) < toSizeT ((L.length : Int) + (n : Int)) := by
      rw [hPg]; unfold toSizeT SIZE_MOD; unfold INT_MAX at hmax2; omega
    have hins2 := insert_of_fit m sg _ L.length str n hbg hstrlen2 hcond2
    have hJF : (Jb ++ F).take ((Jb ++ F).length - n) ++ (Jb ++ F).drop ((Jb ++ F).length - n)
        = Jb ++ F := List.take_append_drop _ _
    have hbg2 : sg.block = some (L.take s.cursor ++ L.drop s.cursor
        ++ 0 :: (Jb ++ F).take ((Jb ++ F).length - n) ++ (Jb ++ F).drop ((Jb ++ F).length - n)) := by
      rw [hbg]
      simp only [hsplit, List.append_assoc, List.cons_append, hJF]
    have hlen2 : (L.take s.cursor ++ L.drop s.cursor
        ++ 0 :: (Jb ++ F).take ((Jb ++ F).length - n) ++ (Jb ++ F).drop ((Jb ++ F).length - n)).length
        = 2 * (L.length + 1 + Jb.length) := by
      simp only [hsplit, List.append_assoc, List.cons_append, hJF]
      simp only [List.length_append, List.length_cons, hFl]; omega
    have hPg2 : sg.pin_len = ((L.take s.cursor ++ L.drop s.cursor
        ++ 0 :: (Jb ++ F).take ((Jb ++ F).length - n)
        ++ (Jb ++ F).drop ((Jb ++ F).length - n)).length : Int) := by
      rw [hPg, hlen2]; push_cast; ring
    obtain ⟨s1, s2, J2, h1, h2, h3, h4⟩ := insert_delete_roundtrip m sg (L.take s.cursor)
      (L.drop s.cursor) ((Jb ++ F).take ((Jb ++ F).length - n))
      ((Jb ++ F).drop ((Jb ++ F).length - n)) str n hbg2 h0AB
      (by rw [hcg, hAl]) hPg2 (by rw [hPg]; exact hmax2)
      (by simp only [List.length_drop, List.length_append, hFl]; omega) hn hstr hnz
    refine ⟨s1, s2, _, ?_, h2, h3, hfinish s1 s2 J2 h3, by rw [h4, hAl]⟩
    rw [hins1, ← hins2]; exact h1

/-- C4 (failing input): the 8-byte buffer holds "abcdefg" and 12 bytes are pasted; the
allocator grants the doubling to 16 bytes, but string, run and terminator need 20: the
`memmove` of `insert` leaves the block, in the primary pass and in the repeat pass. -/
theorem paste_overruns_buffer :
    (insertGrow grantAll (primaryState fullBlock 7)).map (fun s => s.pin_len) = .ok 16
      ∧ paste grantAll (primaryState fullBlock 7) (some (List.replicate 12 0x41))
        = .error .outOfBounds
      ∧ (insertGrow grantAll (repeatState abBlock fullBlock 7)).map (fun s => s.pin_len) = .ok 16
      ∧ paste grantAll (repeatState abBlock fullBlock 7) (some (List.replicate 12 0x41))
        = .error .outOfBounds := by
  decide

/-- C5 (counterexample): in the repeat pass with a full buffer and an allocator that
refuses to grow it, `insert(str, 1)` followed by `insert(NULL, -1)` does not lead back to
the original content and cursor: the second call dereferences the NULL pointer that the
first one left in `pin`. -/
theorem splice_not_inverse_on_refusal :
    ¬ ∃ s1 s2 b2, insert grantNone (repeatState abBlock fullBlock 7) [0x68] 1 = .ok s1
      ∧ insert grantNone s1 [] (-1) = .ok s2 ∧ s2.block = some b2
      ∧ b2.take 8 = fullBlock.take 8 ∧ s2.cursor = 7 := by
  intro ⟨s1, s2, b2, h1, h2, _⟩
  have e : (insert grantNone (repeatState abBlock fullBlock 7) [0x68] 1
      >>= fun t => insert grantNone t [] (-1)) = .error .badPointer := by decide
  rw [h1, bind_ok, h2] at e
  cases e

/-- C5 (witness): "xy" spliced into "abc" behind the "a" and removed again. -/
theorem splice_inverse_witness :
    BufferOk (primaryState abcBlock 1) abcBlock ∧ 0 < 2 ∧ 2 ≤ [0x78, 0x79].length
      ∧ (∀ x ∈ [0x78, 0x79].take 2, x ≠ 0)
      ∧ ((cstr abcBlock).length + 2 + 1 ≤ abcBlock.length
          ∨ (PassConsistent (primaryState abcBlock 1) ∧ grantAll.grants (2 * abcBlock.length) = true
            ∧ 2 * (abcBlock.length : Int) ≤ INT_MAX
            ∧ (cstr abcBlock).length + 2 + 1 ≤ 2 * abcBlock.length))
      ∧ ∃ s1 s2 b2, insert grantAll (primaryState abcBlock 1) [0x78, 0x79] ((2 : Nat) : Int) = .ok s1
          ∧ insert grantAll s1 [] (-((2 : Nat) : Int)) = .ok s2 ∧ s2.block = some b2
          ∧ b2.take ((cstr abcBlock).length + 1) = abcBlock.take ((cstr abcBlock).length + 1)
          ∧ s2.cursor = (primaryState abcBlock 1).cursor :=
  ⟨⟨rfl, rfl, by decide, by decide, by decide⟩, by decide, by decide, by decide,
    Or.inl (by decide),
    splice_inverse grantAll (primaryState abcBlock 1) abcBlock [0x78, 0x79] 2
      ⟨rfl, rfl, by decide, by decide, by decide⟩ (by decide) (by decide) (by decide)
      (Or.inl (by decide))⟩

/-- C6 (failing input): the buffer is full ("abcdefg" in 8 bytes), "h" is typed and the
allocator refuses.  In the repeat pass `insert` returns with `pin` and `pin_repeat` NULL,
`pin_len = 0` and `pin_repeat_len` doubled, and the key press itself ends in a NULL
dereference (in the redraw).  In the primary pass `insert` returns with `pin_len = 0`, and
the next BackSpace runs its `memmove` out of the block. -/
theorem refused_growth_breaks_buffer :
    insert grantNone (repeatState abBlock fullBlock 7) [0x68] 1
        = .ok { repeatState abBlock fullBlock 7 with
                pin_repeat := none, pin_repeat_len := 16, pin_len := 0 }
      ∧ keypress grantNone (repeatState abBlock fullBlock 7) (typed 0x68 [0x68])
        = .error .badPointer
      ∧ insert grantNone (primaryState fullBlock 7) [0x68] 1
        = .ok { primaryState fullBlock 7 with pin_len := 0 }
      ∧ keypress grantNone { primaryState fullBlock 7 with pin_len := 0 } (functionKey XK_BackSpace)
        = .error .outOfBounds := by
  decide

/-! ## C7 and C9: the outcome of `password()` -/

theorem cstr_cons_zero (t : List Nat) : cstr (0 :: t) = [] := by
  simp [cstr]

theorem cstr_cons_ne (x : Nat) (t : List Nat) (hx : x ≠ 0) : cstr (x :: t) = x :: cstr t := by
  simp [cstr, List.takeWhile_cons, hx]

theorem strcmpEq_cstr : ∀ (a b : Block), 0 ∈ a → 0 ∈ b →
    strcmpEq a b = .ok (decide (cstr a = cstr b)) := by
  intro a
  induction a with
  | nil => intro b ha; simp at ha
  | cons x as ih =>
    intro b ha hb
    cases b with
    | nil => simp at hb
    | cons y bs =>
      unfold strcmpEq
      by_cases hxy : x ≠ y
      · rw [if_pos hxy]
        have hne : cstr (x :: as) ≠ cstr (y :: bs) := by
          by_cases hx : x = 0
          · have hy : y ≠ 0 := fun e => hxy (by rw [hx, e])
            rw [hx, cstr_cons_zero, cstr_cons_ne y bs hy]; simp
          · by_cases hy : y = 0
            · rw [hy, cstr_cons_zero, cstr_cons_ne x as hx]; simp
            · rw [cstr_cons_ne x as hx, cstr_cons_ne y bs hy]
              intro e
              exact hxy (List.cons.inj e).1
        simp [hne]
      · have hxy2 : x = y := by
          by_contra h; exact hxy h
        subst hxy2
        rw [if_neg hxy]
        by_cases hx : x = 0
        · rw [if_pos hx, hx, cstr_cons_zero, cstr_cons_zero]
          simp
        · rw [if_neg hx]
          have ha2 : 0 ∈ as := by
            rcases List.mem_cons.mp ha with h | h
            · exact absurd h.symm hx
            · exact h
          have hb2 : 0 ∈ bs := by
            rcases List.mem_cons.mp hb with h | h
            · exact absurd h.symm hx
            · exact h
          rw [ih bs ha2 hb2, cstr_cons_ne x as hx, cstr_cons_ne x bs hx]
          simp

theorem strlen_eq_cstr (b : Block) (h : 0 ∈ b) : strlen b = .ok (cstr b).length := by
  unfold strlen cstr
  rw [if_pos h]

theorem toInt_of_le (n : Nat) (h : (n : Int) ≤ INT_MAX) : toInt n = (n : Int) := by
  unfold INT_MAX at h
  unfold toInt
  split <;> omega

theorem cstr_length_le (b : Block) : (cstr b).length ≤ b.length := by
  unfold cstr
  exact (List.takeWhile_sublist _).length_le

theorem passwordEnd_canceled (s : State) (h : s.pinentry_info.canceled ≠ 0) :
    passwordEnd s = .ok { s with pinentry_info := { s.pinentry_info with result := -1 } } := by
  unfold passwordEnd
  rw [if_pos h]
  rfl

theorem passwordEnd_ok (s : State) (a : Block) (h : s.pinentry_info.canceled = 0)
    (ha : s.pinentry_info.pin = some a) (hza : 0 ∈ a) (hmax : (a.length : Int) ≤ INT_MAX) :
    passwordEnd s = .ok { s with pinentry_info :=
      { s.pinentry_info with result := ((cstr a).length : Int) } } := by
  unfold passwordEnd
  have hc : ¬ s.pinentry_info.canceled ≠ 0 := by rw [h]; decide
  rw [if_neg hc]
  simp only [ha]
  rw [strlen_eq_cstr a hza, bind_ok, toInt_of_le]
  · rfl
  · have := cstr_length_le a
    omega

/-- C7 (repeat equality): when a repeat confirmation is requested and both passes of
`password()` end without cancellation on NUL-terminated buffers, `password()` returns with
`repeat_okay = 1` and `result` = the length of the primary secret if the two strings are
equal byte for byte, and with `repeat_okay = 0` and `result = -1` if they differ. -/
theorem repeat_equality (m : Secmem) (s s0 s1 s2 s3 : State) (evs r1 r2 : List XEvent)
    (a b : Block)
    (h0 : passwordBegin s = .ok s0) (h1 : run m s0 evs = .ok (s1, r1))
    (hc1 : s1.pinentry_info.canceled = 0) (hrep : s1.pinentry_info.repeat_passphrase = true)
    (h2 : passwordRepeatBegin m s1 = .ok s2) (h3 : run m s2 r1 = .ok (s3, r2))
    (hc3 : s3.pinentry_info.canceled = 0)
    (ha : s3.pinentry_info.pin = some a) (hb : s3.pin_repeat = some b)
    (hza : 0 ∈ a) (hzb : 0 ∈ b) (hmax : (a.length : Int) ≤ INT_MAX) :
    ∃ s4, password m s evs = .ok (s4, r2)
      ∧ (cstr a = cstr b → s4.pinentry_info.repeat_okay = 1
          ∧ s4.pinentry_info.result = ((cstr a).length : Int))
      ∧ (cstr a ≠ cstr b → s4.pinentry_info.repeat_okay = 0
          ∧ s4.pinentry_info.result = -1) := by
  have hw : wantsRepeat s1 = true := by
    unfold wantsRepeat; rw [hc1, hrep]; rfl
  have hpw : password m s evs = passwordRepeatEnd s3 >>= fun s4 => pure (s4, r2) := by
    unfold password
    rw [h0, bind_ok, h1, bind_ok, if_pos hw, h2, bind_ok, h3, bind_ok]
  obtain ⟨sel, cursor, pin, pin_len, pin_repeat, pin_repeat_len, repeatPass, winmode,
    ⟨ipin, ipin_len, canceled, rp, ro, res⟩⟩ := s3
  simp only at ha hb hc3
  subst ha hb hc3
  have hcmp := strcmpEq_cstr a b hza hzb
  have hlen := strlen_eq_cstr a hza
  have hint : toInt (cstr a).length = ((cstr a).length : Int) :=
    toInt_of_le _ (by have := cstr_length_le a; omega)
  by_cases heq : cstr a = cstr b
  · rw [decide_eq_true heq] at hcmp
    refine ⟨
      { sel := sel, cursor := cursor, pin := pin, pin_len := pin_len, pin_repeat := none,
        pin_repeat_len := pin_repeat_len, repeatPass := repeatPass, winmode := winmode,
        pinentry_info :=
          { pin := some a, pin_len := ipin_len, canceled := 0, repeat_passphrase := rp,
            repeat_okay := 1, result := ((cstr a).length : Int) } },
      ?_, fun _ => ⟨?_, ?_⟩, fun h => absurd heq h⟩
    · rw [hpw]
      simp only [passwordRepeatEnd, hcmp, bind_ok, passwordEnd, hlen, hint]
      rfl
    · rfl
    · rfl
  · rw [decide_eq_false heq] at hcmp
    refine ⟨
      { sel := sel, cursor := cursor, pin := pin, pin_len := pin_len, pin_repeat := none,
        pin_repeat_len := pin_repeat_len, repeatPass := repeatPass, winmode := winmode,
        pinentry_info :=
          { pin := some a, pin_len := ipin_len, canceled := 0, repeat_passphrase := rp,
            repeat_okay := 0, result := -1 } },
      ?_, fun h => absurd h heq, fun _ => ⟨?_, ?_⟩⟩
    · rw [hpw]
      simp only [passwordRepeatEnd, hcmp, bind_ok]
      rfl
    · rfl
    · rfl

/-- C7 (witness): "ab" typed in both passes gives `repeat_okay = 1` and `result = 2`. -/
theorem repeat_equality_witness :
    passwordBegin (withRepeat (primaryState emptyBlock 0))
        = .ok (withRepeat (primaryState emptyBlock 0))
      ∧ run grantAll (withRepeat (primaryState emptyBlock 0)) (typeAb ++ typeAb)
        = .ok (withRepeat (primaryState abBlock 2), typeAb)
      ∧ run grantAll (repeatState abBlock emptyBlock 0) typeAb
        = .ok (repeatState abBlock abBlock 2, [])
      ∧ ∃ s4, password grantAll (withRepeat (primaryState emptyBlock 0)) (typeAb ++ typeAb)
          = .ok (s4, [])
        ∧ (cstr abBlock = cstr abBlock → s4.pinentry_info.repeat_okay = 1
            ∧ s4.pinentry_info.result = ((cstr abBlock).length : Int))
        ∧ (cstr abBlock ≠ cstr abBlock → s4.pinentry_info.repeat_okay = 0
            ∧ s4.pinentry_info.result = -1) :=
  ⟨by decide, by decide, by decide,
    repeat_equality grantAll (withRepeat (primaryState emptyBlock 0))
      (withRepeat (primaryState emptyBlock 0)) (withRepeat (primaryState abBlock 2))
      (repeatState abBlock emptyBlock 0) (repeatState abBlock abBlock 2)
      (typeAb ++ typeAb) typeAb [] abBlock abBlock
      (by decide) (by decide) (by decide) (by decide) (by decide) (by decide) (by decide)
      (by decide) (by decide) (by decide) (by decide) (by decide)⟩

/-- C9 (session outcome of `password()`): once the primary pass has returned,
(1) if `canceled` is set, `password()` returns at once with `result = -1`, no repeat pass
is run and no further event is taken; (2) if it is not set and no repeat is required,
`result` is the length of the primary secret; (3) if a repeat pass is run and `canceled`
is set when it returns, `result = -1` whatever the two buffers hold. -/
theorem password_outcome (m : Secmem) (s s0 s1 : State) (evs r1 : List XEvent)
    (h0 : passwordBegin s = .ok s0) (h1 : run m s0 evs = .ok (s1, r1)) :
    (s1.pinentry_info.canceled ≠ 0 →
        password m s evs
          = .ok ({ s1 with pinentry_info := { s1.pinentry_info with result := -1 } }, r1))
      ∧ (s1.pinentry_info.canceled = 0 → s1.pinentry_info.repeat_passphrase = false →
          ∀ a, s1.pinentry_info.pin = some a → 0 ∈ a → (a.length : Int) ≤ INT_MAX →
            password m s evs
              = .ok ({ s1 with pinentry_info :=
                  { s1.pinentry_info with result := ((cstr a).length : Int) } }, r1))
      ∧ (s1.pinentry_info.canceled = 0 → s1.pinentry_info.repeat_passphrase = true →
          ∀ s2 s3 r2 a b, passwordRepeatBegin m s1 = .ok s2 → run m s2 r1 = .ok (s3, r2) →
            s3.pinentry_info.canceled ≠ 0 → s3.pinentry_info.pin = some a →
            s3.pin_repeat = some b → 0 ∈ a → 0 ∈ b →
            ∃ s4, password m s evs = .ok (s4, r2) ∧ s4.pinentry_info.result = -1) := by
  refine ⟨fun hc => ?_, fun hc hrep a ha hza hmax => ?_,
    fun hc hrep s2 s3 r2 a b h2 h3 hc3 ha hb hza hzb => ?_⟩
  · have hw : ¬ (wantsRepeat s1 = true) := by
      unfold wantsRepeat; simp [hc]
    unfold password
    rw [h0, bind_ok, h1, bind_ok, if_neg hw, passwordEnd_canceled s1 hc, bind_ok]
    rfl
  · have hw : ¬ (wantsRepeat s1 = true) := by
      unfold wantsRepeat; simp [hrep]
    unfold password
    rw [h0, bind_ok, h1, bind_ok, if_neg hw, passwordEnd_ok s1 a hc ha hza hmax, bind_ok]
    rfl
  · have hw : wantsRepeat s1 = true := by
      unfold wantsRepeat; rw [hc, hrep]; rfl
    have hpw : password m s evs = passwordRepeatEnd s3 >>= fun s4 => pure (s4, r2) := by
      unfold password
      rw [h0, bind_ok, h1, bind_ok, if_pos hw, h2, bind_ok, h3, bind_ok]
    obtain ⟨sel, cursor, pin, pin_len, pin_repeat, pin_repeat_len, repeatPass, winmode,
      ⟨ipin, ipin_len, canceled, rp, ro, res⟩⟩ := s3
    simp only at ha hb hc3
    subst ha hb
    have hcmp := strcmpEq_cstr a b hza hzb
    by_cases heq : cstr a = cstr b
    · rw [decide_eq_true heq] at hcmp
      refine ⟨
        { sel := sel, cursor := cursor, pin := pin, pin_len := pin_len, pin_repeat := none,
          pin_repeat_len := pin_repeat_len, repeatPass := repeatPass, winmode := winmode,
          pinentry_info :=
            { pin := some a, pin_len := ipin_len, canceled := canceled, repeat_passphrase := rp,
              repeat_okay := 1, result := -1 } }, ?_, rfl⟩
      rw [hpw]
      simp only [passwordRepeatEnd, hcmp, bind_ok, passwordEnd, if_true, one_ne_zero, if_false,
        if_pos hc3]
      rfl
    · rw [decide_eq_false heq] at hcmp
      refine ⟨
        { sel := sel, cursor := cursor, pin := pin, pin_len := pin_len, pin_repeat := none,
          pin_repeat_len := pin_repeat_len, repeatPass := repeatPass, winmode := winmode,
          pinentry_info :=
            { pin := some a, pin_len := ipin_len, canceled := canceled, repeat_passphrase := rp,
              repeat_okay := 0, result := -1 } }, ?_, rfl⟩
      rw [hpw]
      simp only [passwordRepeatEnd, hcmp, bind_ok]
      rfl

/-- C9 (witness): "a" then Escape in the primary pass; the three events that follow are
left untouched. -/
theorem password_outcome_witness :
    passwordBegin (withRepeat (primaryState emptyBlock 0))
        = .ok (withRepeat (primaryState emptyBlock 0))
      ∧ run grantAll (withRepeat (primaryState emptyBlock 0)) (typeAEscape ++ typeAb)
        = .ok ((withRepeat (primaryState [0x61, 0, 0, 0, 0, 0, 0, 0] 1)).cancel, typeAb)
      ∧ (withRepeat (primaryState [0x61, 0, 0, 0, 0, 0, 0, 0] 1)).cancel.pinentry_info.canceled ≠ 0
      ∧ ∃ s4, password grantAll (withRepeat (primaryState emptyBlock 0)) (typeAEscape ++ typeAb)
          = .ok (s4, typeAb) ∧ s4.pinentry_info.result = -1 ∧ s4.repeatPass = 0 :=
  ⟨by decide, by decide, by decide, _,
    (password_outcome grantAll (withRepeat (primaryState emptyBlock 0))
      (withRepeat (primaryState emptyBlock 0))
      ((withRepeat (primaryState [0x61, 0, 0, 0, 0, 0, 0, 0] 1)).cancel)
      (typeAEscape ++ typeAb) typeAb (by decide) (by decide)).1 (by decide), rfl, rfl⟩

/-! ## C8: the loop of `cmdhandler` after a mismatch -/

theorem bind_eq_ok {α β : Type} {x : Except Fault α} {f : α → Except Fault β} {v : β}
    (h : x >>= f = .ok v) : ∃ a, x = .ok a ∧ f a = .ok v := by
  cases x with
  | error e => rw [bind_error] at h; cases h
  | ok a => exact ⟨a, rfl, by rw [bind_ok] at h; exact h⟩

theorem runLoop_consumes (m : Secmem) :
    ∀ (evs : List XEvent) (s s1 : State) (rest : List XEvent),
      runLoop m s evs = .ok (s1, rest) → rest.length < evs.length := by
  intro evs
  induction evs with
  | nil => intro s s1 rest h; unfold runLoop at h; cases h
  | cons e es ih =>
    intro s s1 rest h
    unfold runLoop at h
    cases hd : dispatch m s e with
    | error f => rw [hd] at h; cases h
    | ok r =>
      obtain ⟨s2, fin⟩ := r
      rw [hd] at h
      cases fin with
      | true =>
        simp only at h
        cases h
        simp
      | false =>
        simp only at h
        have := ih s2 s1 rest h
        simp only [List.length_cons]; omega

theorem run_consumes (m : Secmem) (s s1 : State) (evs rest : List XEvent)
    (h : run m s evs = .ok (s1, rest)) : rest.length < evs.length := by
  unfold run at h
  cases hd : drawmenu s with
  | error f => rw [hd] at h; cases h
  | ok s0 => rw [hd] at h; exact runLoop_consumes m evs s0 s1 rest h

theorem password_consumes (m : Secmem) (s s1 : State) (evs rest : List XEvent)
    (h : password m s evs = .ok (s1, rest)) : rest.length < evs.length := by
  unfold password at h
  obtain ⟨s0, _, h⟩ := bind_eq_ok h
  obtain ⟨r1, hr1, h⟩ := bind_eq_ok h
  have c1 := run_consumes m s0 r1.1 evs r1.2 hr1
  by_cases hw : wantsRepeat r1.1 = true
  · rw [if_pos hw] at h
    obtain ⟨s2, _, h⟩ := bind_eq_ok h
    obtain ⟨r2, hr2, h⟩ := bind_eq_ok h
    have c2 := run_consumes m s2 r2.1 r1.2 r2.2 hr2
    obtain ⟨s3, _, h⟩ := bind_eq_ok h
    cases h
    omega
  · rw [if_neg hw] at h
    obtain ⟨s3, _, h⟩ := bind_eq_ok h
    cases h
    omega

theorem passwordLoop_fuel (m : Secmem) :
    ∀ (f1 f2 : Nat) (s : State) (evs : List XEvent), evs.length < f1 → evs.length < f2 →
      passwordLoop m f1 s evs = passwordLoop m f2 s evs := by
  intro f1
  induction f1 with
  | zero => intro f2 s evs h; omega
  | succ k ih =>
    intro f2 s evs h1 h2
    obtain ⟨j, rfl⟩ : ∃ j, f2 = j + 1 := ⟨f2 - 1, by omega⟩
    unfold passwordLoop
    cases hp : password m s evs with
    | error e => rfl
    | ok r =>
      obtain ⟨s1, rest⟩ := r
      have hc := password_consumes m s s1 evs rest hp
      simp only
      by_cases hr : retries s1 = true
      · rw [if_pos hr, if_pos hr]
        exact ih j s1 rest (by omega) (by omega)
      · rw [if_neg hr, if_neg hr]

theorem passwordEnd_frame (s s1 : State) (h : passwordEnd s = .ok s1) :
    s1.pinentry_info.canceled = s.pinentry_info.canceled
      ∧ s1.pinentry_info.repeat_passphrase = s.pinentry_info.repeat_passphrase
      ∧ s1.pinentry_info.repeat_okay = s.pinentry_info.repeat_okay := by
  unfold passwordEnd at h
  by_cases hc : s.pinentry_info.canceled ≠ 0
  · rw [if_pos hc] at h
    cases h
    exact ⟨rfl, rfl, rfl⟩
  · rw [if_neg hc] at h
    cases hp : s.pinentry_info.pin with
    | none => rw [hp] at h; cases h
    | some a =>
      rw [hp] at h
      obtain ⟨l, _, h⟩ := bind_eq_ok h
      cases h
      exact ⟨rfl, rfl, rfl⟩

theorem password_retries (m : Secmem) (s s1 : State) (evs rest : List XEvent)
    (h : password m s evs = .ok (s1, rest)) (hr : retries s1 = true) :
    s1.pinentry_info.pin.isSome = true ∧ s1.pinentry_info.result = -1 := by
  unfold retries at hr
  simp only [Bool.and_eq_true, decide_eq_true_eq] at hr
  obtain ⟨⟨hc, hrep⟩, hno⟩ := hr
  unfold password at h
  obtain ⟨s0, _, h⟩ := bind_eq_ok h
  obtain ⟨r1, hr1, h⟩ := bind_eq_ok h
  by_cases hw : wantsRepeat r1.1 = true
  · rw [if_pos hw] at h
    obtain ⟨s2, _, h⟩ := bind_eq_ok h
    obtain ⟨r2, hr2, h⟩ := bind_eq_ok h
    obtain ⟨s3, h3, h⟩ := bind_eq_ok h
    cases h
    unfold passwordRepeatEnd at h3
    cases hp : r2.1.pinentry_info.pin with
    | none => rw [hp] at h3; cases h3
    | some a =>
      cases hq : r2.1.pin_repeat with
      | none => rw [hp, hq] at h3; cases h3
      | some b =>
        rw [hp, hq] at h3
        simp only at h3
        obtain ⟨eq, _, h3⟩ := bind_eq_ok h3
        cases eq with
        | true =>
          simp only [if_true] at h3
          rw [if_neg (by decide)] at h3
          have := (passwordEnd_frame _ _ h3).2.2
          rw [hno] at this
          simp at this
        | false =>
          simp only [Bool.false_eq_true, if_false, if_true] at h3
          cases h3
          exact ⟨by simp [hp], rfl⟩
  · rw [if_neg hw] at h
    obtain ⟨s3, h3, h⟩ := bind_eq_ok h
    cases h
    obtain ⟨f1, f2, _⟩ := passwordEnd_frame _ _ h3
    exfalso
    apply hw
    unfold wantsRepeat
    rw [← f1, ← f2, hc, hrep]
    rfl

/-- C8 (amended): when `password()` returns from a repeat mismatch (not canceled, repeat
requested, `repeat_okay = 0`) it has stored `result = -1`, and `cmdhandler` does not
return that outcome: its `do ... while` loop calls `password()` again, so the session
goes on exactly as a new session on the events that follow. -/
theorem mismatch_retries (m : Secmem) (s s1 : State) (pe : Pinentry) (evs rest : List XEvent)
    (hpin : pe.pin.isSome = true)
    (h1 : password m { s with pinentry_info := pe } evs = .ok (s1, rest))
    (hc : s1.pinentry_info.canceled = 0) (hrep : s1.pinentry_info.repeat_passphrase = true)
    (hno : s1.pinentry_info.repeat_okay = 0) :
    s1.pinentry_info.result = -1
      ∧ cmdhandler m s pe evs = cmdhandler m s1 s1.pinentry_info rest := by
  have hr : retries s1 = true := by
    unfold retries; rw [hc, hrep, hno]; rfl
  obtain ⟨hsome, hres⟩ := password_retries m _ s1 evs rest h1 hr
  refine ⟨hres, ?_⟩
  have hcons := password_consumes m _ s1 evs rest h1
  have hloop : passwordLoop m (evs.length + 1) { s with pinentry_info := pe } evs
      = passwordLoop m (rest.length + 1) s1 rest := by
    rw [passwordLoop]
    simp only [h1]
    rw [if_pos hr]
    exact passwordLoop_fuel m _ _ s1 rest (by omega) (by omega)
  unfold cmdhandler
  simp only [hpin, hsome, if_true]
  rw [hloop]

/-- C8 (counterexample): "ab" and "ac" are typed in the two passes, then "ab" twice.  The
first call of `password()` ends in the mismatch (`result = -1`, `repeat_okay = 0`) with
six events left, but `cmdhandler` does not return then: it takes the six events too, in a
second primary and repeat pass, and returns 2. -/
theorem mismatch_is_retried_internally :
    (password grantAll { startState with pinentry_info := pinRequest 8 true }
        (typeAb ++ typeAc ++ typeAb ++ typeAb)).map
        (fun r => (r.1.pinentry_info.result, r.1.pinentry_info.repeat_okay, r.2))
      = .ok (-1, 0, typeAb ++ typeAb)
    ∧ (cmdhandler grantAll startState (pinRequest 8 true)
        (typeAb ++ typeAc ++ typeAb ++ typeAb)).map (fun r => (r.1, r.2.2))
      = .ok (2, []) := by
  decide

/-- C8 (witness): the mismatch of "ab" and "ac", with two more passes to come. -/
theorem mismatch_retries_witness :
    (pinRequest 8 true).pin.isSome = true
      ∧ password grantAll { startState with pinentry_info := pinRequest 8 true }
          (typeAb ++ typeAc ++ typeAb ++ typeAb) = .ok (mismatchState, typeAb ++ typeAb)
      ∧ mismatchState.pinentry_info.canceled = 0
      ∧ mismatchState.pinentry_info.repeat_passphrase = true
      ∧ mismatchState.pinentry_info.repeat_okay = 0
      ∧ mismatchState.pinentry_info.result = -1
      ∧ cmdhandler grantAll startState (pinRequest 8 true) (typeAb ++ typeAc ++ typeAb ++ typeAb)
        = cmdhandler grantAll mismatchState mismatchState.pinentry_info (typeAb ++ typeAb) :=
  ⟨by decide, by decide, by decide, by decide, by decide,
    mismatch_retries grantAll startState mismatchState (pinRequest 8 true)
      (typeAb ++ typeAc ++ typeAb ++ typeAb) (typeAb ++ typeAb) (by decide) (by decide)
      (by decide) (by decide) (by decide)⟩

/-! ## C10: what sets `canceled`, and what happens afterwards -/

theorem store_canceled (s : State) (b : Block) :
    (s.store b).pinentry_info.canceled = s.pinentry_info.canceled := by
  unfold State.store; cases s.pin <;> rfl

theorem ok_eq_ok {α : Type} {a b : α} (h : (Except.ok a : Except Fault α) = .ok b) : a = b := by
  injection h

theorem pure_eq_ok {α : Type} {a b : α} (h : (pure a : Except Fault α) = .ok b) : a = b := by
  injection h

theorem setup_pin_canceled (s s1 : State) (p : PinRef) (len : Int) (reset : Bool)
    (h : setup_pin s p len reset = .ok s1) :
    s1.pinentry_info.canceled = s.pinentry_info.canceled := by
  unfold setup_pin at h
  cases reset with
  | false =>
    simp only [Bool.false_eq_true, if_false] at h
    rw [← ok_eq_ok h]
  | true =>
    simp only [if_true] at h
    split at h
    · rw [← ok_eq_ok h]
    · obtain ⟨b1, _, h⟩ := bind_eq_ok h
      rw [← pure_eq_ok h, store_canceled]

theorem insertSplice_canceled (s s1 : State) (len : Nat) (str : List Nat) (n : Int)
    (h : insertSplice s len str n = .ok s1) :
    s1.pinentry_info.canceled = s.pinentry_info.canceled := by
  unfold insertSplice at h
  obtain ⟨b, _, h⟩ := bind_eq_ok h
  obtain ⟨b1, _, h⟩ := bind_eq_ok h
  dsimp only at h
  split at h
  · obtain ⟨b2, _, h⟩ := bind_eq_ok h
    obtain ⟨b3, _, h⟩ := bind_eq_ok h
    rw [← pure_eq_ok h]
    exact store_canceled s b3
  · obtain ⟨b2, _, h⟩ := bind_eq_ok h
    obtain ⟨b3, _, h⟩ := bind_eq_ok h
    rw [← pure_eq_ok h]
    exact store_canceled s b3

theorem insertGrow_canceled (m : Secmem) (s s1 : State) (h : insertGrow m s = .ok s1) :
    s1.pinentry_info.canceled = s.pinentry_info.canceled := by
  unfold insertGrow at h
  split at h
  · split at h
    · cases h
    · obtain ⟨s3, h3, h⟩ := bind_eq_ok h
      have e3 := setup_pin_canceled _ _ _ _ _ h3
      split at h
      · rw [← pure_eq_ok h]; exact e3
      · rw [← pure_eq_ok h]; exact e3
  · split at h
    · cases h
    · unfold pinentry_setbufferlen at h
      split at h
      · rename_i pe heq
        split at heq
        · rw [← ok_eq_ok h]
          have := (Prod.mk.inj heq).1
          rw [← this]
        · cases (Prod.mk.inj heq).2
      · rename_i pe heq
        split at heq
        · cases (Prod.mk.inj heq).2
        · have e := setup_pin_canceled _ _ _ _ _ h
          rw [e]
          have := (Prod.mk.inj heq).1
          rw [← this]

theorem insert_canceled (m : Secmem) (s s1 : State) (str : List Nat) (n : Int)
    (h : insert m s str n = .ok s1) :
    s1.pinentry_info.canceled = s.pinentry_info.canceled := by
  unfold insert at h
  obtain ⟨b, _, h⟩ := bind_eq_ok h
  obtain ⟨len, _, h⟩ := bind_eq_ok h
  split at h
  · obtain ⟨sg, hg, h⟩ := bind_eq_ok h
    have eg := insertGrow_canceled m s sg hg
    split at h
    · rw [← pure_eq_ok h]; exact eg
    · rw [insertSplice_canceled sg s1 len str n h]; exact eg
  · exact insertSplice_canceled s s1 len str n h

theorem keypress_pin_backspace_canceled (m : Secmem) (s s1 : State) (r : Int)
    (h : keypress_pin_backspace m s = .ok (s1, r)) :
    s1.pinentry_info.canceled = s.pinentry_info.canceled := by
  unfold keypress_pin_backspace at h
  split at h
  · have := pure_eq_ok h
    rw [← (Prod.mk.inj this).1]
  · obtain ⟨c, _, h⟩ := bind_eq_ok h
    obtain ⟨s2, h2, h⟩ := bind_eq_ok h
    have := pure_eq_ok h
    rw [← (Prod.mk.inj this).1]
    exact insert_canceled m s s2 _ _ h2

theorem keypress_pin_switch_escape (m : Secmem) (s : State) (buf : List Nat) (len : Int) :
    keypress_pin_switch m s XK_Escape buf len = .ok (s.cancel, 1) := by
  unfold keypress_pin_switch
  rw [if_neg (by decide), if_neg (by decide), if_pos rfl]
  rfl

theorem keypress_pin_switch_canceled (m : Secmem) (s s1 : State) (ksym : Nat) (buf : List Nat)
    (len r : Int) (hk : ksym ≠ XK_Escape)
    (h : keypress_pin_switch m s ksym buf len = .ok (s1, r)) :
    s1.pinentry_info.canceled = s.pinentry_info.canceled := by
  unfold keypress_pin_switch at h
  split at h
  · obtain ⟨b, _, h⟩ := bind_eq_ok h
    obtain ⟨c, _, h⟩ := bind_eq_ok h
    split at h
    · have := pure_eq_ok h
      rw [← (Prod.mk.inj this).1]
    · obtain ⟨c1, _, h⟩ := bind_eq_ok h
      have := keypress_pin_backspace_canceled m _ s1 r h
      exact this
  split at h
  · exact keypress_pin_backspace_canceled m s s1 r h
  try rw [if_neg hk] at h
  split at h
  · split at h
    · obtain ⟨c1, _, h⟩ := bind_eq_ok h
      have := pure_eq_ok h
      rw [← (Prod.mk.inj this).1]
    · have := pure_eq_ok h
      rw [← (Prod.mk.inj this).1]
  split at h
  · obtain ⟨b, _, h⟩ := bind_eq_ok h
    obtain ⟨c, _, h⟩ := bind_eq_ok h
    split at h
    · obtain ⟨c1, _, h⟩ := bind_eq_ok h
      have := pure_eq_ok h
      rw [← (Prod.mk.inj this).1]
    · have := pure_eq_ok h
      rw [← (Prod.mk.inj this).1]
  split at h
  · have := pure_eq_ok h
    rw [← (Prod.mk.inj this).1]
  split at h
  · obtain ⟨b, _, h⟩ := bind_eq_ok h
    obtain ⟨l, _, h⟩ := bind_eq_ok h
    have := pure_eq_ok h
    rw [← (Prod.mk.inj this).1]
  split at h
  · have := pure_eq_ok h
    rw [← (Prod.mk.inj this).1]
  split at h
  · obtain ⟨s2, h2, h⟩ := bind_eq_ok h
    have := pure_eq_ok h
    rw [← (Prod.mk.inj this).1]
    exact insert_canceled m s s2 _ _ h2
  · have := pure_eq_ok h
    rw [← (Prod.mk.inj this).1]

theorem keypress_pin_canceled (m : Secmem) (s s1 : State) (ev : XKeyEvent) (ksym : Nat)
    (buf : List Nat) (len r : Int) (h : keypress_pin m s ev ksym buf len = .ok (s1, r)) :
    s1.pinentry_info.canceled = s.pinentry_info.canceled ∨ (r = 1 ∧ s1 = s.cancel) := by
  have hsw : ∀ k, k ≠ XK_Escape → keypress_pin_switch m s k buf len = .ok (s1, r) →
      s1.pinentry_info.canceled = s.pinentry_info.canceled ∨ (r = 1 ∧ s1 = s.cancel) :=
    fun k hk h => Or.inl (keypress_pin_switch_canceled m s s1 k buf len r hk h)
  have hesc : keypress_pin_switch m s XK_Escape buf len = .ok (s1, r) →
      s1.pinentry_info.canceled = s.pinentry_info.canceled ∨ (r = 1 ∧ s1 = s.cancel) := by
    intro h
    rw [keypress_pin_switch_escape] at h
    have := ok_eq_ok h
    exact Or.inr ⟨(Prod.mk.inj this).2.symm, (Prod.mk.inj this).1.symm⟩
  unfold keypress_pin at h
  by_cases hctl : ev.state &&& ControlMask ≠ 0
  · rw [if_pos hctl] at h
    by_cases h1 : ksym = XK_a
    · rw [if_pos h1] at h; exact hsw _ (by decide) h
    rw [if_neg h1] at h
    by_cases h2 : ksym = XK_b
    · rw [if_pos h2] at h; exact hsw _ (by decide) h
    rw [if_neg h2] at h
    by_cases h3 : ksym = XK_c
    · rw [if_pos h3] at h; exact hesc h
    rw [if_neg h3] at h
    by_cases h4 : ksym = XK_d
    · rw [if_pos h4] at h; exact hsw _ (by decide) h
    rw [if_neg h4] at h
    by_cases h5 : ksym = XK_e
    · rw [if_pos h5] at h; exact hsw _ (by decide) h
    rw [if_neg h5] at h
    by_cases h6 : ksym = XK_f
    · rw [if_pos h6] at h; exact hsw _ (by decide) h
    rw [if_neg h6] at h
    by_cases h7 : ksym = XK_g
    · rw [if_pos h7] at h; exact hesc h
    rw [if_neg h7] at h
    by_cases h8 : ksym = XK_h
    · rw [if_pos h8] at h; exact hsw _ (by decide) h
    rw [if_neg h8] at h
    by_cases h9 : ksym = XK_k
    · rw [if_pos h9] at h
      obtain ⟨b, _, h⟩ := bind_eq_ok h
      obtain ⟨l, _, h⟩ := bind_eq_ok h
      obtain ⟨s2, h2, h⟩ := bind_eq_ok h
      have e2 := insert_canceled m _ s2 _ _ h2
      have e3 := keypress_pin_switch_canceled m s2 s1 ksym buf len r (by rw [h9]; decide) h
      exact Or.inl (e3.trans e2)
    rw [if_neg h9] at h
    by_cases h10 : ksym = XK_u
    · rw [if_pos h10] at h
      obtain ⟨s2, h2, h⟩ := bind_eq_ok h
      have e2 := insert_canceled m _ s2 _ _ h2
      have e3 := keypress_pin_switch_canceled m s2 s1 ksym buf len r (by rw [h10]; decide) h
      exact Or.inl (e3.trans e2)
    rw [if_neg h10] at h
    by_cases h11 : ksym = XK_v
    · rw [if_pos h11] at h
      have := pure_eq_ok h
      exact Or.inl (by rw [← (Prod.mk.inj this).1])
    rw [if_neg h11] at h
    by_cases h12 : ksym = XK_Return ∨ ksym = XK_KP_Enter
    · rw [if_pos h12] at h
      refine hsw ksym ?_ h
      rcases h12 with e | e <;> (rw [e]; decide)
    rw [if_neg h12] at h
    by_cases h13 : ksym = XK_bracketleft
    · rw [if_pos h13] at h
      have := pure_eq_ok h
      exact Or.inr ⟨(Prod.mk.inj this).2.symm, (Prod.mk.inj this).1.symm⟩
    rw [if_neg h13] at h
    have := pure_eq_ok h
    exact Or.inl (by rw [← (Prod.mk.inj this).1])
  · rw [if_neg hctl] at h
    by_cases hk : ksym = XK_Escape
    · rw [hk] at h; exact hesc h
    · exact hsw ksym hk h

theorem keypress_confirm_canceled (s : State) (ev : XKeyEvent) (ksym : Nat) :
    (keypress_confirm s ev ksym).1.pinentry_info.canceled = s.pinentry_info.canceled
      ∨ ((keypress_confirm s ev ksym).2 = 1
        ∧ (keypress_confirm s ev ksym).1 = { s.cancel with sel := No }) := by
  unfold keypress_confirm
  split
  · split
    · exact Or.inr ⟨rfl, rfl⟩
    · exact Or.inl rfl
  split
  · split
    · exact Or.inl rfl
    · exact Or.inl rfl
  split
  · exact Or.inl rfl
  split
  · exact Or.inl rfl
  split
  · exact Or.inr ⟨rfl, rfl⟩
  split
  · exact Or.inl rfl
  split
  · exact Or.inl rfl
  · exact Or.inl rfl

theorem drawmenu_eq (s s1 : State) (h : drawmenu s = .ok s1) : s1 = s := by
  unfold drawmenu at h
  split at h
  · obtain ⟨_, _, h⟩ := bind_eq_ok h
    obtain ⟨_, _, h⟩ := bind_eq_ok h
    obtain ⟨_, _, h⟩ := bind_eq_ok h
    obtain ⟨_, _, h⟩ := bind_eq_ok h
    obtain ⟨_, _, h⟩ := bind_eq_ok h
    obtain ⟨_, _, h⟩ := bind_eq_ok h
    obtain ⟨_, _, h⟩ := bind_eq_ok h
    obtain ⟨_, _, h⟩ := bind_eq_ok h
    obtain ⟨_, _, h⟩ := bind_eq_ok h
    exact (pure_eq_ok h).symm
  · exact (pure_eq_ok h).symm

theorem cancel_block (s : State) : s.cancel.block = s.block := by
  unfold State.block State.cancel
  cases s.pin <;> rfl

theorem keypress_tail (p : State × Int) (s1 : State) (r : Int)
    (h : (if p.2 = 0 then drawmenu p.1 >>= fun s1 => pure (s1, p.2) else pure p)
      = Except.ok (s1, r)) : s1 = p.1 ∧ r = p.2 := by
  split at h
  · obtain ⟨sd, hd, h⟩ := bind_eq_ok h
    have e := pure_eq_ok h
    have hsd := drawmenu_eq _ _ hd
    exact ⟨by rw [← (Prod.mk.inj e).1, hsd], (Prod.mk.inj e).2.symm⟩
  · have e := pure_eq_ok h
    exact ⟨by rw [e], by rw [e]⟩

theorem keypress_canceled (m : Secmem) (s s1 : State) (ev : XKeyEvent) (r : Int)
    (h : keypress m s ev = .ok (s1, r)) :
    s1.pinentry_info.canceled = s.pinentry_info.canceled
      ∨ (r ≠ 0 ∧ s1.block = s.block ∧ s1.cursor = s.cursor) := by
  unfold keypress at h
  split at h
  · dsimp only at h
    split at h
    · obtain ⟨p, hp, h⟩ := bind_eq_ok h
      have e := pure_eq_ok hp
      obtain ⟨e1, e2⟩ := keypress_tail p s1 r h
      rw [e1, e2, ← e]
      rcases keypress_confirm_canceled s ev ev.ksym with h1 | ⟨h1, h2⟩
      · exact Or.inl h1
      · right
        refine ⟨by rw [h1]; decide, ?_, ?_⟩
        · rw [h2]; exact cancel_block s
        · rw [h2]; rfl
    · obtain ⟨p, hp, h⟩ := bind_eq_ok h
      obtain ⟨e1, e2⟩ := keypress_tail p s1 r h
      obtain ⟨p1, p2⟩ := p
      simp only at e1 e2
      subst e1 e2
      rcases keypress_pin_canceled m s s1 ev ev.ksym ev.buf ev.len r hp with h1 | ⟨h1, h2⟩
      · exact Or.inl h1
      · right
        refine ⟨by rw [h1]; decide, ?_, ?_⟩
        · rw [h2]; exact cancel_block s
        · rw [h2]; rfl
  · have e := pure_eq_ok h
    left
    rw [← (Prod.mk.inj e).1]

theorem paste_canceled (m : Secmem) (s s1 : State) (prop : Option (List Nat))
    (h : paste m s prop = .ok s1) :
    s1.pinentry_info.canceled = s.pinentry_info.canceled := by
  unfold paste at h
  cases prop with
  | none =>
    simp only at h
    rw [drawmenu_eq _ _ h]
  | some p =>
    simp only at h
    obtain ⟨s2, h2, h⟩ := bind_eq_ok h
    rw [drawmenu_eq _ _ h]
    exact insert_canceled m s s2 _ _ h2

theorem dispatch_canceled (m : Secmem) (s s1 : State) (e : XEvent) (fin : Bool)
    (h : dispatch m s e = .ok (s1, fin)) :
    s1.pinentry_info.canceled = s.pinentry_info.canceled
      ∨ (fin = true ∧ s1.block = s.block ∧ s1.cursor = s.cursor) := by
  cases e with
  | ignored => left; have := pure_eq_ok h; rw [← (Prod.mk.inj this).1]
  | expose => left; have := pure_eq_ok h; rw [← (Prod.mk.inj this).1]
  | visibilityNotify => left; have := pure_eq_ok h; rw [← (Prod.mk.inj this).1]
  | destroyNotify forWin =>
    unfold dispatch at h
    simp only at h
    split at h
    · cases h
    · left; have := pure_eq_ok h; rw [← (Prod.mk.inj this).1]
  | keyPress ev =>
    rw [dispatch_keyPress] at h
    obtain ⟨p, hp, h⟩ := bind_eq_ok h
    obtain ⟨p1, p2⟩ := p
    have e := pure_eq_ok h
    have e1 : p1 = s1 := (Prod.mk.inj e).1
    have e2 : decide (p2 ≠ 0) = fin := (Prod.mk.inj e).2
    subst e1
    rcases keypress_canceled m s p1 ev p2 hp with h1 | ⟨h1, h2, h3⟩
    · exact Or.inl h1
    · right
      refine ⟨?_, h2, h3⟩
      rw [← e2]; exact decide_eq_true h1
  | selectionNotify isUtf8 prop =>
    unfold dispatch at h
    simp only at h
    split at h
    · obtain ⟨s2, h2, h⟩ := bind_eq_ok h
      have := pure_eq_ok h
      left
      rw [← (Prod.mk.inj this).1]
      exact paste_canceled m s s2 prop h2
    · left; have := pure_eq_ok h; rw [← (Prod.mk.inj this).1]

theorem passwordEnd_shape (s s1 : State) (h : passwordEnd s = .ok s1) :
    s1 = { s with pinentry_info :=
      { s.pinentry_info with result := s1.pinentry_info.result } } := by
  unfold passwordEnd at h
  split at h
  · rw [← pure_eq_ok h]
  · split at h
    · cases h
    · obtain ⟨l, _, h⟩ := bind_eq_ok h
      rw [← pure_eq_ok h]

theorem passwordRepeatEnd_shape (s s1 : State) (h : passwordRepeatEnd s = .ok s1) :
    s1 = { s with
      pin_repeat := none
      pinentry_info :=
        { s.pinentry_info with
          repeat_okay := s1.pinentry_info.repeat_okay
          result := s1.pinentry_info.result } } := by
  unfold passwordRepeatEnd at h
  split at h
  · obtain ⟨eq, _, h⟩ := bind_eq_ok h
    cases eq with
    | true =>
      simp only [if_true] at h
      rw [if_neg (by decide)] at h
      have sh := passwordEnd_shape _ _ h
      have e : s1.pinentry_info.repeat_okay = 1 := by rw [sh]
      rw [e]
      exact sh
    | false =>
      simp only [Bool.false_eq_true, if_false, if_true] at h
      rw [← pure_eq_ok h]
  · cases h

theorem passwordBegin_canceled (s s1 : State) (h : passwordBegin s = .ok s1) :
    s1.pinentry_info.canceled = s.pinentry_info.canceled := by
  unfold passwordBegin at h
  have := setup_pin_canceled _ _ _ _ _ h
  exact this

theorem passwordRepeatBegin_canceled (m : Secmem) (s s1 : State)
    (h : passwordRepeatBegin m s = .ok s1) :
    s1.pinentry_info.canceled = s.pinentry_info.canceled := by
  unfold passwordRepeatBegin at h
  have := setup_pin_canceled _ _ _ _ _ h
  exact this

theorem enterRun_some (ph : Phase) (r : Except Fault State) (evs : List XEvent) (c1 : Config)
    (h : enterRun ph r evs = some c1) : r = .ok c1.st ∧ c1.phase = ph ∧ c1.evs = evs := by
  unfold enterRun at h
  split at h
  · cases h
  · rename_i s0
    split at h
    · cases h
    · rename_i s1 hd
      have e := drawmenu_eq _ _ hd
      cases h
      exact ⟨by rw [e], rfl, rfl⟩

theorem stepRun_some (m : Secmem) (here done : Phase) (c c1 : Config)
    (h : stepRun m here done c = some c1) :
    ∃ e fin, c.evs = e :: c1.evs ∧ dispatch m c.st e = .ok (c1.st, fin)
      ∧ c1.phase = if fin then done else here := by
  unfold stepRun at h
  split at h
  · cases h
  · rename_i e rest hevs
    split at h
    · cases h
    · rename_i s1 fin hd
      cases h
      exact ⟨e, fin, hevs, hd, rfl⟩

theorem step_sets_canceled (m : Secmem) (c c1 : Config) (h : step m c = some c1) :
    c1.st.pinentry_info.canceled = c.st.pinentry_info.canceled
      ∨ (c.phase.awaitsEvent = true ∧ c1.phase.afterRun = true
        ∧ c1.st.block = c.st.block ∧ c1.st.cursor = c.st.cursor) := by
  have hrun : ∀ here done, here.awaitsEvent = true → done.afterRun = true → c.phase = here →
      stepRun m here done c = some c1 →
      c1.st.pinentry_info.canceled = c.st.pinentry_info.canceled
        ∨ (c.phase.awaitsEvent = true ∧ c1.phase.afterRun = true
          ∧ c1.st.block = c.st.block ∧ c1.st.cursor = c.st.cursor) := by
    intro here done hh hd hp h
    obtain ⟨e, fin, _, hdis, hph⟩ := stepRun_some m here done c c1 h
    rcases dispatch_canceled m c.st c1.st e fin hdis with h1 | ⟨h1, h2, h3⟩
    · exact Or.inl h1
    · right
      rw [h1] at hph
      exact ⟨by rw [hp]; exact hh, by rw [hph]; exact hd, h2, h3⟩
  unfold step at h
  cases hp : c.phase <;> rw [hp] at h <;> simp only at h
  · obtain ⟨e, _, _⟩ := enterRun_some _ _ _ _ h
    exact Or.inl (passwordBegin_canceled _ _ e)
  · have := hrun .primaryRun .primaryDone rfl rfl hp h
    rw [hp] at this
    exact this
  · split at h
    · obtain ⟨e, _, _⟩ := enterRun_some _ _ _ _ h
      exact Or.inl (passwordRepeatBegin_canceled m _ _ e)
    · split at h
      · cases h
      · rename_i s1 he
        cases h
        have := passwordEnd_shape _ _ he
        left
        show s1.pinentry_info.canceled = _
        rw [this]
  · have := hrun .repeatRun .repeatDone rfl rfl hp h
    rw [hp] at this
    exact this
  · split at h
    · cases h
    · rename_i s1 he
      cases h
      have := passwordRepeatEnd_shape _ _ he
      left
      show s1.pinentry_info.canceled = _
      rw [this]
  · cases h
    exact Or.inl rfl
  · obtain ⟨e, _, _⟩ := enterRun_some _ _ _ _ h
    left
    rw [← ok_eq_ok e]
  · have := hrun .confirmRun .confirmDone rfl rfl hp h
    rw [hp] at this
    exact this
  · cases h
    exact Or.inl rfl
  · cases h

theorem step_after_cancel (m : Secmem) (c c1 : Config) (h : step m c = some c1)
    (hph : c.phase.afterRun = true) (hc : c.st.pinentry_info.canceled ≠ 0) :
    c1.phase.afterRun = true ∧ c1.evs = c.evs ∧ c1.st.cursor = c.st.cursor
      ∧ c1.st.pinentry_info.pin = c.st.pinentry_info.pin
      ∧ (c1.st.pin_repeat = c.st.pin_repeat ∨ c1.st.pin_repeat = none)
      ∧ c1.st.pinentry_info.canceled = c.st.pinentry_info.canceled := by
  unfold step at h
  cases hp : c.phase <;> rw [hp] at h hph <;> simp only at h <;>
    try (exact absurd hph (by decide))
  · have hw : ¬ (wantsRepeat c.st = true) := by
      unfold wantsRepeat; simp [hc]
    rw [if_neg hw] at h
    split at h
    · cases h
    · rename_i s1 he
      cases h
      have := passwordEnd_shape _ _ he
      refine ⟨rfl, rfl, ?_, ?_, ?_, ?_⟩
      · show s1.cursor = _
        rw [this]
      · show s1.pinentry_info.pin = _
        rw [this]
      · left
        show s1.pin_repeat = _
        rw [this]
      · show s1.pinentry_info.canceled = _
        rw [this]
  · split at h
    · cases h
    · rename_i s1 he
      cases h
      have := passwordRepeatEnd_shape _ _ he
      refine ⟨rfl, rfl, ?_, ?_, ?_, ?_⟩
      · show s1.cursor = _
        rw [this]
      · show s1.pinentry_info.pin = _
        rw [this]
      · right
        show s1.pin_repeat = _
        rw [this]
      · show s1.pinentry_info.canceled = _
        rw [this]
  · have hr : ¬ (retries c.st = true) := by
      unfold retries; simp [hc]
    cases h
    refine ⟨?_, rfl, rfl, rfl, Or.inl rfl, rfl⟩
    show (if retries c.st = true then Phase.entry else Phase.finished).afterRun = true
    rw [if_neg hr]
    rfl
  · cases h
    exact ⟨rfl, rfl, rfl, rfl, Or.inl rfl, rfl⟩
  · cases h

/-! ## Every run of `cmdhandler` is a path of the step relation -/

theorem stepN_trans (m : Secmem) :
    ∀ (a b : Nat) (c c1 c2 : Config), stepN m a c = some c1 → stepN m b c1 = some c2 →
      stepN m (a + b) c = some c2 := by
  intro a
  induction a with
  | zero =>
    intro b c c1 c2 h1 h2
    unfold stepN at h1
    cases h1
    rw [Nat.zero_add]; exact h2
  | succ a ih =>
    intro b c c1 c2 h1 h2
    unfold stepN at h1
    rw [Nat.succ_add]
    unfold stepN
    cases hs : step m c with
    | none => rw [hs] at h1; cases h1
    | some c0 =>
      rw [hs] at h1
      simp only at h1 ⊢
      exact ih b c0 c1 c2 h1 h2

theorem stepN_one (m : Secmem) (c c1 : Config) (h : step m c = some c1) :
    stepN m 1 c = some c1 := by
  unfold stepN
  rw [h]
  rfl

theorem runLoop_steps (m : Secmem) (here done : Phase)
    (hstep : ∀ (s : State) (evs : List XEvent),
      step m { phase := here, st := s, evs := evs }
        = stepRun m here done { phase := here, st := s, evs := evs }) :
    ∀ (evs : List XEvent) (s s1 : State) (rest : List XEvent),
      runLoop m s evs = .ok (s1, rest) →
      ∃ n, stepN m n { phase := here, st := s, evs := evs }
        = some { phase := done, st := s1, evs := rest } := by
  intro evs
  induction evs with
  | nil => intro s s1 rest h; unfold runLoop at h; cases h
  | cons e es ih =>
    intro s s1 rest h
    unfold runLoop at h
    cases hd : dispatch m s e with
    | error f => rw [hd] at h; cases h
    | ok r =>
      obtain ⟨s2, fin⟩ := r
      rw [hd] at h
      cases fin with
      | true =>
        simp only at h
        have e1 := ok_eq_ok h
        refine ⟨1, stepN_one m _ _ ?_⟩
        rw [hstep]
        unfold stepRun
        simp only [hd, if_true]
        rw [(Prod.mk.inj e1).1, (Prod.mk.inj e1).2]
      | false =>
        simp only at h
        obtain ⟨n, hn⟩ := ih s2 s1 rest h
        refine ⟨1 + n, stepN_trans m 1 n _ _ _ (stepN_one m _ _ ?_) hn⟩
        rw [hstep]
        unfold stepRun
        simp only [hd, Bool.false_eq_true, if_false]

theorem run_parts (m : Secmem) (s s1 : State) (evs rest : List XEvent)
    (h : run m s evs = .ok (s1, rest)) :
    drawmenu s = .ok s ∧ runLoop m s evs = .ok (s1, rest) := by
  unfold run at h
  cases hd : drawmenu s with
  | error f => rw [hd] at h; cases h
  | ok s0 =>
    rw [hd] at h
    have e := drawmenu_eq _ _ hd
    rw [e] at h
    exact ⟨by rw [e], h⟩

theorem enterRun_ok (ph : Phase) (s : State) (evs : List XEvent) (hd : drawmenu s = .ok s) :
    enterRun ph (.ok s) evs = some { phase := ph, st := s, evs := evs } := by
  unfold enterRun
  simp only [hd]

theorem password_steps (m : Secmem) (s s1 : State) (evs rest : List XEvent)
    (h : password m s evs = .ok (s1, rest)) :
    ∃ n, stepN m n { phase := .entry, st := s, evs := evs }
      = some { phase := .loopTest, st := s1, evs := rest } := by
  unfold password at h
  obtain ⟨s0, hb, h⟩ := bind_eq_ok h
  obtain ⟨r1, hr1, h⟩ := bind_eq_ok h
  obtain ⟨sa, ra⟩ := r1
  obtain ⟨hd1, hl1⟩ := run_parts m s0 sa evs ra hr1
  have st1 : step m { phase := .entry, st := s, evs := evs }
      = some { phase := .primaryRun, st := s0, evs := evs } := by
    unfold step
    simp only [hb]
    exact enterRun_ok _ _ _ hd1
  obtain ⟨n1, hn1⟩ := runLoop_steps m .primaryRun .primaryDone (fun _ _ => rfl) evs s0 sa ra hl1
  have p1 := stepN_trans m 1 n1 _ _ _ (stepN_one m _ _ st1) hn1
  simp only at h
  by_cases hw : wantsRepeat sa = true
  · rw [if_pos hw] at h
    obtain ⟨s2, h2, h⟩ := bind_eq_ok h
    obtain ⟨r2, hr2, h⟩ := bind_eq_ok h
    obtain ⟨sb, rb⟩ := r2
    obtain ⟨s3, h3, h⟩ := bind_eq_ok h
    have e := pure_eq_ok h
    simp only at h3 e
    obtain ⟨hd2, hl2⟩ := run_parts m s2 sb ra rb hr2
    have st2 : step m { phase := .primaryDone, st := sa, evs := ra }
        = some { phase := .repeatRun, st := s2, evs := ra } := by
      unfold step
      simp only [hw, if_true, h2]
      exact enterRun_ok _ _ _ hd2
    obtain ⟨n2, hn2⟩ := runLoop_steps m .repeatRun .repeatDone (fun _ _ => rfl) ra s2 sb rb hl2
    have st3 : step m { phase := .repeatDone, st := sb, evs := rb }
        = some { phase := .loopTest, st := s3, evs := rb } := by
      unfold step
      simp only [h3]
    have p2 := stepN_trans m _ 1 _ _ _ p1 (stepN_one m _ _ st2)
    have p3 := stepN_trans m _ n2 _ _ _ p2 hn2
    have p4 := stepN_trans m _ 1 _ _ _ p3 (stepN_one m _ _ st3)
    rw [(Prod.mk.inj e).1, (Prod.mk.inj e).2] at p4
    exact ⟨_, p4⟩
  · rw [if_neg hw] at h
    obtain ⟨s3, h3, h⟩ := bind_eq_ok h
    have e := pure_eq_ok h
    simp only at h3 e
    have st2 : step m { phase := .primaryDone, st := sa, evs := ra }
        = some { phase := .loopTest, st := s3, evs := ra } := by
      unfold step
      simp only [hw, Bool.false_eq_true, if_false, h3]
    have p2 := stepN_trans m _ 1 _ _ _ p1 (stepN_one m _ _ st2)
    rw [(Prod.mk.inj e).1, (Prod.mk.inj e).2] at p2
    exact ⟨_, p2⟩

theorem passwordLoop_steps (m : Secmem) :
    ∀ (fuel : Nat) (s s1 : State) (evs rest : List XEvent),
      passwordLoop m fuel s evs = .ok (s1, rest) →
      ∃ n, stepN m n { phase := .entry, st := s, evs := evs }
        = some { phase := .finished, st := s1, evs := rest } := by
  intro fuel
  induction fuel with
  | zero => intro s s1 evs rest h; unfold passwordLoop at h; cases h
  | succ f ih =>
    intro s s1 evs rest h
    unfold passwordLoop at h
    cases hp : password m s evs with
    | error e => rw [hp] at h; cases h
    | ok r =>
      obtain ⟨sa, ra⟩ := r
      rw [hp] at h
      simp only at h
      obtain ⟨n1, hn1⟩ := password_steps m s sa evs ra hp
      by_cases hr : retries sa = true
      · rw [if_pos hr] at h
        obtain ⟨n2, hn2⟩ := ih sa s1 ra rest h
        have st : step m { phase := .loopTest, st := sa, evs := ra }
            = some { phase := .entry, st := sa, evs := ra } := by
          unfold step
          simp only [hr, if_true]
        have p1 := stepN_trans m _ 1 _ _ _ hn1 (stepN_one m _ _ st)
        exact ⟨_, stepN_trans m _ n2 _ _ _ p1 hn2⟩
      · rw [if_neg hr] at h
        have e := ok_eq_ok h
        have st : step m { phase := .loopTest, st := sa, evs := ra }
            = some { phase := .finished, st := sa, evs := ra } := by
          unfold step
          simp only [hr, Bool.false_eq_true, if_false]
        have p1 := stepN_trans m _ 1 _ _ _ hn1 (stepN_one m _ _ st)
        rw [(Prod.mk.inj e).1, (Prod.mk.inj e).2] at p1
        exact ⟨_, p1⟩

theorem confirm_steps (m : Secmem) (s s1 : State) (evs rest : List XEvent)
    (h : confirm m s evs = .ok (s1, rest)) :
    ∃ n, stepN m n { phase := .confirmEntry, st := s, evs := evs }
      = some { phase := .finished, st := s1, evs := rest } := by
  unfold confirm at h
  obtain ⟨r, hr, h⟩ := bind_eq_ok h
  obtain ⟨sa, ra⟩ := r
  have e := pure_eq_ok h
  simp only at e
  obtain ⟨hd, hl⟩ := run_parts m _ sa evs ra hr
  have st1 : step m { phase := .confirmEntry, st := s, evs := evs }
      = some { phase := .confirmRun,
               st := { s with winmode := WinConfirm, sel := Nothing }, evs := evs } := by
    unfold step
    exact enterRun_ok _ _ _ hd
  obtain ⟨n1, hn1⟩ := runLoop_steps m .confirmRun .confirmDone (fun _ _ => rfl) evs _ sa ra hl
  have st2 : step m { phase := .confirmDone, st := sa, evs := ra }
      = some { phase := .finished,
               st := { sa with pinentry_info :=
                 { sa.pinentry_info with result := if sa.sel ≠ No then 1 else 0 } },
               evs := ra } := rfl
  have p1 := stepN_trans m 1 n1 _ _ _ (stepN_one m _ _ st1) hn1
  have p2 := stepN_trans m _ 1 _ _ _ p1 (stepN_one m _ _ st2)
  rw [(Prod.mk.inj e).1, (Prod.mk.inj e).2] at p2
  exact ⟨_, p2⟩

/-- Every run of `cmdhandler` that returns is a path of the step relation from the start
configuration to a finished one, with the same final state and the same events left. -/
theorem cmdhandler_steps (m : Secmem) (s s1 : State) (pe : Pinentry) (evs rest : List XEvent)
    (r : Int) (h : cmdhandler m s pe evs = .ok (r, s1, rest)) :
    r = s1.pinentry_info.result
      ∧ ∃ n, stepN m n (startConfig s pe evs)
        = some { phase := .finished, st := s1, evs := rest } := by
  unfold cmdhandler at h
  dsimp only at h
  unfold startConfig
  by_cases hpin : pe.pin.isSome = true
  · rw [if_pos hpin] at h ⊢
    obtain ⟨p, hp, h⟩ := bind_eq_ok h
    obtain ⟨sa, ra⟩ := p
    have e := pure_eq_ok h
    simp only at e
    have e1 : sa.pinentry_info.result = r := (Prod.mk.inj e).1
    have e2 : sa = s1 := (Prod.mk.inj (Prod.mk.inj e).2).1
    have e3 : ra = rest := (Prod.mk.inj (Prod.mk.inj e).2).2
    subst e2 e3
    exact ⟨e1.symm, passwordLoop_steps m _ _ sa evs ra hp⟩
  · rw [if_neg hpin] at h ⊢
    obtain ⟨p, hp, h⟩ := bind_eq_ok h
    obtain ⟨sa, ra⟩ := p
    have e := pure_eq_ok h
    simp only at e
    have e1 : sa.pinentry_info.result = r := (Prod.mk.inj e).1
    have e2 : sa = s1 := (Prod.mk.inj (Prod.mk.inj e).2).1
    have e3 : ra = rest := (Prod.mk.inj (Prod.mk.inj e).2).2
    subst e2 e3
    exact ⟨e1.symm, confirm_steps m _ sa evs ra hp⟩

/-! ## C10: cancellation precedence -/

theorem afterRun_not_awaits (p : Phase) (h : p.afterRun = true) : p.awaitsEvent = false := by
  cases p <;> first | rfl | cases h

theorem stepN_after_cancel (m : Secmem) :
    ∀ (k : Nat) (c c2 : Config), c.phase.afterRun = true → c.st.pinentry_info.canceled ≠ 0 →
      stepN m k c = some c2 →
      c2.phase.afterRun = true ∧ c2.evs = c.evs ∧ c2.st.cursor = c.st.cursor
        ∧ c2.st.pinentry_info.pin = c.st.pinentry_info.pin
        ∧ (c2.st.pin_repeat = c.st.pin_repeat ∨ c2.st.pin_repeat = none)
        ∧ c2.st.pinentry_info.canceled = c.st.pinentry_info.canceled := by
  intro k
  induction k with
  | zero =>
    intro c c2 hph _ h
    unfold stepN at h
    cases h
    exact ⟨hph, rfl, rfl, rfl, Or.inl rfl, rfl⟩
  | succ k ih =>
    intro c c2 hph hc h
    unfold stepN at h
    cases hs : step m c with
    | none => rw [hs] at h; cases h
    | some c1 =>
      rw [hs] at h
      simp only at h
      obtain ⟨a1, a2, a3, a4, a5, a6⟩ := step_after_cancel m c c1 hs hph hc
      obtain ⟨b1, b2, b3, b4, b5, b6⟩ := ih c1 c2 a1 (by rw [a6]; exact hc) h
      refine ⟨b1, b2.trans a2, b3.trans a3, b4.trans a4, ?_, b6.trans a6⟩
      rcases b5 with b5 | b5
      · rcases a5 with a5 | a5
        · exact Or.inl (b5.trans a5)
        · exact Or.inr (b5.trans a5)
      · exact Or.inr b5

theorem stepN_cancel_phase (m : Secmem) :
    ∀ (n : Nat) (c0 c : Config), c0.st.pinentry_info.canceled = 0 → stepN m n c0 = some c →
      c.st.pinentry_info.canceled ≠ 0 → c.phase.afterRun = true := by
  intro n
  induction n with
  | zero =>
    intro c0 c h0 h hc
    unfold stepN at h
    cases h
    exact absurd h0 hc
  | succ n ih =>
    intro c0 c h0 h hc
    unfold stepN at h
    cases hs : step m c0 with
    | none => rw [hs] at h; cases h
    | some c1 =>
      rw [hs] at h
      simp only at h
      by_cases h1 : c1.st.pinentry_info.canceled = 0
      · exact ih c1 c h1 h hc
      · rcases step_sets_canceled m c0 c1 hs with e | ⟨_, e, _, _⟩
        · rw [e] at h1; exact absurd h0 h1
        · exact (stepN_after_cancel m n c1 c e h1 h).1

/-- C10 (cancellation precedence).  (1) In both modes a dispatched event that sets
`canceled` makes `run` return in the same step and leaves the buffer behind `pin` and the
cursor as they are.  (2) Over the step relation of `run`, `password`, `confirm` and the
loop of `cmdhandler`, started with `canceled` clear: in every configuration with
`canceled` set the control is not at a point that takes an event, and in all
configurations that follow no event is taken, the cursor and the secret buffer of the
caller are unchanged, and the repeat buffer is unchanged or released. -/
theorem cancellation_precedence (m : Secmem) :
    (∀ (s s1 : State) (e : XEvent) (fin : Bool), dispatch m s e = .ok (s1, fin) →
        s.pinentry_info.canceled = 0 → s1.pinentry_info.canceled ≠ 0 →
        fin = true ∧ s1.block = s.block ∧ s1.cursor = s.cursor)
      ∧ (∀ (c0 c : Config) (n : Nat), c0.st.pinentry_info.canceled = 0 →
          stepN m n c0 = some c → c.st.pinentry_info.canceled ≠ 0 →
          c.phase.awaitsEvent = false
            ∧ ∀ (k : Nat) (c2 : Config), stepN m k c = some c2 →
                c2.phase.awaitsEvent = false ∧ c2.evs = c.evs ∧ c2.st.cursor = c.st.cursor
                  ∧ c2.st.pinentry_info.pin = c.st.pinentry_info.pin
                  ∧ (c2.st.pin_repeat = c.st.pin_repeat ∨ c2.st.pin_repeat = none)) := by
  constructor
  · intro s s1 e fin h h0 h1
    rcases dispatch_canceled m s s1 e fin h with e1 | e1
    · rw [e1] at h1; exact absurd h0 h1
    · exact e1
  · intro c0 c n h0 h hc
    have hph := stepN_cancel_phase m n c0 c h0 h hc
    refine ⟨afterRun_not_awaits _ hph, fun k c2 hk => ?_⟩
    obtain ⟨b1, b2, b3, b4, b5, _⟩ := stepN_after_cancel m k c c2 hph hc hk
    exact ⟨afterRun_not_awaits _ b1, b2, b3, b4, b5⟩

/-- C10 (witness): "a" and Escape in the primary pass of a session with repeat
confirmation: after three steps `canceled` is set, and the control is behind the run
loop with the three later events untouched. -/
theorem cancellation_precedence_witness :
    (startConfig startState (pinRequest 8 true) (typeAEscape ++ typeAb)).st.pinentry_info.canceled
        = 0
      ∧ stepN grantAll 3 (startConfig startState (pinRequest 8 true) (typeAEscape ++ typeAb))
        = some canceledConfig
      ∧ canceledConfig.st.pinentry_info.canceled ≠ 0
      ∧ canceledConfig.phase.awaitsEvent = false
      ∧ ∀ (k : Nat) (c2 : Config), stepN grantAll k canceledConfig = some c2 →
          c2.phase.awaitsEvent = false ∧ c2.evs = canceledConfig.evs
            ∧ c2.st.cursor = canceledConfig.st.cursor
            ∧ c2.st.pinentry_info.pin = canceledConfig.st.pinentry_info.pin
            ∧ (c2.st.pin_repeat = canceledConfig.st.pin_repeat ∨ c2.st.pin_repeat = none) :=
  ⟨by decide, by decide, by decide,
    (cancellation_precedence grantAll).2
      (startConfig startState (pinRequest 8 true) (typeAEscape ++ typeAb)) canceledConfig 3
      (by decide) (by decide) (by decide)⟩

/-! ## C11: Enter in confirm mode -/

theorem checkInt_ok (i : Int) (h1 : -2147483648 ≤ i) (h2 : i ≤ 2147483647) :
    checkInt i = .ok i := by
  unfold checkInt INT_MAX
  rw [if_pos ⟨by omega, h2⟩]

theorem toInt_toUInt (i : Int) (h1 : -2147483648 ≤ i) (h2 : i ≤ 2147483647) :
    toInt (toUInt i) = i := by
  unfold toInt toUInt
  split <;> omega

theorem candidate_eq (p : Int) (len : Nat) (h0 : 0 ≤ p) (h1 : p ≤ 2147483647) :
    toInt (toSizeT p / len) = p / (len : Int) := by
  have e : toSizeT p = p.toNat := by unfold toSizeT SIZE_MOD; omega
  have hle : p.toNat / len ≤ p.toNat := Nat.div_le_self _ _
  have hc : ((p.toNat / len : Nat) : Int) = p / (len : Int) := by
    rw [Int.natCast_div, Int.toNat_of_nonneg h0]
  rw [e, ← hc]
  exact toInt_of_le _ (by unfold INT_MAX; omega)

theorem drawmenuDescription_eq (winmode : Nat) (g : Geometry) (d : Block) (len reserve : Nat)
    (hlen : strlen d = .ok len) (hpos : 0 < len) (hlenmax : (len : Int) ≤ INT_MAX)
    (hres : reserve = if winmode = WinPin then g.censortl else g.confirml)
    (hr : (reserve : Int) ≤ INT_MAX)
    (hx : 0 ≤ g.x) (hroom : g.x < g.mw) (hmw : g.mw ≤ INT_MAX)
    (hw : 0 ≤ g.pdescw) (hprod : MINDESCLEN * g.pdescw ≤ INT_MAX) :
    drawmenuDescription winmode g d
      = .ok (if min (MINDESCLEN * g.pdescw / (len : Int)) g.pdescw ≤ g.mw - g.x - reserve then
          (min g.pdescw (g.mw - g.x - reserve),
            some (g.mw - min g.pdescw (g.mw - g.x - reserve),
              (d.take len).map (fun c => if c = 10 then 32 else c) ++ d.drop len))
          else (0, none)) := by
  unfold INT_MAX at hr hmw hprod hlenmax
  unfold MINDESCLEN at hprod ⊢
  have hcand0 : 0 ≤ 8 * g.pdescw / (len : Int) := Int.ediv_nonneg (by omega) (by omega)
  unfold drawmenuDescription
  rw [checkInt_ok _ (by omega) (by omega), bind_ok, hlen, bind_ok, if_pos (by omega)]
  simp only [MINDESCLEN]
  rw [checkInt_ok _ (by omega) (by omega), bind_ok, if_neg (by omega), ← hres,
    toInt_toUInt _ (by omega) (by omega), candidate_eq _ _ (by omega) (by omega)]
  by_cases hs : min (8 * g.pdescw / (len : Int)) g.pdescw ≤ g.mw - g.x - reserve
  · rw [if_pos hs, if_pos hs]
    have e1 : max (min (8 * g.pdescw / (len : Int)) g.pdescw) g.pdescw = g.pdescw :=
      max_eq_right (min_le_right _ _)
    have h0 : 0 ≤ min (8 * g.pdescw / (len : Int)) g.pdescw := le_min hcand0 hw
    have h1 : 0 ≤ min g.pdescw (g.mw - g.x - reserve) := le_min hw (by omega)
    have h2 : min g.pdescw (g.mw - g.x - reserve) ≤ g.mw - g.x - reserve := min_le_right _ _
    rw [e1, checkInt_ok _ (by omega) (by omega), bind_ok, if_neg (by unfold INT_MAX; omega)]
    rfl
  · rw [if_neg hs, if_neg hs]
    rfl

/-- C13 (counterexample): in a window 200 wide, with a description of 100 characters that is
1000 wide, the candidate width is 80; with 150 left for the description (50 kept for the
input field, or 50 taken by the prompts) `drawmenu` gives the description the width 150,
not 80, and the input field 50 or 0, not 120. -/
theorem description_gets_the_room :
    strlen longDescription = .ok 100
      ∧ min (MINDESCLEN * wideDescription.pdescw / 100) wideDescription.pdescw = 80
      ∧ drawmenuLayout WinPin wideDescription
        = .ok { pbw := 150, drawn := some (50, longDescription), leftinput := some 50 }
      ∧ drawmenuLayout WinPin wideDescriptionPrompt
        = .ok { pbw := 150, drawn := some (50, longDescription), leftinput := some 0 } := by
  decide

/-- C13 (amended): for a description of `len > 0` bytes, widths in the range of `int` and
prompts narrower than the window, `drawmenu` returns from its layout arithmetic, and it
draws the description exactly when the candidate width `MINDESCLEN * pdescw / len`, clamped
to at most the full width `pdescw`, is at most the room `mw - x - reserve` that is left
beside the prompts and the reserve for the input field.  The width it then gives to the
description is not the candidate but the full width clamped to that room,
`min pdescw (mw - x - reserve)`; the description is drawn at `mw` minus that width, and in
pin mode the input field gets `mw - x` minus that width. -/
theorem description_width (winmode : Nat) (g : Geometry) (d : Block) (len reserve : Nat)
    (hd : g.description = some d)
    (hlen : strlen d = .ok len) (hpos : 0 < len) (hlenmax : (len : Int) ≤ INT_MAX)
    (hres : reserve = if winmode = WinPin then g.censortl else g.confirml)
    (hr : (reserve : Int) ≤ INT_MAX)
    (hx : 0 ≤ g.x) (hroom : g.x < g.mw) (hmw : g.mw ≤ INT_MAX)
    (hw : 0 ≤ g.pdescw) (hprod : MINDESCLEN * g.pdescw ≤ INT_MAX) :
    drawmenuLayout winmode g
      = .ok (if min (MINDESCLEN * g.pdescw / (len : Int)) g.pdescw ≤ g.mw - g.x - reserve then
          { pbw := min g.pdescw (g.mw - g.x - reserve),
            drawn := some (g.mw - min g.pdescw (g.mw - g.x - reserve),
              (d.take len).map (fun c => if c = 10 then 32 else c) ++ d.drop len),
            leftinput := if winmode = WinPin then
              some (g.mw - g.x - min g.pdescw (g.mw - g.x - reserve)) else none }
          else
          { pbw := 0, drawn := none,
            leftinput := if winmode = WinPin then some (g.mw - g.x) else none }) := by
  have key := drawmenuDescription_eq winmode g d len reserve hlen hpos hlenmax hres hr hx hroom
    hmw hw hprod
  unfold INT_MAX at hr hmw hprod hlenmax
  unfold MINDESCLEN at hprod
  unfold drawmenuLayout
  rw [hd]
  simp only [key, bind_ok]
  have hcand0 : 0 ≤ MINDESCLEN * g.pdescw / (len : Int) :=
    Int.ediv_nonneg (by unfold MINDESCLEN; omega) (by omega)
  by_cases hs : min (MINDESCLEN * g.pdescw / (len : Int)) g.pdescw ≤ g.mw - g.x - reserve
  · have h0 : 0 ≤ min (MINDESCLEN * g.pdescw / (len : Int)) g.pdescw := le_min hcand0 hw
    have h1 : 0 ≤ min g.pdescw (g.mw - g.x - reserve) := le_min hw (by omega)
    have h2 : min g.pdescw (g.mw - g.x - reserve) ≤ g.mw - g.x - reserve := min_le_right _ _
    simp only [hs, if_true]
    by_cases hm : winmode = WinPin
    · rw [if_pos hm, if_pos hm, checkInt_ok _ (by omega) (by omega), bind_ok,
        checkInt_ok _ (by omega) (by omega), bind_ok]
      rfl
    · rw [if_neg hm, if_neg hm]
      rfl
  · simp only [hs, if_false]
    by_cases hm : winmode = WinPin
    · rw [if_pos hm, if_pos hm, checkInt_ok _ (by omega) (by omega), bind_ok,
        checkInt_ok _ (by omega) (by omega), bind_ok]
      simp only [sub_zero]
      rfl
    · rw [if_neg hm, if_neg hm]
      rfl

/-- C13 (witness): the window 200 wide with 50 kept for the input field and the
description 1000 wide: the description gets 150. -/
theorem description_width_witness :
    drawmenuLayout WinPin wideDescription
      = .ok { pbw := 150, drawn := some (50, longDescription), leftinput := some 50 } :=
  (description_width WinPin wideDescription longDescription 100 50 rfl (by decide) (by decide)
    (by decide) rfl (by decide) (by decide) (by decide) (by decide) (by decide)
    (by decide)).trans (by decide)

/-- C20 (failing input): for the empty description (a non-NULL pointer to a NUL byte) in a
window wider than its prompts, the layout arithmetic of `drawmenu` divides
`MINDESCLEN * pdescw` by `pdesclen = strlen("") = 0`, in pin mode and in confirm mode. -/
theorem empty_description_divides_by_zero :
    strlen [0] = .ok 0
      ∧ drawmenuLayout WinPin emptyDescription = .error .divByZero
      ∧ drawmenuLayout WinConfirm emptyDescription = .error .divByZero := by
  decide

/-! ## C14 and C15: what `nextrune` returns and what it reads -/

theorem readByte_nat (b : Block) (n : Nat) (h : n < b.length) :
    readByte b (n : Int) = .ok (b.getD n 0) := by
  unfold readByte
  rw [if_pos ⟨by omega, by omega⟩]
  rfl

theorem nextruneLoop_back_scan (b : Block) : ∀ (n fuel : Nat), n < fuel → n < b.length →
    ∃ r : Nat, r ≤ n ∧ nextruneLoop b (-1) fuel (n : Int) = .ok (r : Int)
      ∧ (∀ k, r < k → k ≤ n → b.getD k 0 &&& 0xc0 = 0x80)
      ∧ (r = 0 ∨ b.getD r 0 &&& 0xc0 ≠ 0x80)
      ∧ (∀ i ∈ nextruneReads b (-1) fuel (n : Int), (1 : Int) ≤ i ∧ i ≤ (n : Int)) := by
  intro n
  induction n with
  | zero =>
    intro fuel hf _
    obtain ⟨f, rfl⟩ : ∃ f, fuel = f + 1 := ⟨fuel - 1, by omega⟩
    refine ⟨0, le_refl _, ?_, fun k h1 h2 => by omega, Or.inl rfl, ?_⟩
    · rw [nextruneLoop, if_neg (by omega)]
    · rw [nextruneReads, if_neg (by omega)]
      intro i hi
      cases hi
  | succ n ih =>
    intro fuel hf hn
    obtain ⟨f, rfl⟩ : ∃ f, fuel = f + 1 := ⟨fuel - 1, by omega⟩
    have hstep : ((n + 1 : Nat) : Int) + -1 = (n : Int) := by omega
    have hge : (0 : Int) ≤ ((n + 1 : Nat) : Int) + -1 := by omega
    rw [nextruneLoop, nextruneReads, if_pos hge, if_pos hge, readByte_nat b (n + 1) hn]
    by_cases hc : b.getD (n + 1) 0 &&& 0xc0 = 0x80
    · obtain ⟨r, hr, hloop, hbetween, hat, hreads⟩ := ih f (by omega) (by omega)
      refine ⟨r, by omega, ?_, ?_, hat, ?_⟩
      · simp only [hc, if_true, hstep]
        exact hloop
      · intro k h1 h2
        by_cases hk : k = n + 1
        · rw [hk]; exact hc
        · exact hbetween k h1 (by omega)
      · simp only [hc, if_true, hstep]
        intro i hi
        rcases List.mem_cons.mp hi with h1 | h1
        · rw [h1]; omega
        · have := hreads i h1
          omega
    · refine ⟨n + 1, le_refl _, ?_, fun k h1 h2 => by omega, Or.inr hc, ?_⟩
      · simp only [hc, if_false]
      · simp only [hc, if_false]
        intro i hi
        rw [List.mem_singleton.mp hi]
        omega

theorem nextruneLoop_fwd_scan (b : Block) (len : Nat) (hlen : len < b.length)
    (hz : b.getD len 0 = 0) : ∀ (d n fuel : Nat), n + d = len → d < fuel →
    ∃ r : Nat, n ≤ r ∧ r ≤ len ∧ nextruneLoop b 1 fuel (n : Int) = .ok (r : Int)
      ∧ (∀ k, n ≤ k → k < r → b.getD k 0 &&& 0xc0 = 0x80)
      ∧ b.getD r 0 &&& 0xc0 ≠ 0x80
      ∧ (∀ i ∈ nextruneReads b 1 fuel (n : Int), (n : Int) ≤ i ∧ i ≤ (len : Int)) := by
  intro d
  induction d with
  | zero =>
    intro n fuel hn hf
    obtain ⟨f, rfl⟩ : ∃ f, fuel = f + 1 := ⟨fuel - 1, by omega⟩
    have hnl : n = len := by omega
    subst hnl
    have hnc : ¬ b.getD n 0 &&& 0xc0 = 0x80 := by rw [hz]; decide
    have hge : (0 : Int) ≤ (n : Int) + 1 := by omega
    refine ⟨n, le_refl _, le_refl _, ?_, fun k h1 h2 => by omega, hnc, ?_⟩
    · rw [nextruneLoop, if_pos hge, readByte_nat b n hlen]
      simp only [hnc, if_false]
    · rw [nextruneReads, if_pos hge, readByte_nat b n hlen]
      simp only [hnc, if_false]
      intro i hi
      rw [List.mem_singleton.mp hi]
      omega
  | succ d ih =>
    intro n fuel hn hf
    obtain ⟨f, rfl⟩ : ∃ f, fuel = f + 1 := ⟨fuel - 1, by omega⟩
    have hge : (0 : Int) ≤ (n : Int) + 1 := by omega
    have hstep : (n : Int) + 1 = ((n + 1 : Nat) : Int) := by omega
    rw [nextruneLoop, nextruneReads, if_pos hge, if_pos hge, readByte_nat b n (by omega)]
    by_cases hc : b.getD n 0 &&& 0xc0 = 0x80
    · obtain ⟨r, hr1, hr2, hloop, hbetween, hat, hreads⟩ := ih (n + 1) f (by omega) (by omega)
      refine ⟨r, by omega, hr2, ?_, ?_, hat, ?_⟩
      · simp only [hc, if_true, hstep]
        exact hloop
      · intro k h1 h2
        by_cases hk : k = n
        · rw [hk]; exact hc
        · exact hbetween k (by omega) h2
      · simp only [hc, if_true, hstep]
        intro i hi
        rcases List.mem_cons.mp hi with h1 | h1
        · rw [h1]; omega
        · have := hreads i h1
          omega
    · refine ⟨n, le_refl _, by omega, ?_, fun k h1 h2 => by omega, hc, ?_⟩
      · simp only [hc, if_false]
      · simp only [hc, if_false]
        intro i hi
        rw [List.mem_singleton.mp hi]
        omega

theorem terminator_at_strlen (b : Block) (h0 : 0 ∈ b) :
    (cstr b).length < b.length ∧ b.getD (cstr b).length 0 = 0 := by
  obtain ⟨J, hJ⟩ := block_eq_cstr_append b h0
  generalize cstr b = L at hJ ⊢
  subst hJ
  constructor
  · simp only [List.length_append, List.length_cons]; omega
  · rw [List.getD_eq_getElem?_getD, List.getElem?_append_right (le_refl _)]
    simp

theorem nextruneTrace_eq (s : State) (b : Block) (inc : Int) (hb : s.block = some b) :
    nextruneTrace s inc
      = nextruneReads b inc (b.length + 1) (toSSizeT (toSizeT (s.cursor + inc))) := by
  unfold nextruneTrace
  rw [hb]

theorem nextrune_fwd_scan (s : State) (b : Block) (hb : s.block = some b) (h0 : 0 ∈ b)
    (hmax : (b.length : Int) ≤ INT_MAX) (hc : s.cursor < (cstr b).length) :
    ∃ r, nextrune s 1 = .ok r ∧ s.cursor < r ∧ r ≤ (cstr b).length
      ∧ (∀ k, s.cursor < k → k < r → b.getD k 0 &&& 0xc0 = 0x80)
      ∧ b.getD r 0 &&& 0xc0 ≠ 0x80
      ∧ (∀ i ∈ nextruneTrace s 1, (0 : Int) ≤ i ∧ i ≤ ((cstr b).length : Int)) := by
  obtain ⟨hlt, hz⟩ := terminator_at_strlen b h0
  unfold INT_MAX at hmax
  have e0 : toSSizeT (toSizeT ((s.cursor : Int) + 1)) = ((s.cursor + 1 : Nat) : Int) := by
    rw [toSSizeT_toSizeT _ (by omega) (by omega)]; omega
  obtain ⟨r, hr1, hr2, hloop, hbetween, hat, hreads⟩ :=
    nextruneLoop_fwd_scan b (cstr b).length hlt hz ((cstr b).length - (s.cursor + 1))
      (s.cursor + 1) (b.length + 1) (by omega) (by omega)
  rw [← e0] at hloop hreads
  refine ⟨r, ?_, by omega, hr2, fun k h1 h2 => hbetween k (by omega) h2, hat, ?_⟩
  · rw [nextrune_eq s b 1 _ hb hloop, toSizeT_nat _ (by omega)]
  · rw [nextruneTrace_eq s b 1 hb]
    intro i hi
    have := hreads i hi
    omega

theorem nextrune_back_scan (s : State) (b : Block) (hb : s.block = some b) (h0 : 0 ∈ b)
    (hmax : (b.length : Int) ≤ INT_MAX) (hpos : 0 < s.cursor)
    (hc : s.cursor ≤ (cstr b).length) :
    ∃ r, nextrune s (-1) = .ok r ∧ r < s.cursor
      ∧ (∀ k, r < k → k < s.cursor → b.getD k 0 &&& 0xc0 = 0x80)
      ∧ (r = 0 ∨ b.getD r 0 &&& 0xc0 ≠ 0x80)
      ∧ (∀ i ∈ nextruneTrace s (-1), (0 : Int) ≤ i ∧ i ≤ ((cstr b).length : Int)) := by
  obtain ⟨hlt, _⟩ := terminator_at_strlen b h0
  unfold INT_MAX at hmax
  have e0 : toSSizeT (toSizeT ((s.cursor : Int) + -1)) = ((s.cursor - 1 : Nat) : Int) := by
    rw [toSSizeT_toSizeT _ (by omega) (by omega)]; omega
  obtain ⟨r, hr1, hloop, hbetween, hat, hreads⟩ :=
    nextruneLoop_back_scan b (s.cursor - 1) (b.length + 1) (by omega) (by omega)
  rw [← e0] at hloop hreads
  refine ⟨r, ?_, by omega, fun k h1 h2 => hbetween k h1 (by omega), hat, ?_⟩
  · rw [nextrune_eq s b (-1) _ hb hloop, toSizeT_nat _ (by omega)]
  · rw [nextruneTrace_eq s b (-1) hb]
    intro i hi
    have := hreads i hi
    omega

theorem first_byte_not_cont (b : Block) (h0 : 0 ∈ b) (hv : ValidUtf8 (cstr b)) :
    b.getD 0 0 &&& 0xc0 ≠ 0x80 := by
  obtain ⟨J, hJ⟩ := block_eq_cstr_append b h0
  obtain ⟨rs, hrs, hflat⟩ := hv
  obtain ⟨x, T, hxT, hx⟩ := head_not_cont rs hrs J
  rw [hflat, ← hJ] at hxT
  rw [hxT]
  exact hx

/-- C14: on a NUL-terminated buffer of valid UTF-8, `nextrune(+1)` from a cursor before the
end of the string and `nextrune(-1)` from a cursor behind its start return the nearest
offset strictly in that direction whose byte is not a continuation byte: the byte at the
returned offset has its top two bits different from `10`, and every byte strictly between
the cursor and the returned offset is a continuation byte.  This holds for every cursor
inside the string, on a code point boundary or not. -/
theorem nextrune_nearest (s : State) (b : Block) (hb : s.block = some b) (h0 : 0 ∈ b)
    (hmax : (b.length : Int) ≤ INT_MAX) (hv : ValidUtf8 (cstr b))
    (hc : s.cursor ≤ (cstr b).length) :
    (s.cursor < (cstr b).length →
        ∃ r, nextrune s 1 = .ok r ∧ s.cursor < r ∧ r ≤ (cstr b).length
          ∧ b.getD r 0 &&& 0xc0 ≠ 0x80
          ∧ ∀ k, s.cursor < k → k < r → b.getD k 0 &&& 0xc0 = 0x80)
      ∧ (0 < s.cursor →
        ∃ r, nextrune s (-1) = .ok r ∧ r < s.cursor
          ∧ b.getD r 0 &&& 0xc0 ≠ 0x80
          ∧ ∀ k, r < k → k < s.cursor → b.getD k 0 &&& 0xc0 = 0x80) := by
  constructor
  · intro hlt
    obtain ⟨r, h1, h2, h3, h4, h5, _⟩ := nextrune_fwd_scan s b hb h0 hmax hlt
    exact ⟨r, h1, h2, h3, h5, h4⟩
  · intro hpos
    obtain ⟨r, h1, h2, h3, h4, _⟩ := nextrune_back_scan s b hb h0 hmax hpos hc
    refine ⟨r, h1, h2, ?_, h3⟩
    rcases h4 with h4 | h4
    · rw [h4]; exact first_byte_not_cont b h0 hv
    · exact h4

/-- C14 (witness): in "héllo", whose "é" takes the offsets 1 and 2, `nextrune(-1)` returns 1
from the offset 3 and from the offset 2, and `nextrune(+1)` returns 3 from the offset 1. -/
theorem nextrune_nearest_witness :
    nextrune (primaryState helloBlock 3) (-1) = .ok 1
      ∧ nextrune (primaryState helloBlock 2) (-1) = .ok 1
      ∧ nextrune (primaryState helloBlock 1) 1 = .ok 3
      ∧ (∃ r, nextrune (primaryState helloBlock 3) (-1) = .ok r ∧ r < 3
          ∧ helloBlock.getD r 0 &&& 0xc0 ≠ 0x80
          ∧ ∀ k, r < k → k < 3 → helloBlock.getD k 0 &&& 0xc0 = 0x80)
      ∧ ∃ r, nextrune (primaryState helloBlock 1) 1 = .ok r ∧ 1 < r
          ∧ r ≤ (cstr helloBlock).length ∧ helloBlock.getD r 0 &&& 0xc0 ≠ 0x80
          ∧ ∀ k, 1 < k → k < r → helloBlock.getD k 0 &&& 0xc0 = 0x80 :=
  ⟨by decide, by decide, by decide,
    (nextrune_nearest (primaryState helloBlock 3) helloBlock rfl (by decide) (by decide)
      ⟨[[0x68], [0xc3, 0xa9], [0x6c], [0x6c], [0x6f]], by decide, rfl⟩ (by decide)).2
      (by decide),
    (nextrune_nearest (primaryState helloBlock 1) helloBlock rfl (by decide) (by decide)
      ⟨[[0x68], [0xc3, 0xa9], [0x6c], [0x6c], [0x6f]], by decide, rfl⟩ (by decide)).1
      (by decide)⟩

/-- C15 (counterexample): with the cursor on the terminator of "a" (offset 1 = length),
`nextrune(+1)` reads the offsets 2 and 3 behind the terminator and returns 3; when the
block ends with the terminator the read leaves the block.  With the cursor at offset 0,
`nextrune(-1)` returns `(size_t)-1`. -/
theorem nextrune_leaves_string :
    strlen [0x61, 0, 0x80, 0] = .ok 1
      ∧ nextruneTrace (primaryState [0x61, 0, 0x80, 0] 1) 1 = [2, 3]
      ∧ nextrune (primaryState [0x61, 0, 0x80, 0] 1) 1 = .ok 3
      ∧ nextrune (primaryState [0x61, 0] 1) 1 = .error .outOfBounds
      ∧ nextrune (primaryState [0x61, 0] 0) (-1) = .ok 18446744073709551615 := by
  decide

/-- C15 (amended): on a NUL-terminated buffer, the two calls that `keypress_pin` makes
under its guards, `nextrune(+1)` with the cursor before the terminator and `nextrune(-1)`
with the cursor behind offset 0, return; every index they read and the offset they return
lie between 0 and the length of the string. -/
theorem nextrune_bounds (s : State) (b : Block) (hb : s.block = some b) (h0 : 0 ∈ b)
    (hmax : (b.length : Int) ≤ INT_MAX) (hc : s.cursor ≤ (cstr b).length) :
    (s.cursor < (cstr b).length →
        ∃ r, nextrune s 1 = .ok r ∧ r ≤ (cstr b).length
          ∧ ∀ i ∈ nextruneTrace s 1, (0 : Int) ≤ i ∧ i ≤ ((cstr b).length : Int))
      ∧ (0 < s.cursor →
        ∃ r, nextrune s (-1) = .ok r ∧ r ≤ (cstr b).length
          ∧ ∀ i ∈ nextruneTrace s (-1), (0 : Int) ≤ i ∧ i ≤ ((cstr b).length : Int)) := by
  constructor
  · intro hlt
    obtain ⟨r, h1, _, h3, _, _, h6⟩ := nextrune_fwd_scan s b hb h0 hmax hlt
    exact ⟨r, h1, h3, h6⟩
  · intro hpos
    obtain ⟨r, h1, h2, _, _, h5⟩ := nextrune_back_scan s b hb h0 hmax hpos hc
    exact ⟨r, h1, by omega, h5⟩

/-- C15 (witness): both calls inside "héllo", from the offset 3. -/
theorem nextrune_bounds_witness :
    (∃ r, nextrune (primaryState helloBlock 3) 1 = .ok r ∧ r ≤ (cstr helloBlock).length
        ∧ ∀ i ∈ nextruneTrace (primaryState helloBlock 3) 1,
            (0 : Int) ≤ i ∧ i ≤ ((cstr helloBlock).length : Int))
      ∧ (∃ r, nextrune (primaryState helloBlock 3) (-1) = .ok r ∧ r ≤ (cstr helloBlock).length
        ∧ ∀ i ∈ nextruneTrace (primaryState helloBlock 3) (-1),
            (0 : Int) ≤ i ∧ i ≤ ((cstr helloBlock).length : Int)) :=
  have h := nextrune_bounds (primaryState helloBlock 3) helloBlock rfl (by decide) (by decide)
    (by decide)
  ⟨h.1 (by decide), h.2 (by decide)⟩

/-! ## C16, C17 and C19: delete to start, insert, delete to end -/

theorem keypress_pin_switch_control_char (m : Secmem) (s : State) (ksym : Nat) (buf : List Nat)
    (len : Int) (hk : ksym = XK_u ∨ ksym = XK_k) (hbuf : iscntrl (buf.headD 0) = true) :
    keypress_pin_switch m s ksym buf len = .ok (s, 0) := by
  unfold keypress_pin_switch
  rcases hk with hk | hk <;> rw [hk] <;>
    rw [if_neg (by decide), if_neg (by decide), if_neg (by decide), if_neg (by decide),
      if_neg (by decide), if_neg (by decide), if_neg (by decide), if_neg (by decide),
      if_neg (by rw [hbuf]; decide)] <;> rfl

theorem store_with_cursor (s : State) (k : Nat) (b : Block) :
    ({ s with cursor := k } : State).store b = { s.store b with cursor := k } := by
  unfold State.store
  cases hp : s.pin <;> simp [hp]

theorem store_same_cursor (s : State) (b : Block) :
    ({ s.store b with cursor := s.cursor } : State) = s.store b := by
  obtain ⟨_, _, pin, _, _, _, _, _, _⟩ := s
  cases pin <;> rfl

theorem bufferOk_pieces (s : State) (b : Block) (hs : BufferOk s b) :
    ∃ J, b = (cstr b).take s.cursor ++ (cstr b).drop s.cursor ++ 0 :: J
      ∧ ((cstr b).take s.cursor).length = s.cursor
      ∧ 0 ∉ (cstr b).take s.cursor ++ (cstr b).drop s.cursor := by
  obtain ⟨_, _, _, h0, hc⟩ := hs
  obtain ⟨J, hJ⟩ := block_eq_cstr_append b h0
  refine ⟨J, ?_, ?_, ?_⟩
  · rw [List.take_append_drop]; exact hJ
  · simp only [List.length_take]; omega
  · rw [List.take_append_drop]; exact zero_not_mem_cstr b

/-- C16: on a buffer in order, a Control-u key press whose decoded text is a control
character makes `keypress_pin` return 0 with the cursor at 0 and the buffer holding the old
bytes from the old cursor to the end of the string, NUL-terminated, in a block of the same
size: the length of the string is the old length minus the old cursor. -/
theorem ctrl_u_deletes_to_start (m : Secmem) (s : State) (b : Block) (ev : XKeyEvent)
    (hs : BufferOk s b) (hctl : ev.state &&& ControlMask ≠ 0) (hk : ev.ksym = XK_u)
    (hbuf : iscntrl (ev.buf.headD 0) = true) :
    ∃ J, keypress_pin m s ev ev.ksym ev.buf ev.len
        = .ok ({ s.store ((cstr b).drop s.cursor ++ 0 :: J) with cursor := 0 }, 0)
      ∧ ((cstr b).drop s.cursor ++ 0 :: J).length = b.length
      ∧ strlen ((cstr b).drop s.cursor ++ 0 :: J) = .ok ((cstr b).length - s.cursor) := by
  obtain ⟨J, hJ, hAl, h0AB⟩ := bufferOk_pieces s b hs
  obtain ⟨hb, hP, hmax, _, hc⟩ := hs
  have hble : (b.length : Int) ≤ 2147483647 := by rw [← hP]; exact hmax
  have hlt : (cstr b).length < b.length := (terminator_at_strlen b (by assumption)).1
  generalize cstr b = L at hJ hAl h0AB hc hlt ⊢
  have hb1 : s.block = some ([] ++ L.take s.cursor ++ L.drop s.cursor ++ 0 :: J) := by
    rw [hb, List.nil_append, ← hJ]
  have hP1 : s.pin_len = (([] ++ L.take s.cursor ++ L.drop s.cursor ++ 0 :: J).length : Int) := by
    rw [hP, List.nil_append, ← hJ]
  have hins := insert_delete m s [] (L.take s.cursor) (L.drop s.cursor) J [] hb1
    (by rw [List.nil_append]; exact h0AB) (by rw [hAl]; simp) hP1 hmax
  rw [hAl] at hins
  simp only [List.nil_append, List.length_nil] at hins
  have harg : toSSizeT (toSizeT (-(s.cursor : Int))) = -(s.cursor : Int) :=
    toSSizeT_toSizeT _ (by omega) (by omega)
  refine ⟨J ++ (L.take s.cursor ++ (L.drop s.cursor ++ 0 :: J)).drop
    (L.drop s.cursor ++ 0 :: J).length, ?_, ?_, ?_⟩
  · unfold keypress_pin
    rw [if_pos hctl, hk, if_neg (by decide), if_neg (by decide), if_neg (by decide),
      if_neg (by decide), if_neg (by decide), if_neg (by decide), if_neg (by decide),
      if_neg (by decide), if_neg (by decide), if_pos rfl, harg, hins, bind_ok,
      keypress_pin_switch_control_char m _ XK_u _ _ (Or.inl rfl) hbuf]
  · have e := congrArg List.length hJ
    simp only [List.length_append, List.length_cons, List.length_drop, List.length_take,
      List.length_nil] at e ⊢
    omega
  · have := strlen_append_zero (L.drop s.cursor) (J ++ (L.take s.cursor ++ (L.drop s.cursor ++ 0 :: J)).drop
      (L.drop s.cursor ++ 0 :: J).length)
      (fun h => h0AB (List.mem_append.mpr (Or.inr h)))
    rw [List.length_drop] at this
    exact this

/-- C16 (witness): Control-u with the cursor at offset 5 of the 5-byte string "hello":
the string is empty afterwards and the cursor is at 0. -/
theorem ctrl_u_deletes_to_start_witness :
    BufferOk (primaryState asciiBlock 5) asciiBlock
      ∧ (keypress_pin grantAll (primaryState asciiBlock 5) (withControl XK_u 0x15) XK_u
          [0x15] 1).map (fun r => (r.1.cursor, r.1.block.map cstr, r.2)) = .ok (0, some [], 0)
      ∧ ∃ J, keypress_pin grantAll (primaryState asciiBlock 5) (withControl XK_u 0x15)
            (withControl XK_u 0x15).ksym (withControl XK_u 0x15).buf (withControl XK_u 0x15).len
          = .ok ({ (primaryState asciiBlock 5).store
                    ((cstr asciiBlock).drop (primaryState asciiBlock 5).cursor ++ 0 :: J)
                   with cursor := 0 }, 0)
        ∧ ((cstr asciiBlock).drop (primaryState asciiBlock 5).cursor ++ 0 :: J).length
            = asciiBlock.length
        ∧ strlen ((cstr asciiBlock).drop (primaryState asciiBlock 5).cursor ++ 0 :: J)
            = .ok ((cstr asciiBlock).length - (primaryState asciiBlock 5).cursor) :=
  ⟨⟨rfl, rfl, by decide, by decide, by decide⟩, by decide,
    ctrl_u_deletes_to_start grantAll (primaryState asciiBlock 5) asciiBlock (withControl XK_u 0x15)
      ⟨rfl, rfl, by decide, by decide, by decide⟩ (by decide) rfl (by decide)⟩

/-- C19: on a buffer in order, a Control-k key press whose decoded text is a control
character makes `keypress_pin` return 0 with the buffer holding the old bytes before the
cursor, NUL-terminated at the cursor, in a block of the same size, and the cursor where it
was.  The run length that `insert` receives, the `ssize_t` value of the mixed `int` and
`size_t` subtraction `old - cursor`, is minus the number of bytes from the cursor to the end
of the string. -/
theorem ctrl_k_deletes_to_end (m : Secmem) (s : State) (b : Block) (ev : XKeyEvent)
    (hs : BufferOk s b) (hctl : ev.state &&& ControlMask ≠ 0) (hk : ev.ksym = XK_k)
    (hbuf : iscntrl (ev.buf.headD 0) = true) :
    ∃ J, keypress_pin m s ev ev.ksym ev.buf ev.len
        = .ok (s.store ((cstr b).take s.cursor ++ 0 :: J), 0)
      ∧ (s.store ((cstr b).take s.cursor ++ 0 :: J)).cursor = s.cursor
      ∧ ((cstr b).take s.cursor ++ 0 :: J).length = b.length
      ∧ strlen ((cstr b).take s.cursor ++ 0 :: J) = .ok s.cursor
      ∧ toSSizeT (toSizeT (toInt s.cursor - ((cstr b).length : Int)))
          = -(((cstr b).length - s.cursor : Nat) : Int) := by
  obtain ⟨J, hJ, hAl, h0AB⟩ := bufferOk_pieces s b hs
  obtain ⟨hb, hP, hmax, h0, hc⟩ := hs
  have hble : (b.length : Int) ≤ 2147483647 := by rw [← hP]; exact hmax
  have hlt : (cstr b).length < b.length := (terminator_at_strlen b h0).1
  have hlen : strlen b = .ok (cstr b).length := by
    unfold strlen cstr
    rw [if_pos h0]
  have hold : toInt s.cursor = (s.cursor : Int) := toInt_of_le _ (by unfold INT_MAX; omega)
  have harg : toSSizeT (toSizeT (toInt s.cursor - ((cstr b).length : Int)))
      = -(((cstr b).length - s.cursor : Nat) : Int) := by
    rw [hold, toSSizeT_toSizeT _ (by omega) (by omega)]; omega
  generalize cstr b = L at hJ hAl h0AB hc hlt hlen harg ⊢
  have hKl : (L.drop s.cursor).length = L.length - s.cursor := List.length_drop _ _
  have hb1 : ({ s with cursor := L.length } : State).block
      = some (L.take s.cursor ++ L.drop s.cursor ++ [] ++ 0 :: J) := by
    rw [block_with_cursor, hb, List.append_nil, ← hJ]
  have hP1 : ({ s with cursor := L.length } : State).pin_len
      = ((L.take s.cursor ++ L.drop s.cursor ++ [] ++ 0 :: J).length : Int) := by
    show s.pin_len = _
    rw [hP, List.append_nil, ← hJ]
  have hins := insert_delete m { s with cursor := L.length } (L.take s.cursor) (L.drop s.cursor)
    [] J [] hb1 (by rw [List.append_nil]; exact h0AB)
    (by show L.length = _; rw [hAl, hKl]; omega) hP1 hmax
  rw [hAl, hKl] at hins
  simp only [List.nil_append, List.append_nil] at hins
  rw [store_with_cursor] at hins
  refine ⟨J ++ (L.drop s.cursor ++ 0 :: J).drop (0 :: J).length, ?_, store_cursor _ _, ?_, ?_,
    harg⟩
  · unfold keypress_pin
    rw [if_pos hctl, hk, if_neg (by decide), if_neg (by decide), if_neg (by decide),
      if_neg (by decide), if_neg (by decide), if_neg (by decide), if_neg (by decide),
      if_neg (by decide), if_pos rfl, deref_of_block hb, bind_ok, hlen, bind_ok]
    show (insert m { s with cursor := L.length } []
        (toSSizeT (toSizeT (toInt s.cursor - (L.length : Int)))) >>= fun s2 => _) = _
    rw [harg, hins, bind_ok,
      keypress_pin_switch_control_char m _ XK_k _ _ (Or.inr rfl) hbuf]
    exact congrArg (fun t => Except.ok (t, (0 : Int))) (store_same_cursor s _)
  · have e := congrArg List.length hJ
    simp only [List.length_append, List.length_cons, List.length_drop, List.length_take,
      List.length_nil] at e ⊢
    omega
  · have := strlen_append_zero (L.take s.cursor)
      (J ++ (L.drop s.cursor ++ 0 :: J).drop (0 :: J).length)
      (fun h => h0AB (List.mem_append.mpr (Or.inl h)))
    rw [hAl] at this
    exact this

/-- C19 (witness): Control-k with the cursor at offset 2 of "hello" leaves "he" and the
cursor at 2; the run length is -3. -/
theorem ctrl_k_deletes_to_end_witness :
    BufferOk (primaryState asciiBlock 2) asciiBlock
      ∧ (keypress_pin grantAll (primaryState asciiBlock 2) (withControl XK_k 0x0b) XK_k
          [0x0b] 1).map (fun r => (r.1.cursor, r.1.block.map cstr, r.2))
        = .ok (2, some [0x68, 0x65], 0)
      ∧ ∃ J, keypress_pin grantAll (primaryState asciiBlock 2) (withControl XK_k 0x0b)
            (withControl XK_k 0x0b).ksym (withControl XK_k 0x0b).buf (withControl XK_k 0x0b).len
          = .ok ((primaryState asciiBlock 2).store
                  ((cstr asciiBlock).take (primaryState asciiBlock 2).cursor ++ 0 :: J), 0)
        ∧ ((primaryState asciiBlock 2).store
              ((cstr asciiBlock).take (primaryState asciiBlock 2).cursor ++ 0 :: J)).cursor
            = (primaryState asciiBlock 2).cursor
        ∧ ((cstr asciiBlock).take (primaryState asciiBlock 2).cursor ++ 0 :: J).length
            = asciiBlock.length
        ∧ strlen ((cstr asciiBlock).take (primaryState asciiBlock 2).cursor ++ 0 :: J)
            = .ok (primaryState asciiBlock 2).cursor
        ∧ toSSizeT (toSizeT (toInt (primaryState asciiBlock 2).cursor
              - ((cstr asciiBlock).length : Int)))
            = -(((cstr asciiBlock).length - (primaryState asciiBlock 2).cursor : Nat) : Int) :=
  ⟨⟨rfl, rfl, by decide, by decide, by decide⟩, by decide,
    ctrl_k_deletes_to_end grantAll (primaryState asciiBlock 2) asciiBlock (withControl XK_k 0x0b)
      ⟨rfl, rfl, by decide, by decide, by decide⟩ (by decide) rfl (by decide)⟩

/-- C17: on a buffer in order whose string of length `len` and a run of `n > 0` bytes have
room before the last byte of the block (`len + n ≤ capacity - 1`), `insert(str, n)` returns
with the content equal to the old bytes before the cursor, the first `n` bytes of `str`, and
the old bytes from the cursor to the end of the string, followed by the terminator; the
cursor has advanced by `n`; the block has its old size and `pin_len` its old value.  When
the run holds no NUL byte the new string has the length `len + n`. -/
theorem insert_effect (m : Secmem) (s : State) (b : Block) (str : List Nat) (n : Nat)
    (hs : BufferOk s b) (hn : 0 < n) (hstr : n ≤ str.length)
    (hnz : ∀ x ∈ str.take n, x ≠ 0) (hfit : (cstr b).length + n ≤ b.length - 1) :
    ∃ J, insert m s str (n : Int)
        = .ok { s.store ((cstr b).take s.cursor ++ str.take n ++ (cstr b).drop s.cursor ++ 0 :: J)
                with cursor := s.cursor + n }
      ∧ ((cstr b).take s.cursor ++ str.take n ++ (cstr b).drop s.cursor ++ 0 :: J).length
          = b.length
      ∧ ({ s.store ((cstr b).take s.cursor ++ str.take n ++ (cstr b).drop s.cursor ++ 0 :: J)
           with cursor := s.cursor + n } : State).pin_len = s.pin_len
      ∧ strlen ((cstr b).take s.cursor ++ str.take n ++ (cstr b).drop s.cursor ++ 0 :: J)
          = .ok ((cstr b).length + n) := by
  obtain ⟨Jb, hJ, hAl, h0AB⟩ := bufferOk_pieces s b hs
  obtain ⟨hb, hP, hmax, h0, hc⟩ := hs
  generalize cstr b = L at hJ hAl h0AB hc hfit ⊢
  have hbl : b.length = L.length + 1 + Jb.length := by
    have e := congrArg List.length hJ
    simp only [List.length_append, List.length_cons, List.length_drop, List.length_take] at e
    omega
  have hJsplit : Jb.take (Jb.length - n) ++ Jb.drop (Jb.length - n) = Jb :=
    List.take_append_drop _ _
  have hb2 : b = L.take s.cursor ++ L.drop s.cursor
      ++ 0 :: Jb.take (Jb.length - n) ++ Jb.drop (Jb.length - n) := by
    conv_lhs => rw [hJ]
    simp only [List.append_assoc, List.cons_append, hJsplit]
  have hins := insert_fits m s (L.take s.cursor) (L.drop s.cursor) (Jb.take (Jb.length - n))
    (Jb.drop (Jb.length - n)) str n (by rw [hb, ← hb2]) h0AB hAl.symm (by rw [hP, ← hb2]) hmax
    (by simp only [List.length_drop]; omega) hn hstr
  rw [hAl] at hins
  refine ⟨Jb.take (Jb.length - n), hins, ?_, ?_, ?_⟩
  · simp only [List.length_append, List.length_cons, List.length_drop, List.length_take]
    omega
  · show (s.store _).pin_len = _
    exact store_pin_len _ _
  · have h01 : 0 ∉ L.take s.cursor ++ str.take n ++ L.drop s.cursor := by
      intro h
      rcases List.mem_append.mp h with h2 | h2
      · rcases List.mem_append.mp h2 with h3 | h3
        · exact h0AB (List.mem_append.mpr (Or.inl h3))
        · exact hnz 0 h3 rfl
      · exact h0AB (List.mem_append.mpr (Or.inr h2))
    have := strlen_append_zero _ (Jb.take (Jb.length - n)) h01
    rw [this]
    simp only [List.length_append, List.length_drop, List.length_take]
    congr 1
    omega

/-- C17 (witness): "xy" inserted into "abc" behind the "a". -/
theorem insert_effect_witness :
    insert grantAll (primaryState abcBlock 1) [0x78, 0x79] 2
        = .ok (primaryState [0x61, 0x78, 0x79, 0x62, 0x63, 0, 0, 0] 3)
      ∧ ∃ J, insert grantAll (primaryState abcBlock 1) [0x78, 0x79] ((2 : Nat) : Int)
          = .ok { (primaryState abcBlock 1).store
                    ((cstr abcBlock).take (primaryState abcBlock 1).cursor ++ [0x78, 0x79].take 2
                      ++ (cstr abcBlock).drop (primaryState abcBlock 1).cursor ++ 0 :: J)
                  with cursor := (primaryState abcBlock 1).cursor + 2 }
        ∧ ((cstr abcBlock).take (primaryState abcBlock 1).cursor ++ [0x78, 0x79].take 2
              ++ (cstr abcBlock).drop (primaryState abcBlock 1).cursor ++ 0 :: J).length
            = abcBlock.length
        ∧ ({ (primaryState abcBlock 1).store
              ((cstr abcBlock).take (primaryState abcBlock 1).cursor ++ [0x78, 0x79].take 2
                ++ (cstr abcBlock).drop (primaryState abcBlock 1).cursor ++ 0 :: J)
             with cursor := (primaryState abcBlock 1).cursor + 2 } : State).pin_len
            = (primaryState abcBlock 1).pin_len
        ∧ strlen ((cstr abcBlock).take (primaryState abcBlock 1).cursor ++ [0x78, 0x79].take 2
              ++ (cstr abcBlock).drop (primaryState abcBlock 1).cursor ++ 0 :: J)
            = .ok ((cstr abcBlock).length + 2) :=
  ⟨by decide,
    insert_effect grantAll (primaryState abcBlock 1) abcBlock [0x78, 0x79] 2
      ⟨rfl, rfl, by decide, by decide, by decide⟩ (by decide) (by decide) (by decide)
      (by decide)⟩

/-! ## C18: Delete and BackSpace remove one code point -/

theorem keypress_pin_unmodified (m : Secmem) (s : State) (ev : XKeyEvent) (ksym : Nat)
    (buf : List Nat) (len : Int) (hmod : ev.state &&& ControlMask = 0) :
    keypress_pin m s ev ksym buf len = keypress_pin_switch m s ksym buf len := by
  unfold keypress_pin
  rw [if_neg (by rw [hmod]; simp)]

/-- C18: the buffer holds the code points `pre` before the cursor and `post` from the
cursor on (valid UTF-8, the cursor on a code point boundary), and the key is pressed
without the control modifier.  Delete at the end of the text and BackSpace at offset 0
return 0 and change nothing.  Otherwise Delete returns 0 with the first code point of
`post` removed, all other bytes of the string in their order, and the cursor where it was;
BackSpace returns 0 with the last code point of `pre` removed, all other bytes of the
string in their order, and the cursor at the offset where that code point started.  The
block keeps its size. -/
theorem delete_backspace_one_rune (m : Secmem) (s : State) (pre post : List (List Nat))
    (J : List Nat) (ev : XKeyEvent) (h : RunesAt s pre post J)
    (hmod : ev.state &&& ControlMask = 0) :
    ((ev.ksym = XK_Delete ∨ ev.ksym = XK_KP_Delete) →
        (post = [] → keypress_pin m s ev ev.ksym ev.buf ev.len = .ok (s, 0))
        ∧ (∀ r rest, post = r :: rest →
            ∃ J1, keypress_pin m s ev ev.ksym ev.buf ev.len
                = .ok (s.store (pre.flatten ++ rest.flatten ++ 0 :: J1), 0)
              ∧ RunesAt (s.store (pre.flatten ++ rest.flatten ++ 0 :: J1)) pre rest J1))
      ∧ (ev.ksym = XK_BackSpace →
        (pre = [] → keypress_pin m s ev ev.ksym ev.buf ev.len = .ok (s, 0))
        ∧ (∀ init r, pre = init ++ [r] →
            ∃ J1, keypress_pin m s ev ev.ksym ev.buf ev.len
                = .ok ({ s.store (init.flatten ++ post.flatten ++ 0 :: J1)
                         with cursor := init.flatten.length }, 0)
              ∧ RunesAt { s.store (init.flatten ++ post.flatten ++ 0 :: J1)
                          with cursor := init.flatten.length } init post J1)) := by
  rw [keypress_pin_unmodified m s ev _ _ _ hmod]
  constructor
  · intro hdel
    constructor
    · intro hp
      subst hp
      obtain ⟨b, hd, hread⟩ := runesAt_at_end s pre J h
      unfold keypress_pin_switch
      rw [if_pos hdel, hd, bind_ok, hread, bind_ok, if_pos rfl]
      rfl
    · intro r rest hp
      subst hp
      obtain ⟨b, lead, c1, hd, hread, hl0, hnext, h1⟩ := runesAt_forward s pre rest r J h
      obtain ⟨J1, hbs, h2⟩ := keypress_pin_backspace_rune m { s with cursor := c1 } pre rest r J h1
      have hcur : pre.flatten.length = s.cursor := h.2.2.2.1.symm
      have hst : ({ ({ s with cursor := c1 } : State).store (pre.flatten ++ rest.flatten ++ 0 :: J1)
            with cursor := pre.flatten.length } : State)
          = s.store (pre.flatten ++ rest.flatten ++ 0 :: J1) := by
        rw [store_with_cursor, hcur]
        exact store_same_cursor s _
      rw [hst] at hbs h2
      refine ⟨J1, ?_, h2⟩
      unfold keypress_pin_switch
      rw [if_pos hdel, hd, bind_ok, hread, bind_ok, if_neg hl0, hnext, bind_ok, hbs]
  · intro hbk
    have hnd : ¬ (ev.ksym = XK_Delete ∨ ev.ksym = XK_KP_Delete) := by
      rw [hbk]; decide
    constructor
    · intro hp
      subst hp
      unfold keypress_pin_switch keypress_pin_backspace
      rw [if_neg hnd, if_pos hbk, if_pos (runesAt_nil_cursor s post J h)]
      rfl
    · intro init r hp
      subst hp
      obtain ⟨J1, hbs, h2⟩ := keypress_pin_backspace_rune m s init post r J h
      refine ⟨J1, ?_, h2⟩
      unfold keypress_pin_switch
      rw [if_neg hnd, if_pos hbk, hbs]

/-- C18 (witness): in "héllo" with the cursor behind the two-byte "é" (offset 3), BackSpace
removes the two bytes of "é" and puts the cursor at offset 1, and Delete removes the "l" at
the cursor and leaves the cursor at offset 3. -/
theorem delete_backspace_one_rune_witness :
    RunesAt (primaryState helloBlock 3) [[0x68], [0xc3, 0xa9]] [[0x6c], [0x6c], [0x6f]] [0]
      ∧ keypress_pin grantAll (primaryState helloBlock 3) (functionKey XK_BackSpace) XK_BackSpace
          [] 0 = .ok (primaryState [0x68, 0x6c, 0x6c, 0x6f, 0, 0, 0, 0] 1, 0)
      ∧ keypress_pin grantAll (primaryState helloBlock 3) (functionKey XK_Delete) XK_Delete
          [] 0 = .ok (primaryState [0x68, 0xc3, 0xa9, 0x6c, 0x6f, 0, 0, 0] 3, 0)
      ∧ (∃ J1, keypress_pin grantAll (primaryState helloBlock 3) (functionKey XK_BackSpace)
            (functionKey XK_BackSpace).ksym (functionKey XK_BackSpace).buf
            (functionKey XK_BackSpace).len
          = .ok ({ (primaryState helloBlock 3).store
                    ([[0x68]].flatten ++ [[0x6c], [0x6c], [0x6f]].flatten ++ 0 :: J1)
                   with cursor := [[0x68]].flatten.length }, 0)
        ∧ RunesAt { (primaryState helloBlock 3).store
                      ([[0x68]].flatten ++ [[0x6c], [0x6c], [0x6f]].flatten ++ 0 :: J1)
                    with cursor := [[0x68]].flatten.length } [[0x68]] [[0x6c], [0x6c], [0x6f]] J1)
      ∧ ∃ J1, keypress_pin grantAll (primaryState helloBlock 3) (functionKey XK_Delete)
            (functionKey XK_Delete).ksym (functionKey XK_Delete).buf (functionKey XK_Delete).len
          = .ok ((primaryState helloBlock 3).store
                  ([[0x68], [0xc3, 0xa9]].flatten ++ [[0x6c], [0x6f]].flatten ++ 0 :: J1), 0)
        ∧ RunesAt ((primaryState helloBlock 3).store
                    ([[0x68], [0xc3, 0xa9]].flatten ++ [[0x6c], [0x6f]].flatten ++ 0 :: J1))
            [[0x68], [0xc3, 0xa9]] [[0x6c], [0x6f]] J1 :=
  ⟨⟨by decide, by decide, rfl, rfl, rfl, by decide⟩, by decide, by decide,
    ((delete_backspace_one_rune grantAll (primaryState helloBlock 3) [[0x68], [0xc3, 0xa9]]
      [[0x6c], [0x6c], [0x6f]] [0] (functionKey XK_BackSpace)
      ⟨by decide, by decide, rfl, rfl, rfl, by decide⟩ (by decide)).2 rfl).2
      [[0x68]] [0xc3, 0xa9] rfl,
    ((delete_backspace_one_rune grantAll (primaryState helloBlock 3) [[0x68], [0xc3, 0xa9]]
      [[0x6c], [0x6c], [0x6f]] [0] (functionKey XK_Delete)
      ⟨by decide, by decide, rfl, rfl, rfl, by decide⟩ (by decide)).1 (Or.inl rfl)).2
      [0x6c] [[0x6c], [0x6f]] rfl⟩

/-! ## C12: when typing makes the buffer grow -/

theorem store_store (s : State) (X Y : Block) : (s.store X).store Y = s.store Y := by
  obtain ⟨_, _, pin, _, _, _, _, _, _⟩ := s
  cases pin <;> rfl

theorem pressKeys_append (m : Secmem) : ∀ (xs ys : List XKeyEvent) (s : State),
    pressKeys m s (xs ++ ys) = pressKeys m s xs >>= fun t => pressKeys m t ys := by
  intro xs
  induction xs with
  | nil => intro ys s; rfl
  | cons e es ih =>
    intro ys s
    rw [List.cons_append, pressKeys, pressKeys]
    cases h : keypress_pin m s e e.ksym e.buf e.len with
    | error f => rfl
    | ok r => exact ih ys r.1

theorem keypress_pin_typeKey (m : Secmem) (s : State) (c : Nat) (h1 : 0x20 ≤ c) (h2 : c < 0x7f) :
    keypress_pin m s (typeKey c) (typeKey c).ksym (typeKey c).buf (typeKey c).len
      = insert m s [c] 1 >>= fun s1 => pure (s1, 0) := by
  rw [keypress_pin_unmodified m s _ _ _ _ (show (0 : Nat) &&& ControlMask = 0 by decide)]
  show keypress_pin_switch m s c [c] 1 = _
  unfold keypress_pin_switch
  rw [if_neg (by unfold XK_Delete XK_KP_Delete; omega), if_neg (by unfold XK_BackSpace; omega),
    if_neg (by unfold XK_Escape; omega), if_neg (by unfold XK_Left XK_KP_Left; omega),
    if_neg (by unfold XK_Right XK_KP_Right; omega), if_neg (by unfold XK_Home XK_KP_Home; omega),
    if_neg (by unfold XK_End XK_KP_End; omega), if_neg (by unfold XK_Return XK_KP_Enter; omega),
    if_pos (by
      show iscntrl c = false
      unfold iscntrl
      simp only [Bool.or_eq_false_iff, decide_eq_false_iff_not]
      omega)]

theorem pressKeys_typeKey (m : Secmem) (s : State) (c : Nat) (es : List XKeyEvent)
    (h1 : 0x20 ≤ c) (h2 : c < 0x7f) :
    pressKeys m s (typeKey c :: es) = insert m s [c] 1 >>= fun s1 => pressKeys m s1 es := by
  rw [pressKeys, keypress_pin_typeKey m s c h1 h2]
  cases insert m s [c] 1 with
  | error f => rfl
  | ok s1 => rfl

theorem store_own_block (s : State) (b : Block) (h : s.block = some b) : s.store b = s := by
  obtain ⟨_, _, pin, _, prep, _, _, _, ⟨ipin, _, _, _, _, _⟩⟩ := s
  cases pin
  · rfl
  · simp only [State.block] at h
    subst h
    rfl
  · simp only [State.block] at h
    subst h
    rfl

theorem pressKeys_type_fits (m : Secmem) : ∀ (cs : List Nat) (t : State) (A J : List Nat),
    (∀ c ∈ cs, 0x20 ≤ c ∧ c < 0x7f) → t.block = some (A ++ 0 :: J) → 0 ∉ A →
    t.cursor = A.length → t.pin_len = ((A ++ 0 :: J).length : Int) → t.pin_len ≤ INT_MAX →
    cs.length ≤ J.length →
    pressKeys m t (cs.map typeKey)
      = .ok { t.store (A ++ cs ++ 0 :: J.take (J.length - cs.length))
              with cursor := A.length + cs.length } := by
  intro cs
  induction cs with
  | nil =>
    intro t A J _ hb _ hc _ _ _
    have e : A ++ [] ++ 0 :: J.take (J.length - ([] : List Nat).length) = A ++ 0 :: J := by simp
    rw [e, store_own_block t _ hb]
    show Except.ok t = Except.ok { t with cursor := A.length + 0 }
    rw [Nat.add_zero, ← hc]
  | cons c cs ih =>
    intro t A J hcs hb h0 hc hP hmax hlen
    obtain ⟨hc1, hc2⟩ := hcs c (by simp)
    have hcs' : ∀ x ∈ cs, 0x20 ≤ x ∧ x < 0x7f := fun x hx => hcs x (by simp [hx])
    simp only [List.length_cons] at hlen
    have hJsplit : J.take (J.length - 1) ++ J.drop (J.length - 1) = J := List.take_append_drop _ _
    have hblk : A ++ [] ++ 0 :: J.take (J.length - 1) ++ J.drop (J.length - 1) = A ++ 0 :: J := by
      simp only [List.append_nil, List.append_assoc, List.cons_append, hJsplit]
    have hins := insert_fits m t A [] (J.take (J.length - 1)) (J.drop (J.length - 1)) [c] 1
      (by rw [hblk]; exact hb) (by simpa using h0) hc (by rw [hblk]; exact hP) hmax
      (by simp only [List.length_drop]; omega) (by omega) (by simp)
    have hins' : insert m t [c] 1
        = .ok { t.store (A ++ [c] ++ 0 :: J.take (J.length - 1)) with cursor := A.length + 1 } := by
      have e : A ++ [c].take 1 ++ [] ++ 0 :: J.take (J.length - 1)
          = A ++ [c] ++ 0 :: J.take (J.length - 1) := by simp
      rw [e] at hins
      exact hins
    have hb1 : ({ t.store (A ++ [c] ++ 0 :: J.take (J.length - 1))
        with cursor := A.length + 1 } : State).block
        = some (A ++ [c] ++ 0 :: J.take (J.length - 1)) := by
      rw [block_with_cursor, block_store hb]
    have hl1 : (A ++ [c] ++ 0 :: J.take (J.length - 1)).length = (A ++ 0 :: J).length := by
      simp only [List.length_append, List.length_cons, List.length_take, List.length_nil]
      omega
    have h01 : 0 ∉ A ++ [c] := by
      intro h
      rcases List.mem_append.mp h with h1 | h1
      · exact h0 h1
      · have := List.mem_singleton.mp h1
        omega
    have hrec := ih { t.store (A ++ [c] ++ 0 :: J.take (J.length - 1)) with cursor := A.length + 1 }
      (A ++ [c]) (J.take (J.length - 1)) hcs' hb1 h01
      (by simp only [List.length_append, List.length_singleton])
      (by show (t.store _).pin_len = _; rw [store_pin_len, hP, hl1])
      (by show (t.store _).pin_len ≤ _; rw [store_pin_len]; exact hmax)
      (by simp only [List.length_take]; omega)
    rw [List.map_cons, pressKeys_typeKey m t c _ hc1 hc2, hins', bind_ok, hrec,
      store_with_cursor, store_store]
    have hY : A ++ [c] ++ cs ++ 0 :: (J.take (J.length - 1)).take
          ((J.take (J.length - 1)).length - cs.length)
        = A ++ c :: cs ++ 0 :: J.take (J.length - (c :: cs).length) := by
      have : (J.take (J.length - 1)).take ((J.take (J.length - 1)).length - cs.length)
          = J.take (J.length - (c :: cs).length) := by
        rw [List.take_take]
        simp only [List.length_take, List.length_cons]
        congr 1
        omega
      rw [this]
      simp
    have hk : (A ++ [c]).length + cs.length = A.length + (c :: cs).length := by
      simp only [List.length_append, List.length_cons, List.length_nil]; omega
    rw [hY, hk]

theorem insert_into_full (m : Secmem) (t : State) (A : List Nat) (c : Nat)
    (hb : t.block = some (A ++ [0])) (h0 : 0 ∉ A) (hc : t.cursor = A.length)
    (hP : t.pin_len = ((A ++ [0]).length : Int)) (hcons : PassConsistent t)
    (hg : m.grants (2 * (A ++ [0]).length) = true)
    (hmax2 : 2 * ((A ++ [0]).length : Int) ≤ INT_MAX) :
    ∃ s1 J1, insert m t [c] 1 = .ok s1 ∧ s1.block = some (A ++ [c] ++ 0 :: J1)
      ∧ (A ++ [c] ++ 0 :: J1).length = 2 * (A ++ [0]).length
      ∧ s1.pin_len = 2 * ((A ++ [0]).length : Int) ∧ s1.cursor = A.length + 1 := by
  obtain ⟨sg, F, hgrow, hbg, hFl, hPg, hcg, _⟩ := insertGrow_grant m t _ hb hP hcons hg hmax2
  have hlenA : (A ++ [0]).length = A.length + 1 := by simp
  rw [hlenA] at hFl hPg hmax2 hP ⊢
  unfold INT_MAX at hmax2
  have hstrlen : strlen (A ++ [0]) = .ok A.length := strlen_append_zero A [] h0
  have hstrlen2 : strlen (A ++ [0] ++ F) = .ok A.length := by
    have := strlen_append_zero A F h0
    simpa using this
  have hcond : toSizeT (t.pin_len - 1) < toSizeT ((A.length : Int) + 1) := by
    rw [hP]; unfold toSizeT SIZE_MOD; omega
  have hne : sg.pin_len ≠ 0 := by rw [hPg]; omega
  have hins1 := insert_of_grow m t sg _ A.length [c] 1 hb hstrlen hcond hgrow hne
  have hcond2 : ¬ toSizeT (sg.pin_len - 1) < toSizeT ((A.length : Int) + 1) := by
    rw [hPg]; unfold toSizeT SIZE_MOD; omega
  have hins2 := insert_of_fit m sg _ A.length [c] 1 hbg hstrlen2 hcond2
  have hFsplit : F.take (F.length - 1) ++ F.drop (F.length - 1) = F := List.take_append_drop _ _
  have hblk : A ++ [] ++ 0 :: F.take (F.length - 1) ++ F.drop (F.length - 1) = A ++ [0] ++ F := by
    simp only [List.append_nil, List.append_assoc, List.cons_append, hFsplit, List.nil_append]
  have hfit := insert_fits m sg A [] (F.take (F.length - 1)) (F.drop (F.length - 1)) [c] 1
    (by rw [hblk]; exact hbg) (by simpa using h0) (by rw [hcg, hc])
    (by rw [hblk, hPg]; simp only [List.length_append, List.length_singleton, hFl]; push_cast; ring)
    (by rw [hPg]; unfold INT_MAX; omega)
    (by simp only [List.length_drop]; omega) (by omega) (by simp)
  have e : A ++ [c].take 1 ++ [] ++ 0 :: F.take (F.length - 1)
      = A ++ [c] ++ 0 :: F.take (F.length - 1) := by simp
  rw [e] at hfit
  refine ⟨{ sg.store (A ++ [c] ++ 0 :: F.take (F.length - 1)) with cursor := A.length + 1 },
    F.take (F.length - 1), ?_, ?_, ?_, ?_, rfl⟩
  · rw [hins1, ← hins2]; exact hfit
  · rw [block_with_cursor, block_store hbg]
  · simp only [List.length_append, List.length_cons, List.length_take, List.length_nil]
    omega
  · show (sg.store _).pin_len = _
    rw [store_pin_len, hPg]

theorem passConsistent_store (s : State) (b : Block) (k : Nat) (h : PassConsistent s) :
    PassConsistent { s.store b with cursor := k } := by
  obtain ⟨_, _, pin, _, _, _, _, _, _⟩ := s
  cases pin <;> exact h

/-- The redraw that follows a key press overruns its display string when the buffer is
full: with "abcdefg" in the 8 bytes of `pin`, `drawmenu` allocates 8 bytes for `censort`
and writes `censort[i+1]` at the index 8.  The key press that types the seventh byte ends
there, after `keypress_pin` has returned. -/
theorem redraw_overruns_display_string :
    drawmenu (primaryState fullBlock 7) = .error .outOfBounds
      ∧ keypress grantNone (primaryState [0x61, 0x62, 0x63, 0x64, 0x65, 0x66, 0, 0] 6)
          (typeKey 0x67) = .error .outOfBounds := by
  decide

/-- C12 (counterexample): "abcdefg" typed into the empty buffer of capacity 8 ends with the
length 7 in the same 8 bytes, `pin_len` still 8, although the allocator would refuse every
request: the seventh byte triggers no growth.  In a session that starts with these key
presses, the seventh one finds "abcdef" in the buffer (seven steps: the entry into the
pass and six key presses with their redraws), and `keypress_pin` accepts its byte in the
same block.  It is the eighth byte that makes the buffer grow to 16. -/
theorem seven_bytes_need_no_growth :
    pressKeys grantNone (primaryState emptyBlock 0)
        ([0x61, 0x62, 0x63, 0x64, 0x65, 0x66, 0x67].map typeKey)
      = .ok (primaryState fullBlock 7)
      ∧ (primaryState fullBlock 7).pin_len = 8
      ∧ stepN grantNone 7 (startConfig startState (pinRequest 8 false)
          (([0x61, 0x62, 0x63, 0x64, 0x65, 0x66, 0x67].map fun c => XEvent.keyPress (typeKey c))
            ++ [.keyPress (functionKey XK_Return)]))
        = some { phase := .primaryRun,
                 st := primaryState [0x61, 0x62, 0x63, 0x64, 0x65, 0x66, 0, 0] 6,
                 evs := [.keyPress (typeKey 0x67), .keyPress (functionKey XK_Return)] }
      ∧ keypress_pin grantNone (primaryState [0x61, 0x62, 0x63, 0x64, 0x65, 0x66, 0, 0] 6)
          (typeKey 0x67) 0x67 [0x67] 1 = .ok (primaryState fullBlock 7, 0)
      ∧ (pressKeys grantAll (primaryState fullBlock 7) [typeKey 0x68]).map
          (fun s => (s.pin_len, s.block.map cstr))
        = .ok (16, some [0x61, 0x62, 0x63, 0x64, 0x65, 0x66, 0x67, 0x68]) := by
  decide

/-- C12 (amended): printable ASCII characters are typed one at a time into an empty buffer
of capacity `C` (a block of `C` bytes that starts with the terminator).  As long as there
are at most `C - 1` of them nothing grows: the block has its `C` bytes and holds the typed
bytes and the terminator, the cursor is behind them, and nothing else has changed in the
state, whatever the allocator would do.  When `C` of them are typed and the allocator grants
`2C` bytes, the last one makes the buffer grow to the capacity `2C` before it is accepted,
and the string ends with the length `C`.  The key presses are taken through `keypress_pin`,
which handles the buffer; the redraw between them is not part of the statement. -/
theorem growth_threshold (m : Secmem) (s : State) (b : Block) (cs : List Nat)
    (hs : BufferOk s b) (hempty : cstr b = []) (hcs : ∀ c ∈ cs, 0x20 ≤ c ∧ c < 0x7f) :
    (cs.length ≤ b.length - 1 →
        ∃ J1, pressKeys m s (cs.map typeKey)
            = .ok { s.store (cs ++ 0 :: J1) with cursor := cs.length }
          ∧ (cs ++ 0 :: J1).length = b.length)
      ∧ (cs.length = b.length → PassConsistent s → m.grants (2 * b.length) = true →
          2 * (b.length : Int) ≤ INT_MAX →
        ∃ s1 J1, pressKeys m s (cs.map typeKey) = .ok s1 ∧ s1.block = some (cs ++ 0 :: J1)
          ∧ (cs ++ 0 :: J1).length = 2 * b.length ∧ s1.pin_len = 2 * (b.length : Int)
          ∧ s1.cursor = cs.length) := by
  obtain ⟨hb, hP, hmax, h0, hc⟩ := hs
  obtain ⟨J, hJ⟩ := block_eq_cstr_append b h0
  rw [hempty] at hJ hc
  simp only [List.nil_append] at hJ
  subst hJ
  have hc0 : s.cursor = ([] : List Nat).length := by simpa using hc
  have hfits : ∀ xs : List Nat, (∀ c ∈ xs, 0x20 ≤ c ∧ c < 0x7f) → xs.length ≤ J.length →
      pressKeys m s (xs.map typeKey)
        = .ok { s.store (xs ++ 0 :: J.take (J.length - xs.length)) with cursor := xs.length } := by
    intro xs hxs hlen
    have := pressKeys_type_fits m xs s [] J hxs (by simpa using hb) (by simp) hc0
      (by simpa using hP) hmax hlen
    simpa using this
  constructor
  · intro hlen
    simp only [List.length_cons, Nat.add_sub_cancel] at hlen
    refine ⟨_, hfits cs hcs hlen, ?_⟩
    simp only [List.length_append, List.length_cons, List.length_take]
    omega
  · intro hlen hcons hg hmax2
    simp only [List.length_cons] at hlen
    rcases List.eq_nil_or_concat cs with rfl | ⟨init, c, rfl⟩
    · simp at hlen
    rw [List.concat_eq_append] at hlen hcs ⊢
    have hil : init.length = J.length := by
      simp only [List.length_append, List.length_singleton] at hlen; omega
    have hinit : ∀ x ∈ init, 0x20 ≤ x ∧ x < 0x7f := fun x hx => hcs x (by simp [hx])
    obtain ⟨hc1, hc2⟩ := hcs c (by simp)
    have h1 := hfits init hinit (by omega)
    have hJ0 : J.take (J.length - init.length) = [] := by
      rw [hil, Nat.sub_self]; rfl
    rw [hJ0] at h1
    have h0i : 0 ∉ init := by
      intro h
      have := (hinit 0 h).1
      omega
    have hbl : (init ++ [0]).length = (0 :: J).length := by
      simp only [List.length_append, List.length_singleton, List.length_cons, List.length_nil]
      omega
    obtain ⟨s1, J1, hins, hb1, hl1, hP1, hcur1⟩ := insert_into_full m
      { s.store (init ++ [0]) with cursor := init.length } init c
      (by rw [block_with_cursor, block_store hb]) h0i rfl
      (by show (s.store _).pin_len = _; rw [store_pin_len, hP, hbl])
      (passConsistent_store s _ _ hcons) (by rw [hbl]; exact hg) (by rw [hbl]; exact hmax2)
    refine ⟨s1, J1, ?_, hb1, by rw [hl1, hbl], by rw [hP1, hbl], ?_⟩
    · rw [List.map_append, pressKeys_append, h1, bind_ok]
      show pressKeys m _ [typeKey c] = _
      rw [pressKeys_typeKey m _ c [] hc1 hc2, hins, bind_ok]
      rfl
    · rw [hcur1]; simp

/-- C12 (witness): "abcdef" and "abcdefg" typed into the empty buffer of capacity 8 leave
the capacity at 8; "abcdefgh" makes it 16. -/
theorem growth_threshold_witness :
    BufferOk (primaryState emptyBlock 0) emptyBlock ∧ cstr emptyBlock = []
      ∧ (∃ J1, pressKeys grantAll (primaryState emptyBlock 0)
            ([0x61, 0x62, 0x63, 0x64, 0x65, 0x66, 0x67].map typeKey)
          = .ok { (primaryState emptyBlock 0).store
                    ([0x61, 0x62, 0x63, 0x64, 0x65, 0x66, 0x67] ++ 0 :: J1)
                  with cursor := [0x61, 0x62, 0x63, 0x64, 0x65, 0x66, 0x67].length }
        ∧ ([0x61, 0x62, 0x63, 0x64, 0x65, 0x66, 0x67] ++ 0 :: J1).length = emptyBlock.length)
      ∧ (pressKeys grantAll (primaryState emptyBlock 0)
            ([0x61, 0x62, 0x63, 0x64, 0x65, 0x66].map typeKey)).map (fun s => s.pin_len) = .ok 8
      ∧ (pressKeys grantAll (primaryState emptyBlock 0)
            ([0x61, 0x62, 0x63, 0x64, 0x65, 0x66, 0x67, 0x68].map typeKey)).map
          (fun s => s.pin_len) = .ok 16
      ∧ (∃ s1 J1, pressKeys grantAll (primaryState emptyBlock 0)
            ([0x61, 0x62, 0x63, 0x64, 0x65, 0x66, 0x67, 0x68].map typeKey) = .ok s1
          ∧ s1.block = some ([0x61, 0x62, 0x63, 0x64, 0x65, 0x66, 0x67, 0x68] ++ 0 :: J1)
          ∧ ([0x61, 0x62, 0x63, 0x64, 0x65, 0x66, 0x67, 0x68] ++ 0 :: J1).length
              = 2 * emptyBlock.length
          ∧ s1.pin_len = 2 * (emptyBlock.length : Int)
          ∧ s1.cursor = [0x61, 0x62, 0x63, 0x64, 0x65, 0x66, 0x67, 0x68].length) :=
  ⟨⟨rfl, rfl, by decide, by decide, by decide⟩, by decide,
    (growth_threshold grantAll (primaryState emptyBlock 0) emptyBlock
      [0x61, 0x62, 0x63, 0x64, 0x65, 0x66, 0x67] ⟨rfl, rfl, by decide, by decide, by decide⟩
      (by decide) (by decide)).1 (by decide),
    by decide, by decide,
    (growth_threshold grantAll (primaryState emptyBlock 0) emptyBlock
      [0x61, 0x62, 0x63, 0x64, 0x65, 0x66, 0x67, 0x68] ⟨rfl, rfl, by decide, by decide, by decide⟩
      (by decide) (by decide)).2 (by decide) ⟨fun h => absurd rfl h, fun _ => ⟨rfl, rfl⟩⟩
      (by decide) (by decide)⟩

end PinentryDmenu
